import Mathlib

/-
  Verification development for the unidrive document-management system.

  The definitions below are a shallow embedding of the storage layer of the
  repository: the document routes (src/app/api/documents/route.ts and
  src/app/api/documents/[id]/route.ts), the move route
  (src/app/api/documents/[id]/move/route.ts), the folder routes
  (src/app/api/folders/route.ts and the folder [id] handlers), and the
  preview generator (DocumentPreviewGenerator).

  Modelling conventions:
  - The on-disk stores (storage/documents, storage/metadata, storage/folders,
    storage/previews) are lists of records; a record stands for one JSON file
    and the record id is the filename stem.  The API always writes a file
    whose name stem equals the id field inside it, so the embedding
    identifies the two.
  - writeFile on an existing name replaces the record in place; on a fresh
    name it appends.  unlink removes the record.
  - Timestamps (new Date().toISOString() and Date.now()) are passed in
    explicitly as parameters.
  - Fallible request handling is modelled with explicit result inductives;
    JS values that can be a string, null or absent are modelled with
    dedicated inductives or Option.
-/

namespace UniDrive

/-- JSON values, as produced and consumed by the route handlers.  Numbers are
integers, which covers every numeric literal in the source. -/
inductive Json where
  | null : Json
  | bool (b : Bool) : Json
  | num (n : Int) : Json
  | str (s : String) : Json
  | arr (elems : List Json) : Json
  | obj (fields : List (String × Json)) : Json

/-- Escaping of a single character inside a JSON string literal, as done by
JSON.stringify. -/
def escapeJsonChar (c : Char) : String :=
  if c = '"' then "\\\""
  else if c = '\\' then "\\\\"
  else if c = '\n' then "\\n"
  else if c = '\r' then "\\r"
  else if c = '\t' then "\\t"
  else String.singleton c

/-- Escaping of a whole JSON string literal body. -/
def escapeJsonString (s : String) : String :=
  s.data.foldl (fun acc c => acc ++ escapeJsonChar c) ""

mutual

/-- Compact serialization of a JSON value: the output of JSON.stringify with
no spacing argument, with object keys in insertion order. -/
def Json.stringify : Json → String
  | .null => "null"
  | .bool true => "true"
  | .bool false => "false"
  | .num n => toString n
  | .str s => "\"" ++ escapeJsonString s ++ "\""
  | .arr xs => "[" ++ stringifyArray xs ++ "]"
  | .obj fs => "\x7b" ++ stringifyFields fs ++ "\x7d"

/-- Comma-separated serialization of JSON array elements. -/
def stringifyArray : List Json → String
  | [] => ""
  | [x] => x.stringify
  | x :: y :: rest => x.stringify ++ "," ++ stringifyArray (y :: rest)

/-- Comma-separated serialization of JSON object fields. -/
def stringifyFields : List (String × Json) → String
  | [] => ""
  | [(k, v)] => "\"" ++ escapeJsonString k ++ "\":" ++ v.stringify
  | (k, v) :: f :: rest =>
      "\"" ++ escapeJsonString k ++ "\":" ++ v.stringify ++ "," ++ stringifyFields (f :: rest)

end

/-- The characters stripped by the sanitization regex [<>:"/\\|?*] used for
document titles and folder names. -/
def badChars : List Char := ['<', '>', ':', '"', '/', '\\', '|', '?', '*']

/-- Whether a character is removed by the sanitization regex. -/
def isBadChar (c : Char) : Bool := badChars.contains c

/-- Leading and trailing whitespace removal, as in String.prototype.trim. -/
def trimChars (cs : List Char) : List Char :=
  ((cs.dropWhile Char.isWhitespace).reverse.dropWhile Char.isWhitespace).reverse

/-- Title and name sanitization used by the document and folder routes:
strip the unsafe characters, trim, then truncate to maxLen characters
(substring(0, maxLen)).  Document titles use maxLen 100, folder names 50. -/
def sanitizeName (maxLen : Nat) (s : String) : String :=
  String.mk ((trimChars (s.data.filter (fun c => !isBadChar c))).take maxLen)

/-- A document content record, storage/documents/id.json.  The API writes
these with the fixed key order id, title, content, createdAt, modifiedAt. -/
structure DocRecord where
  id : String
  title : String
  content : Json
  createdAt : String
  modifiedAt : String

/-- The JSON text JSON.stringify(documentData) of a content record, with the
key order used by the create route (and preserved by the spread in the
update route). -/
def DocRecord.serialize (d : DocRecord) : String :=
  (Json.obj [("id", .str d.id), ("title", .str d.title), ("content", d.content),
             ("createdAt", .str d.createdAt), ("modifiedAt", .str d.modifiedAt)]).stringify

/-- A document metadata record, storage/metadata/id.json.  folderId none
models the absence of the folderId key. -/
structure DocMeta where
  id : String
  title : String
  createdAt : String
  modifiedAt : String
  size : Nat
  type : String
  folderId : Option String
deriving DecidableEq, Repr

/-- A folder record, storage/folders/id.json. -/
structure Folder where
  id : String
  name : String
  parentFolderId : Option String
  createdAt : String
  modifiedAt : String
  documentCount : Nat
deriving DecidableEq, Repr

/-- The whole storage directory: content files, metadata files, folder
records, and preview files (filename paired with its mtime in millis). -/
structure St where
  docs : List DocRecord
  metas : List DocMeta
  folders : List Folder
  previews : List (String × Nat)

/-- Look up a content file by id. -/
def findDoc (st : St) (id : String) : Option DocRecord :=
  st.docs.find? (fun d => d.id == id)

/-- Look up a metadata file by id. -/
def findMeta (st : St) (id : String) : Option DocMeta :=
  st.metas.find? (fun m => m.id == id)

/-- Look up a folder record by id. -/
def findFolder (st : St) (id : String) : Option Folder :=
  st.folders.find? (fun f => f.id == id)

/-- Look up a preview file by filename. -/
def findPreview (st : St) (name : String) : Option Nat :=
  (st.previews.find? (fun p => p.1 == name)).map (fun p => p.2)

/-- writeFile of a content record: overwrite in place, or create. -/
def putDoc (st : St) (d : DocRecord) : St :=
  if (findDoc st d.id).isSome then
    { st with docs := st.docs.map (fun x => if x.id == d.id then d else x) }
  else
    { st with docs := st.docs ++ [d] }

/-- writeFile of a metadata record: overwrite in place, or create. -/
def putMeta (st : St) (m : DocMeta) : St :=
  if (findMeta st m.id).isSome then
    { st with metas := st.metas.map (fun x => if x.id == m.id then m else x) }
  else
    { st with metas := st.metas ++ [m] }

/-- writeFile of a folder record: overwrite in place, or create. -/
def putFolder (st : St) (f : Folder) : St :=
  if (findFolder st f.id).isSome then
    { st with folders := st.folders.map (fun x => if x.id == f.id then f else x) }
  else
    { st with folders := st.folders ++ [f] }

/-- writeFile of a preview file: overwrite in place, or create. -/
def putPreview (st : St) (name : String) (mtime : Nat) : St :=
  if (findPreview st name).isSome then
    { st with previews := st.previews.map (fun p => if p.1 == name then (name, mtime) else p) }
  else
    { st with previews := st.previews ++ [(name, mtime)] }

/-- unlink of a content file. -/
def eraseDoc (st : St) (id : String) : St :=
  { st with docs := st.docs.filter (fun d => d.id != id) }

/-- unlink of a metadata file. -/
def eraseMeta (st : St) (id : String) : St :=
  { st with metas := st.metas.filter (fun m => m.id != id) }

/-- unlink of a folder record. -/
def eraseFolder (st : St) (id : String) : St :=
  { st with folders := st.folders.filter (fun f => f.id != id) }

/-- unlink of a preview file. -/
def erasePreview (st : St) (name : String) : St :=
  { st with previews := st.previews.filter (fun p => p.1 != name) }

/-- The default content skeleton synthesized by POST /api/documents when the
body carries no content. -/
def defaultContent : Json :=
  .obj [("body", .obj [("dataStream", .str ""), ("textRuns", .arr []),
                       ("paragraphs", .arr [.obj [("startIndex", .num 0)]])]),
        ("documentStyle", .obj [("pageSize", .obj [("width", .num 595), ("height", .num 842)]),
                                ("marginTop", .num 72), ("marginBottom", .num 72),
                                ("marginRight", .num 90), ("marginLeft", .num 90)])]

/-- The title actually stored by the create and update routes: the source
ternary body.title ? sanitize(body.title) : the default title.  A missing or
empty title takes the default; a nonempty title is sanitized (and the
sanitized result is stored even when it is empty). -/
def effectiveTitle (title : Option String) : String :=
  match title with
  | some t => if t == "" then "Untitled Document" else sanitizeName 100 t
  | none => "Untitled Document"

/-- Result of the document create and update routes. -/
inductive DocWriteRes where
  | ok (documentId : String) (title : String) (modifiedAt : String)
  | notFound
deriving DecidableEq, Repr

/-- POST /api/documents: create a document with a fresh id.  Preview
generation is fired without being awaited and is not part of this request
state transition. -/
def createDocument (now newId : String) (title : Option String)
    (content : Option Json) (st : St) : DocWriteRes × St :=
  let sanitizedTitle := effectiveTitle title
  let documentData : DocRecord :=
    { id := newId
      title := sanitizedTitle
      content := content.getD defaultContent
      createdAt := now
      modifiedAt := now }
  let metadata : DocMeta :=
    { id := newId
      title := sanitizedTitle
      createdAt := now
      modifiedAt := now
      size := documentData.serialize.length
      type := "document"
      folderId := none }
  (DocWriteRes.ok newId sanitizedTitle now, putMeta (putDoc st documentData) metadata)

/-- PUT /api/documents/[id]: update a document.  Requires the content file to
exist.  The stored title is the source ternary over body.title (the prior
title is never consulted), content falls back to the prior content, and the
metadata record is rebuilt from scratch (dropping any folderId). -/
def updateDocument (now docId : String) (title : Option String)
    (content : Option Json) (st : St) : DocWriteRes × St :=
  match findDoc st docId with
  | none => (DocWriteRes.notFound, st)
  | some existing =>
    let sanitizedTitle := effectiveTitle title
    let mergedContent := content.getD existing.content
    let updatedDocument : DocRecord :=
      { existing with
        title := sanitizedTitle
        content := mergedContent
        modifiedAt := now }
    let updatedMetadata : DocMeta :=
      { id := docId
        title := sanitizedTitle
        createdAt := existing.createdAt
        modifiedAt := now
        size := updatedDocument.serialize.length
        type := "document"
        folderId := none }
    (DocWriteRes.ok docId sanitizedTitle now, putMeta (putDoc st updatedDocument) updatedMetadata)

/-- Result of the document delete route. -/
inductive DeleteRes where
  | ok (documentId : String)
  | notFound
deriving DecidableEq, Repr

/-- DELETE /api/documents/[id]: delete the content file and the metadata
file, then unlink storage/previews/id.png when that file exists.  Note the
png extension is taken verbatim from the source. -/
def deleteDocument (docId : String) (st : St) : DeleteRes × St :=
  match findDoc st docId with
  | none => (DeleteRes.notFound, st)
  | some _ =>
    let st1 := eraseMeta (eraseDoc st docId) docId
    let st2 :=
      if (findPreview st1 (docId ++ ".png")).isSome then erasePreview st1 (docId ++ ".png")
      else st1
    (DeleteRes.ok docId, st2)

/-- The folderId field of a move request body: absent, null, or a string. -/
inductive MoveTarget where
  | undef : MoveTarget
  | null : MoveTarget
  | folder (fid : String) : MoveTarget
deriving DecidableEq, Repr

/-- The startsWith test of the route validations, written over the character
lists so that it evaluates by kernel reduction; it agrees with the JS
String.prototype.startsWith. -/
def strStartsWith (s pre : String) : Bool := pre.data.isPrefixOf s.data

/-- Tally of documents per folder, as computed by updateFolderCounts from a
scan of every metadata record: folderCounts.get(fid) with a 0 default. -/
def documentCountsFrom (metas : List DocMeta) (fid : String) : Nat :=
  (metas.filter (fun m => m.folderId == some fid)).length

/-- The updateFolderCounts helper of the move route: tally all metadata
records once, then rewrite the count and modifiedAt of the old and new
folder records (those with a folder_ prefixed id) that exist on disk. -/
def updateFolderCounts (now : String) (oldFolderId newFolderId : Option String)
    (st : St) : St :=
  let foldersToUpdate :=
    ([oldFolderId, newFolderId].filterMap id).filter (fun fid => strStartsWith fid "folder_")
  foldersToUpdate.foldl (fun acc fid =>
    match findFolder acc fid with
    | none => acc
    | some folderData =>
        putFolder acc { folderData with
                        documentCount := documentCountsFrom st.metas fid
                        modifiedAt := now }) st

/-- Result of the move route. -/
inductive MoveRes where
  | ok (document : DocMeta)
  | badRequest
  | notFound
deriving DecidableEq, Repr

/-- The post-validation body of the move route: require the metadata record,
rewrite its folderId (the field is removed, newFolderId none, on a move to
root) and modifiedAt, persist, then update the affected folder counts. -/
def moveApply (now docId : String) (newFolderId : Option String) (st : St) :
    MoveRes × St :=
  match findMeta st docId with
  | none => (MoveRes.notFound, st)
  | some metadata =>
    let updated := { metadata with folderId := newFolderId, modifiedAt := now }
    let st1 := putMeta st updated
    let st2 := updateFolderCounts now metadata.folderId newFolderId st1
    (MoveRes.ok updated, st2)

/-- PUT /api/documents/[id]/move.  The body folderId is absent, null, or a
string; the source skips the target validation when it is null or undefined
(both then take the move-to-root path), so those two arms share one body. -/
def moveDocument (now docId : String) : MoveTarget → St → MoveRes × St
  | .folder fid, st =>
    if !strStartsWith docId "doc_" then (MoveRes.badRequest, st)
    else if !strStartsWith fid "folder_" then (MoveRes.badRequest, st)
    else if (findFolder st fid).isNone then (MoveRes.notFound, st)
    else moveApply now docId (some fid) st
  | .undef, st =>
    if !strStartsWith docId "doc_" then (MoveRes.badRequest, st)
    else moveApply now docId none st
  | .null, st =>
    if !strStartsWith docId "doc_" then (MoveRes.badRequest, st)
    else moveApply now docId none st

/-- Result of the folder detail route. -/
inductive FolderGetRes where
  | ok (folder : Folder) (subfolders : List Folder) (documents : List DocMeta)
  | badRequest
  | notFound
deriving DecidableEq, Repr

/-- Body of GET /api/folders/[id] once the folder record is loaded: scan for
direct subfolders and member documents, and persist a corrected
documentCount only when the live count differs from the cached one.  The
response sorting and the projection of the returned records are omitted;
they read no further state. -/
def folderGetFound (now : String) (folderId : String) (folderData : Folder) (st : St) :
    FolderGetRes × St :=
  let subfolders := st.folders.filter (fun f => f.parentFolderId == some folderId)
  let documents := st.metas.filter (fun m => m.folderId == some folderId)
  if documents.length ≠ folderData.documentCount then
    let updated := { folderData with
                     documentCount := documents.length
                     modifiedAt := now }
    (FolderGetRes.ok updated subfolders documents, putFolder st updated)
  else
    (FolderGetRes.ok folderData subfolders documents, st)

/-- GET /api/folders/[id]: validate the id, require the record, then run the
body above. -/
def folderGet (now : String) (folderId : String) (st : St) : FolderGetRes × St :=
  if !strStartsWith folderId "folder_" then (FolderGetRes.badRequest, st)
  else
    match findFolder st folderId with
    | none => (FolderGetRes.notFound, st)
    | some folderData => folderGetFound now folderId folderData st

/-
  Preview generator (src/utils/preview-generator.ts, DocumentPreviewGenerator).
-/

/-- Canvas width of a preview. -/
def previewWidth : Nat := 300

/-- Canvas height of a preview. -/
def previewHeight : Nat := 200

/-- Canvas padding of a preview. -/
def previewPadding : Nat := 20

/-- Line height used during layout. -/
def baseLineHeight : Nat := 16

/-- Font size used during layout. -/
def previewFontSize : Nat := 12

/-- Math.floor((width - padding * 2) / (fontSize * 0.6)).  Written over the
rationals: 260 / 7.2 = 36.11, so the floor is 36; the floating point
evaluation in the source lands on the same floor. -/
def maxCharsPerLine : Nat :=
  (previewWidth - previewPadding * 2) * 10 / (previewFontSize * 6)

/-- The argument of generatePreview, reduced to the only parts it reads: the
optional body object and its dataStream.  none models a missing body; the
source guard also treats an empty dataStream as missing. -/
structure PreviewDoc where
  body : Option String
deriving DecidableEq, Repr

/-- Splitter for the regex split on two or more carriage returns.  The crs
counter carries how many pending carriage returns precede the cursor (capped
at 2, since only the distinction none, one, or at least two matters): a
maximal run of two or more acts as one separator, a single one stays in the
segment.  Structural recursion on the character list keeps the function
kernel-reducible. -/
def splitCRAux : List Char → List Char → Nat → List (List Char)
  | [], cur, crs =>
    if crs ≥ 2 then [cur.reverse, []]
    else if crs = 1 then [('\r' :: cur).reverse]
    else [cur.reverse]
  | c :: rest, cur, crs =>
    if c = '\r' then splitCRAux rest cur (min (crs + 1) 2)
    else if crs ≥ 2 then cur.reverse :: splitCRAux rest [c] 0
    else if crs = 1 then splitCRAux rest (c :: '\r' :: cur) 0
    else splitCRAux rest (c :: cur) 0

/-- dataStream.split on two or more carriage returns. -/
def splitCRRuns (cs : List Char) : List (List Char) := splitCRAux cs [] 0

/-- extractStructuredText: split the data stream on runs of two or more
carriage returns, strip stray carriage returns and line feeds, trim, drop
empty lines, and attach spaceAbove 5 to every line after the first. -/
def extractStructuredText (doc : PreviewDoc) : List (List Char × Nat) :=
  match doc.body with
  | none => []
  | some ds =>
    if ds == "" then []
    else
      let lines :=
        ((splitCRRuns ds.data).map
          (fun l => trimChars (l.filter (fun c => !(c == '\r' || c == '\n'))))).filter
          (fun l => l ≠ [])
      lines.enum.map (fun p => (p.2, if p.1 > 0 then 5 else 0))

/-- text.split on whitespace runs with empty words dropped. -/
def wordsOf (cs : List Char) : List (List Char) :=
  (cs.splitOnP Char.isWhitespace).filter (fun w => w ≠ [])

/-- The word wrapping loop of generatePreview: words are accumulated into
currentLine; a word that overflows the budget flushes the accumulated line,
except that with an empty accumulated line the word itself is truncated to
maxC minus 3 characters with an ellipsis appended. -/
def wrapLoop (maxC : Nat) : List (List Char) → List Char → List (List Char)
  | [], currentLine => if currentLine ≠ [] then [currentLine] else []
  | w :: ws, currentLine =>
    let testLine := if currentLine = [] then w else currentLine ++ ' ' :: w
    if testLine.length > maxC then
      if currentLine ≠ [] then currentLine :: wrapLoop maxC ws w
      else (w.take (maxC - 3) ++ ['.', '.', '.']) :: wrapLoop maxC ws []
    else wrapLoop maxC ws testLine

/-- Display lines of one logical line. -/
def wrapWords (maxC : Nat) (text : List Char) : List (List Char) :=
  wrapLoop maxC (wordsOf text) []

/-- Appending of the overflow ellipsis to the text of the last emitted
element, as done by the replace of the closing text tag. -/
def appendEllipsis (acc : List (List Char)) : List (List Char) :=
  match acc.reverse with
  | [] => []
  | last :: rest => ((last ++ ['.', '.', '.']) :: rest).reverse

/-- Emission of the display lines of one logical line: advance currentY by
the line height, stop (marking the last emitted line with an ellipsis) as
soon as currentY would exceed height minus padding. -/
def emitLines : List (List Char) → Nat → List (List Char) → List (List Char) × Nat
  | [], y, acc => (acc, y)
  | dl :: rest, y, acc =>
    let yNew := y + baseLineHeight
    if yNew > previewHeight - previewPadding then (appendEllipsis acc, yNew)
    else emitLines rest yNew (acc ++ [dl])

/-- Top-down layout over the logical lines: apply the space above, wrap,
emit, and stop once currentY exceeds height minus padding. -/
def layoutAux : List (List Char × Nat) → Nat → List (List Char) → List (List Char)
  | [], _, acc => acc
  | (text, sa) :: rest, y, acc =>
    let y1 := y + sa * 3
    let dls := wrapWords maxCharsPerLine text
    let p := emitLines dls y1 acc
    if p.2 > previewHeight - previewPadding then p.1 else layoutAux rest p.2 p.1

/-- The sequence of text lines rendered into the preview image for a
document, before markup escaping. -/
def previewLines (doc : PreviewDoc) : List (List Char) :=
  layoutAux (extractStructuredText doc) previewPadding []

/-- generatePreview persists the rendered image under previews/docId.svg
(overwriting any prior file) and returns a URL whose cache-bust token is the
current time.  The image text content is modelled by previewLines. -/
def generatePreview (nowMs : Nat) (docId : String) (_doc : PreviewDoc)
    (st : St) : String × St :=
  ("/api/previews/" ++ docId ++ ".svg?t=" ++ toString nowMs,
   putPreview st (docId ++ ".svg") nowMs)

/-- getPreviewUrl: when previews/docId.svg exists its URL carries the file
mtime as cache-bust token; otherwise a placeholder URL is returned.  No file
is created or modified. -/
def getPreviewUrl (docId : String) (st : St) : String × St :=
  match findPreview st (docId ++ ".svg") with
  | some mtime => ("/api/previews/" ++ docId ++ ".svg?t=" ++ toString mtime, st)
  | none => ("https://via.placeholder.com/300x200/f8f9fa/374151?text=Generating...", st)

/-
  Folder delete (the DELETE handler of the folder [id] route) with its
  helpers deleteDocumentsInFolder and deleteSubfoldersInFolder.  The
  functions also return the sequence of unlink events they perform, so that
  the traversal order is part of the model.
-/

/-- A file deletion performed by the cascading folder delete. -/
inductive FsEv where
  | delDoc (id : String)
  | delMeta (id : String)
  | delFolder (id : String)
deriving DecidableEq, Repr

/-- Body of deleteDocumentsInFolder: iterate over a snapshot of the metadata
directory listing, re-reading each record from the current state; delete the
content file (when present) and the metadata file of every document whose
folderId equals the target folder. -/
def delDocsLoop (fid : String) : List String → St → St × List FsEv
  | [], st => (st, [])
  | mid :: rest, st =>
    match findMeta st mid with
    | none => delDocsLoop fid rest st
    | some metadata =>
      if metadata.folderId == some fid then
        let documentId := metadata.id
        let p :=
          if (findDoc st documentId).isSome then
            (eraseDoc st documentId, [FsEv.delDoc documentId])
          else (st, ([] : List FsEv))
        let st2 := eraseMeta p.1 mid
        let q := delDocsLoop fid rest st2
        (q.1, p.2 ++ [FsEv.delMeta mid] ++ q.2)
      else delDocsLoop fid rest st

/-- deleteDocumentsInFolder of the folder delete route. -/
def deleteDocumentsInFolder (fid : String) (st : St) : St × List FsEv :=
  delDocsLoop fid (st.metas.map (fun m => m.id)) st

/-- Body of the deleteSubfoldersInFolder loop, parameterized by the
recursive destruction of one subfolder: re-read each snapshot entry from the
current state (skipping it when the file is gone), and for each direct child
of the target delete its member documents, recursively destroy its
subfolders, and only then unlink the child record itself. -/
def delSubLoop (recurse : String → St → St × List FsEv) (fid : String) :
    List String → St → St × List FsEv
  | [], st => (st, [])
  | gid :: rest, st =>
    match findFolder st gid with
    | none => delSubLoop recurse fid rest st
    | some subfolder =>
      if subfolder.parentFolderId == some fid then
        let p1 := deleteDocumentsInFolder subfolder.id st
        let p2 := recurse subfolder.id p1.1
        let st3 := eraseFolder p2.1 gid
        let p4 := delSubLoop recurse fid rest st3
        (p4.1, p1.2 ++ p2.2 ++ [FsEv.delFolder gid] ++ p4.2)
      else delSubLoop recurse fid rest st

/-- deleteSubfoldersInFolder of the folder delete route: list the folder
directory once, then recursively destroy every subfolder of the target.  The
source recursion is unbounded; the fuel argument bounds the recursion depth
(by structural recursion on the fuel, so that the function stays
kernel-reducible) and is never exhausted on an acyclic folder store when it
exceeds the number of folder records. -/
def deleteSubfoldersInFolder : Nat → String → St → St × List FsEv
  | 0, _, st => (st, [])
  | fuel + 1, fid, st =>
    delSubLoop (deleteSubfoldersInFolder fuel) fid (st.folders.map (fun f => f.id)) st

/-- Result of the folder delete route. -/
inductive FolderDeleteRes where
  | ok
  | badRequest
  | notFound
deriving DecidableEq, Repr

/-- DELETE /api/folders/[id]: validate the id, require the record, delete
the member documents, recursively destroy the subfolders, then unlink the
folder record itself.  The depth budget handed to the recursion exceeds the
number of folder records, which on an acyclic store is never reached. -/
def folderDelete (folderId : String) (st : St) : FolderDeleteRes × St × List FsEv :=
  if !strStartsWith folderId "folder_" then (FolderDeleteRes.badRequest, st, [])
  else
    match findFolder st folderId with
    | none => (FolderDeleteRes.notFound, st, [])
    | some _ =>
      let p1 := deleteDocumentsInFolder folderId st
      let p2 := deleteSubfoldersInFolder (p1.1.folders.length + 1) folderId p1.1
      let st3 := eraseFolder p2.1 folderId
      (FolderDeleteRes.ok, st3, p1.2 ++ p2.2 ++ [FsEv.delFolder folderId])

/-
  Generic lemmas about the keyed stores.
-/

theorem find?_replace_self {α : Type} (key : α → String) (id : String) (a : α)
    (hid : key a = id) :
    ∀ l : List α, (l.find? (fun x => key x == id)).isSome →
      (l.map (fun x => if key x == id then a else x)).find? (fun x => key x == id) = some a := by
  intro l
  induction l with
  | nil => intro h; simp [List.find?] at h
  | cons b t ih =>
    intro h
    rw [List.map_cons]
    by_cases hb : (key b == id) = true
    · rw [if_pos hb]
      exact List.find?_cons_of_pos _ (by simp [hid])
    · rw [if_neg hb]
      rw [List.find?_cons_of_neg _ (by simp_all)]
      rw [List.find?_cons_of_neg _ (by simp_all)] at h
      exact ih h

theorem find?_replace_other {α : Type} (key : α → String) (id id2 : String) (a : α)
    (hid : key a = id) (hne : id2 ≠ id) :
    ∀ l : List α,
      (l.map (fun x => if key x == id then a else x)).find? (fun x => key x == id2) =
        l.find? (fun x => key x == id2) := by
  intro l
  induction l with
  | nil => rfl
  | cons b t ih =>
    rw [List.map_cons]
    by_cases hb : (key b == id) = true
    · have hb2 : ¬ ((key b == id2) = true) := by
        simp only [beq_iff_eq] at hb ⊢
        rw [hb]; exact fun hh => hne hh.symm
      have ha2 : ¬ ((key a == id2) = true) := by
        simp only [beq_iff_eq]
        rw [hid]; exact fun hh => hne hh.symm
      rw [if_pos hb]
      rw [List.find?_cons_of_neg (p := fun x => key x == id2) _ ha2,
          List.find?_cons_of_neg (p := fun x => key x == id2) _ hb2]
      exact ih
    · rw [if_neg hb]
      by_cases hb2 : (key b == id2) = true
      · rw [List.find?_cons_of_pos (p := fun x => key x == id2) _ hb2,
            List.find?_cons_of_pos (p := fun x => key x == id2) _ hb2]
      · rw [List.find?_cons_of_neg (p := fun x => key x == id2) _ hb2,
            List.find?_cons_of_neg (p := fun x => key x == id2) _ hb2]
        exact ih

theorem find?_append_single {α : Type} (p : α → Bool) (a : α) (ha : p a = true) :
    ∀ l : List α, l.find? p = none → (l ++ [a]).find? p = some a := by
  intro l
  induction l with
  | nil => intro _; simp [List.find?_cons_of_pos _ ha]
  | cons b t ih =>
    intro h
    by_cases hb : p b = true
    · rw [List.find?_cons_of_pos _ hb] at h; exact absurd h (by simp)
    · rw [List.find?_cons_of_neg _ hb] at h
      rw [List.cons_append, List.find?_cons_of_neg _ hb]
      exact ih h

theorem find?_append_single_other {α : Type} (p : α → Bool) (a : α) (ha : ¬ (p a = true)) :
    ∀ l : List α, (l ++ [a]).find? p = l.find? p := by
  intro l
  induction l with
  | nil => simp [List.find?_cons_of_neg _ ha]
  | cons b t ih =>
    rw [List.cons_append]
    by_cases hb : p b = true
    · rw [List.find?_cons_of_pos _ hb, List.find?_cons_of_pos _ hb]
    · rw [List.find?_cons_of_neg _ hb, List.find?_cons_of_neg _ hb]
      exact ih

/-- Components of the state untouched by putMeta. -/
@[simp] theorem putMeta_docs (st : St) (m : DocMeta) : (putMeta st m).docs = st.docs := by
  unfold putMeta; split <;> rfl

@[simp] theorem putMeta_folders (st : St) (m : DocMeta) : (putMeta st m).folders = st.folders := by
  unfold putMeta; split <;> rfl

@[simp] theorem putMeta_previews (st : St) (m : DocMeta) : (putMeta st m).previews = st.previews := by
  unfold putMeta; split <;> rfl

/-- Components of the state untouched by putDoc. -/
@[simp] theorem putDoc_metas (st : St) (d : DocRecord) : (putDoc st d).metas = st.metas := by
  unfold putDoc; split <;> rfl

@[simp] theorem putDoc_folders (st : St) (d : DocRecord) : (putDoc st d).folders = st.folders := by
  unfold putDoc; split <;> rfl

@[simp] theorem putDoc_previews (st : St) (d : DocRecord) : (putDoc st d).previews = st.previews := by
  unfold putDoc; split <;> rfl

/-- Components of the state untouched by putFolder. -/
@[simp] theorem putFolder_metas (st : St) (f : Folder) : (putFolder st f).metas = st.metas := by
  unfold putFolder; split <;> rfl

@[simp] theorem putFolder_docs (st : St) (f : Folder) : (putFolder st f).docs = st.docs := by
  unfold putFolder; split <;> rfl

@[simp] theorem putFolder_previews (st : St) (f : Folder) : (putFolder st f).previews = st.previews := by
  unfold putFolder; split <;> rfl

/-- An option with isSome false is none. -/
theorem opt_eq_none_of_isSome_false {α : Type} {o : Option α} (h : o.isSome = false) :
    o = none := by
  cases o with
  | none => rfl
  | some a => simp at h

/-- A metadata record just written is found under its id. -/
theorem findMeta_putMeta_self (st : St) (m : DocMeta) :
    findMeta (putMeta st m) m.id = some m := by
  unfold putMeta
  by_cases h : (findMeta st m.id).isSome = true
  · rw [if_pos h]
    unfold findMeta at h
    exact find?_replace_self (fun x => x.id) m.id m rfl st.metas h
  · rw [if_neg h]
    rw [Bool.not_eq_true] at h
    unfold findMeta at h
    have hnone : st.metas.find? (fun x => x.id == m.id) = none :=
      opt_eq_none_of_isSome_false h
    exact find?_append_single _ m (by simp) st.metas hnone

/-- Writing a metadata record leaves lookups of other ids unchanged. -/
theorem findMeta_putMeta_other (st : St) (m : DocMeta) (id2 : String) (h : id2 ≠ m.id) :
    findMeta (putMeta st m) id2 = findMeta st id2 := by
  unfold putMeta
  by_cases hex : (findMeta st m.id).isSome = true
  · rw [if_pos hex]
    exact find?_replace_other (fun x => x.id) m.id id2 m rfl h st.metas
  · rw [if_neg hex]
    exact find?_append_single_other _ m
      (by simp only [beq_iff_eq]; exact fun hh => h hh.symm) st.metas

/-- A content record just written is found under its id. -/
theorem findDoc_putDoc_self (st : St) (d : DocRecord) :
    findDoc (putDoc st d) d.id = some d := by
  unfold putDoc
  by_cases h : (findDoc st d.id).isSome = true
  · rw [if_pos h]
    unfold findDoc at h
    exact find?_replace_self (fun x => x.id) d.id d rfl st.docs h
  · rw [if_neg h]
    rw [Bool.not_eq_true] at h
    unfold findDoc at h
    have hnone : st.docs.find? (fun x => x.id == d.id) = none :=
      opt_eq_none_of_isSome_false h
    exact find?_append_single _ d (by simp) st.docs hnone

/-- A folder record just written is found under its id. -/
theorem findFolder_putFolder_self (st : St) (f : Folder) :
    findFolder (putFolder st f) f.id = some f := by
  unfold putFolder
  by_cases h : (findFolder st f.id).isSome = true
  · rw [if_pos h]
    unfold findFolder at h
    exact find?_replace_self (fun x => x.id) f.id f rfl st.folders h
  · rw [if_neg h]
    rw [Bool.not_eq_true] at h
    unfold findFolder at h
    have hnone : st.folders.find? (fun x => x.id == f.id) = none :=
      opt_eq_none_of_isSome_false h
    exact find?_append_single _ f (by simp) st.folders hnone

/-- A found record satisfies the lookup key. -/
theorem findMeta_id {st : St} {id : String} {m : DocMeta} (h : findMeta st id = some m) :
    m.id = id := by
  have := List.find?_some h
  simpa [beq_iff_eq] using this

/-- A found content record satisfies the lookup key. -/
theorem findDoc_id {st : St} {id : String} {d : DocRecord} (h : findDoc st id = some d) :
    d.id = id := by
  have := List.find?_some h
  simpa [beq_iff_eq] using this

/-- A found folder record satisfies the lookup key. -/
theorem findFolder_id {st : St} {id : String} {f : Folder} (h : findFolder st id = some f) :
    f.id = id := by
  have := List.find?_some h
  simpa [beq_iff_eq] using this

/-- The counting fold of updateFolderCounts, abstracted over the fixed tally
source M and the accumulator. -/
def countsFold (now : String) (M : List DocMeta) (ls : List String) (acc : St) : St :=
  ls.foldl (fun acc2 fid =>
    match findFolder acc2 fid with
    | none => acc2
    | some folderData =>
        putFolder acc2 { folderData with
                         documentCount := documentCountsFrom M fid
                         modifiedAt := now }) acc

/-- updateFolderCounts is the counting fold over the affected folder ids. -/
theorem updateFolderCounts_eq_countsFold (now : String) (o n : Option String) (st : St) :
    updateFolderCounts now o n st =
      countsFold now st.metas
        (([o, n].filterMap id).filter (fun fid => strStartsWith fid "folder_")) st := rfl

/-- Step equation of the counting fold when the folder file is absent. -/
theorem countsFold_cons_none {now : String} {M : List DocMeta} {fid : String}
    {rest : List String} {acc : St} (h : findFolder acc fid = none) :
    countsFold now M (fid :: rest) acc = countsFold now M rest acc := by
  unfold countsFold
  rw [List.foldl_cons, h]

/-- Step equation of the counting fold when the folder file exists. -/
theorem countsFold_cons_some {now : String} {M : List DocMeta} {fid : String}
    {rest : List String} {acc : St} {fd : Folder} (h : findFolder acc fid = some fd) :
    countsFold now M (fid :: rest) acc =
      countsFold now M rest
        (putFolder acc { fd with documentCount := documentCountsFrom M fid
                                 modifiedAt := now }) := by
  unfold countsFold
  rw [List.foldl_cons, h]

/-- The counting fold rewrites only folder records. -/
theorem countsFold_metas (now : String) (M : List DocMeta) :
    ∀ (ls : List String) (acc : St), (countsFold now M ls acc).metas = acc.metas := by
  intro ls
  induction ls with
  | nil => intro acc; rfl
  | cons fid rest ih =>
    intro acc
    cases h : findFolder acc fid with
    | none => rw [countsFold_cons_none h]; exact ih acc
    | some fd => rw [countsFold_cons_some h, ih]; simp

/-- The counting fold does not touch content files. -/
theorem countsFold_docs (now : String) (M : List DocMeta) :
    ∀ (ls : List String) (acc : St), (countsFold now M ls acc).docs = acc.docs := by
  intro ls
  induction ls with
  | nil => intro acc; rfl
  | cons fid rest ih =>
    intro acc
    cases h : findFolder acc fid with
    | none => rw [countsFold_cons_none h]; exact ih acc
    | some fd => rw [countsFold_cons_some h, ih]; simp

/-- The counting fold does not touch preview files. -/
theorem countsFold_previews (now : String) (M : List DocMeta) :
    ∀ (ls : List String) (acc : St), (countsFold now M ls acc).previews = acc.previews := by
  intro ls
  induction ls with
  | nil => intro acc; rfl
  | cons fid rest ih =>
    intro acc
    cases h : findFolder acc fid with
    | none => rw [countsFold_cons_none h]; exact ih acc
    | some fd => rw [countsFold_cons_some h, ih]; simp

/-- Every folder record left by the counting fold is either a record of one
of the listed ids carrying the recomputed count and the fresh modifiedAt, or
an untouched record of the start state. -/
theorem countsFold_spec (now : String) (M : List DocMeta) :
    ∀ (ls : List String) (acc : St), ∀ g ∈ (countsFold now M ls acc).folders,
      (g.id ∈ ls → g.documentCount = documentCountsFrom M g.id ∧ g.modifiedAt = now) ∧
      (g.id ∉ ls → g ∈ acc.folders) := by
  intro ls
  induction ls with
  | nil =>
    intro acc g hg
    refine ⟨fun h => absurd h (List.not_mem_nil _), fun _ => hg⟩
  | cons fid rest ih =>
    intro acc g hg
    cases h : findFolder acc fid with
    | none =>
      rw [countsFold_cons_none h] at hg
      have spec := ih acc g hg
      constructor
      · intro hmem
        rcases List.mem_cons.mp hmem with heq | hrest
        · by_cases hr : g.id ∈ rest
          · exact spec.1 hr
          · exfalso
            have hga : g ∈ acc.folders := spec.2 hr
            have hnone := List.find?_eq_none.mp h g hga
            simp [heq] at hnone
        · exact spec.1 hrest
      · intro hnmem
        exact spec.2 (fun hr => hnmem (List.mem_cons_of_mem _ hr))
    | some fd =>
      have hfd : fd.id = fid := findFolder_id h
      rw [countsFold_cons_some h] at hg
      set u : Folder := { fd with documentCount := documentCountsFrom M fid
                                  modifiedAt := now } with hu
      have hu_id : u.id = fid := hfd
      have hex : (findFolder acc u.id).isSome = true := by rw [hu_id, h]; rfl
      have spec := ih (putFolder acc u) g hg
      have hfolders : (putFolder acc u).folders =
          acc.folders.map (fun x => if x.id == u.id then u else x) := by
        unfold putFolder
        rw [if_pos hex]
      constructor
      · intro hmem
        rcases List.mem_cons.mp hmem with heq | hrest
        · by_cases hr : g.id ∈ rest
          · exact spec.1 hr
          · have hga : g ∈ (putFolder acc u).folders := spec.2 hr
            rw [hfolders] at hga
            rcases List.mem_map.mp hga with ⟨x, _, hx⟩
            by_cases hxid : (x.id == u.id) = true
            · rw [if_pos hxid] at hx
              rw [← hx]
              exact ⟨by rw [hu_id], rfl⟩
            · rw [if_neg hxid] at hx
              exfalso
              rw [← hx] at heq
              exact hxid (by rw [beq_iff_eq, heq, hu_id])
        · exact spec.1 hrest
      · intro hnmem
        have hne : g.id ≠ fid := fun hh => hnmem (by rw [hh]; exact List.mem_cons_self _ _)
        have hr : g.id ∉ rest := fun hh => hnmem (List.mem_cons_of_mem _ hh)
        have hga : g ∈ (putFolder acc u).folders := spec.2 hr
        rw [hfolders] at hga
        rcases List.mem_map.mp hga with ⟨x, hxmem, hx⟩
        by_cases hxid : (x.id == u.id) = true
        · rw [if_pos hxid] at hx
          exfalso
          rw [← hx] at hne
          exact hne hu_id
        · rw [if_neg hxid] at hx
          rw [← hx]
          exact hxmem

/-- Lookups depend only on the matching store. -/
theorem findDoc_eq_of_docs {st1 st2 : St} (h : st1.docs = st2.docs) (id : String) :
    findDoc st1 id = findDoc st2 id := by
  unfold findDoc; rw [h]

/-- Metadata lookups depend only on the metadata store. -/
theorem findMeta_eq_of_metas {st1 st2 : St} (h : st1.metas = st2.metas) (id : String) :
    findMeta st1 id = findMeta st2 id := by
  unfold findMeta; rw [h]

/-- Folder lookups depend only on the folder store. -/
theorem findFolder_eq_of_folders {st1 st2 : St} (h : st1.folders = st2.folders) (id : String) :
    findFolder st1 id = findFolder st2 id := by
  unfold findFolder; rw [h]

/-- The post-validation move body on its success path. -/
theorem moveApply_ok (now docId : String) (newFolderId : Option String) (st : St)
    (m : DocMeta) (hm : findMeta st docId = some m) :
    moveApply now docId newFolderId st =
      (MoveRes.ok { m with folderId := newFolderId, modifiedAt := now },
       updateFolderCounts now m.folderId newFolderId
         (putMeta st { m with folderId := newFolderId, modifiedAt := now })) := by
  unfold moveApply
  rw [hm]

/-- A move to a validated existing folder reaches the shared body. -/
theorem moveDocument_folder_ok (now docId fid : String) (st : St)
    (hdoc : strStartsWith docId "doc_" = true)
    (hpre : strStartsWith fid "folder_" = true)
    (hex : (findFolder st fid).isNone = false) :
    moveDocument now docId (MoveTarget.folder fid) st = moveApply now docId (some fid) st := by
  have h1 : (!strStartsWith docId "doc_") = false := by rw [hdoc]; rfl
  have h2 : (!strStartsWith fid "folder_") = false := by rw [hpre]; rfl
  simp only [moveDocument]
  rw [h1, if_neg Bool.false_ne_true, h2, if_neg Bool.false_ne_true, hex,
      if_neg Bool.false_ne_true]

/-- A move with an absent folderId reaches the shared body. -/
theorem moveDocument_undef_ok (now docId : String) (st : St)
    (hdoc : strStartsWith docId "doc_" = true) :
    moveDocument now docId MoveTarget.undef st = moveApply now docId none st := by
  have h1 : (!strStartsWith docId "doc_") = false := by rw [hdoc]; rfl
  simp only [moveDocument]
  rw [h1, if_neg Bool.false_ne_true]

/-- A move with a null folderId reaches the shared body. -/
theorem moveDocument_null_ok (now docId : String) (st : St)
    (hdoc : strStartsWith docId "doc_" = true) :
    moveDocument now docId MoveTarget.null st = moveApply now docId none st := by
  have h1 : (!strStartsWith docId "doc_") = false := by rw [hdoc]; rfl
  simp only [moveDocument]
  rw [h1, if_neg Bool.false_ne_true]

/-- C8: two getPreviewUrl calls with no generatePreview in between return the
same URL with the same cache-bust token, and getPreviewUrl never creates or
modifies any preview file. -/
theorem C8_getPreviewUrl_stable_and_effect_free :
    ∀ (docId : String) (st : St),
      (getPreviewUrl docId st).2 = st ∧
      (getPreviewUrl docId (getPreviewUrl docId st).2).1 = (getPreviewUrl docId st).1 := by
  intro docId st
  have h2 : (getPreviewUrl docId st).2 = st := by
    unfold getPreviewUrl
    cases findPreview st (docId ++ ".svg") <;> rfl
  exact ⟨h2, by rw [h2]⟩

/-- C10: a move request whose body omits the folderId field entirely is
handled exactly like an explicit null folderId: the call succeeds, the
folderId field is removed from the metadata record, and modifiedAt is
refreshed; it is not rejected as invalid input. -/
theorem C10_move_without_folderId_field_moves_to_root :
    ∀ (now docId : String) (st : St),
      moveDocument now docId MoveTarget.undef st = moveDocument now docId MoveTarget.null st ∧
      ∀ m : DocMeta, strStartsWith docId "doc_" = true → findMeta st docId = some m →
        (moveDocument now docId MoveTarget.undef st).1 =
          MoveRes.ok { m with folderId := none, modifiedAt := now } ∧
        findMeta (moveDocument now docId MoveTarget.undef st).2 docId =
          some { m with folderId := none, modifiedAt := now } := by
  intro now docId st
  constructor
  · simp only [moveDocument]
  · intro m hdoc hm
    rw [moveDocument_undef_ok now docId st hdoc, moveApply_ok now docId none st m hm]
    refine ⟨rfl, ?_⟩
    have hmetas : (updateFolderCounts now m.folderId none
        (putMeta st { m with folderId := none, modifiedAt := now })).metas =
        (putMeta st { m with folderId := none, modifiedAt := now }).metas := by
      rw [updateFolderCounts_eq_countsFold]
      exact countsFold_metas _ _ _ _
    rw [findMeta_eq_of_metas hmetas docId]
    have hid := findMeta_id hm
    rw [← hid]
    exact findMeta_putMeta_self st _

/-- Store with one document whose metadata sits in folder_9, for the C10
witness. -/
def mW10 : DocMeta :=
  { id := "doc_a", title := "t", createdAt := "T0", modifiedAt := "T0"
    size := 0, type := "document", folderId := some "folder_9" }

/-- Witness store for C10. -/
def stW10 : St := ⟨[], [mW10], [], []⟩

/-- Witness for C10 at a concrete store. -/
theorem C10_witness :
    (moveDocument "T1" "doc_a" MoveTarget.undef stW10).1 =
      MoveRes.ok { mW10 with folderId := none, modifiedAt := "T1" } ∧
    findMeta (moveDocument "T1" "doc_a" MoveTarget.undef stW10).2 "doc_a" =
      some { mW10 with folderId := none, modifiedAt := "T1" } :=
  (C10_move_without_folderId_field_moves_to_root "T1" "doc_a" stW10).2 mW10
    (by decide) (by decide)

/-- The content record built by the create route. -/
def createdDoc (now newId : String) (title : Option String) (content : Option Json) :
    DocRecord :=
  { id := newId
    title := effectiveTitle title
    content := content.getD defaultContent
    createdAt := now
    modifiedAt := now }

/-- The merged content record built by the update route. -/
def updatedDoc (now : String) (title : Option String) (content : Option Json)
    (existing : DocRecord) : DocRecord :=
  { existing with
    title := effectiveTitle title
    content := content.getD existing.content
    modifiedAt := now }

/-- The metadata record derived from a content record by both write routes. -/
def metaOf (docId createdAt now : String) (title : Option String) (d : DocRecord) :
    DocMeta :=
  { id := docId
    title := effectiveTitle title
    createdAt := createdAt
    modifiedAt := now
    size := d.serialize.length
    type := "document"
    folderId := none }

/-- The create route in terms of the record builders. -/
theorem createDocument_eq (now newId : String) (title : Option String)
    (content : Option Json) (st : St) :
    createDocument now newId title content st =
      (DocWriteRes.ok newId (effectiveTitle title) now,
       putMeta (putDoc st (createdDoc now newId title content))
         (metaOf newId now now title (createdDoc now newId title content))) := rfl

/-- The update route in terms of the record builders, on an existing id. -/
theorem updateDocument_eq (now docId : String) (title : Option String)
    (content : Option Json) (st : St) (existing : DocRecord)
    (hex : findDoc st docId = some existing) :
    updateDocument now docId title content st =
      (DocWriteRes.ok docId (effectiveTitle title) now,
       putMeta (putDoc st (updatedDoc now title content existing))
         (metaOf docId existing.createdAt now title (updatedDoc now title content existing))) := by
  unfold updateDocument
  rw [hex]
  rfl

/-- C5: on every create and every update, the size stored in the metadata
record equals the length of the JSON serialization of the content record
written for that document. -/
theorem C5_size_matches_serialized_content :
    ∀ (now newId : String) (title : Option String) (content : Option Json) (st : St),
      (∃ d m, findDoc (createDocument now newId title content st).2 newId = some d ∧
              findMeta (createDocument now newId title content st).2 newId = some m ∧
              m.size = d.serialize.length) ∧
      (∀ (docId : String) (existing : DocRecord), findDoc st docId = some existing →
        ∃ d m, findDoc (updateDocument now docId title content st).2 docId = some d ∧
               findMeta (updateDocument now docId title content st).2 docId = some m ∧
               m.size = d.serialize.length) := by
  intro now newId title content st
  constructor
  · refine ⟨createdDoc now newId title content,
            metaOf newId now now title (createdDoc now newId title content), ?_, ?_, rfl⟩
    · rw [createDocument_eq]
      show findDoc (putMeta (putDoc st _) _) newId = _
      rw [findDoc_eq_of_docs (putMeta_docs _ _) newId]
      exact findDoc_putDoc_self st _
    · rw [createDocument_eq]
      exact findMeta_putMeta_self (putDoc st _) _
  · intro docId existing hex
    have hid : existing.id = docId := findDoc_id hex
    refine ⟨updatedDoc now title content existing,
            metaOf docId existing.createdAt now title (updatedDoc now title content existing),
            ?_, ?_, rfl⟩
    · rw [updateDocument_eq now docId title content st existing hex]
      show findDoc (putMeta (putDoc st _) _) docId = _
      rw [findDoc_eq_of_docs (putMeta_docs _ _) docId, ← hid]
      exact findDoc_putDoc_self st _
    · rw [updateDocument_eq now docId title content st existing hex]
      exact findMeta_putMeta_self (putDoc st _) _

/-- Witness record for C5. -/
def dW5 : DocRecord :=
  { id := "doc_b", title := "B", content := Json.str "hi", createdAt := "T0", modifiedAt := "T0" }

/-- Witness store for C5. -/
def stW5 : St := ⟨[dW5], [], [], []⟩

/-- Witness for C5 at a concrete store, exercising the update branch. -/
theorem C5_witness :
    ∃ d m, findDoc (updateDocument "T1" "doc_b" (some "New") none stW5).2 "doc_b" = some d ∧
           findMeta (updateDocument "T1" "doc_b" (some "New") none stW5).2 "doc_b" = some m ∧
           m.size = d.serialize.length :=
  (C5_size_matches_serialized_content "T1" "x" (some "New") none stW5).2 "doc_b" dW5 rfl

/-- Content record of the C4 store. -/
def dC4 : DocRecord :=
  { id := "doc_a", title := "A", content := Json.null, createdAt := "T0", modifiedAt := "T0" }

/-- Metadata record of the C4 store. -/
def mC4 : DocMeta :=
  { id := "doc_a", title := "A", createdAt := "T0", modifiedAt := "T0"
    size := 0, type := "document", folderId := none }

/-- Store for C4: one document, no previews yet. -/
def stC4 : St := ⟨[dC4], [mC4], [], []⟩

/-- C4: generatePreview persists previews/doc_a.svg, but Delete unlinks only
previews/doc_a.png, so the call succeeds, removes the content and metadata
files, and leaves the svg preview file behind: the preview persisted by
generatePreview is not removed. -/
theorem C4_delete_orphans_svg_preview :
    (deleteDocument "doc_a" (generatePreview 7 "doc_a" ⟨some "Hello"⟩ stC4).2).1 =
      DeleteRes.ok "doc_a" ∧
    findDoc (deleteDocument "doc_a" (generatePreview 7 "doc_a" ⟨some "Hello"⟩ stC4).2).2
      "doc_a" = none ∧
    findMeta (deleteDocument "doc_a" (generatePreview 7 "doc_a" ⟨some "Hello"⟩ stC4).2).2
      "doc_a" = none ∧
    findPreview (deleteDocument "doc_a" (generatePreview 7 "doc_a" ⟨some "Hello"⟩ stC4).2).2
      "doc_a.svg" = some 7 :=
  ⟨rfl, rfl, rfl, rfl⟩

/-- Content record of the C2 store. -/
def dC2 : DocRecord :=
  { id := "doc_a", title := "My Doc", content := Json.null, createdAt := "T0", modifiedAt := "T0" }

/-- Metadata record of the C2 store. -/
def mC2 : DocMeta :=
  { id := "doc_a", title := "My Doc", createdAt := "T0", modifiedAt := "T0"
    size := 0, type := "document", folderId := none }

/-- Store for C2: one document titled My Doc. -/
def stC2 : St := ⟨[dC2], [mC2], [], []⟩

/-- C2 counterexample: a content-only update of a document titled My Doc
stores the title Untitled Document, so a missing title field does not leave
the prior title unchanged. -/
theorem C2_counterexample :
    (findDoc stC2 "doc_a").map (fun d => d.title) = some "My Doc" ∧
    (findDoc (updateDocument "T1" "doc_a" none (some (Json.str "x")) stC2).2 "doc_a").map
      (fun d => d.title) = some "Untitled Document" ∧
    ("My Doc" : String) ≠ "Untitled Document" :=
  ⟨rfl, rfl, by decide⟩

/-- C2 amended: the update route stores effectiveTitle of the request title:
a missing or empty title is replaced by Untitled Document regardless of the
prior title, and a nonempty title is sanitized and stored even when the
sanitized result is empty; content is unchanged when not provided; the
content record and the rebuilt metadata record both carry the fresh
modifiedAt. -/
theorem C2_amended_update_semantics :
    ∀ (now docId : String) (title : Option String) (content : Option Json) (st : St)
      (existing : DocRecord), findDoc st docId = some existing →
      (updateDocument now docId title content st).1 =
        DocWriteRes.ok docId (effectiveTitle title) now ∧
      findDoc (updateDocument now docId title content st).2 docId =
        some (updatedDoc now title content existing) ∧
      findMeta (updateDocument now docId title content st).2 docId =
        some (metaOf docId existing.createdAt now title (updatedDoc now title content existing)) ∧
      effectiveTitle none = "Untitled Document" ∧
      effectiveTitle (some "") = "Untitled Document" ∧
      (∀ t : String, t ≠ "" → effectiveTitle (some t) = sanitizeName 100 t) := by
  intro now docId title content st existing hex
  have hid : existing.id = docId := findDoc_id hex
  rw [updateDocument_eq now docId title content st existing hex]
  refine ⟨rfl, ?_, ?_, rfl, rfl, ?_⟩
  · show findDoc (putMeta (putDoc st _) _) docId = _
    rw [findDoc_eq_of_docs (putMeta_docs _ _) docId, ← hid]
    exact findDoc_putDoc_self st _
  · exact findMeta_putMeta_self (putDoc st _) _
  · intro t ht
    show (if (t == "") = true then "Untitled Document" else sanitizeName 100 t) =
      sanitizeName 100 t
    rw [if_neg (by simpa using ht)]

/-- Witness for C2 at a concrete store: a content-only update. -/
theorem C2_witness :
    (updateDocument "T2" "doc_a" none none stC2).1 =
      DocWriteRes.ok "doc_a" (effectiveTitle none) "T2" ∧
    findDoc (updateDocument "T2" "doc_a" none none stC2).2 "doc_a" =
      some (updatedDoc "T2" none none dC2) ∧
    findMeta (updateDocument "T2" "doc_a" none none stC2).2 "doc_a" =
      some (metaOf "doc_a" dC2.createdAt "T2" none (updatedDoc "T2" none none dC2)) ∧
    effectiveTitle none = "Untitled Document" ∧
    effectiveTitle (some "") = "Untitled Document" ∧
    (∀ t : String, t ≠ "" → effectiveTitle (some t) = sanitizeName 100 t) :=
  C2_amended_update_semantics "T2" "doc_a" none none stC2 dC2 rfl

/-- Input for the C6 counterexample: 99 letters, a space, two letters. -/
def sC6 : String := String.mk (List.replicate 99 'a' ++ [' ', 'b', 'b'])

/-- C6 counterexample: sanitizing sC6 as a document title truncates right
after the interior space, leaving trailing whitespace in the result. -/
theorem C6_counterexample :
    sanitizeName 100 sC6 = String.mk (List.replicate 99 'a' ++ [' ']) ∧
    Char.isWhitespace ' ' = true := by
  constructor
  · decide
  · rfl

/-- Heads surviving dropWhile falsify the predicate. -/
theorem head?_dropWhile_false {α : Type} (p : α → Bool) :
    ∀ (l : List α) (c : α), (l.dropWhile p).head? = some c → p c = false := by
  intro l
  induction l with
  | nil => intro c h; simp [List.dropWhile] at h
  | cons a t ih =>
    intro c h
    by_cases ha : p a = true
    · rw [List.dropWhile_cons_of_pos ha] at h
      exact ih c h
    · rw [List.dropWhile_cons_of_neg ha] at h
      simp only [List.head?_cons, Option.some.injEq] at h
      rw [← h]
      exact Bool.eq_false_iff.mpr ha

/-- The head of an append comes from the first part when it is there. -/
theorem head?_append_some {α : Type} {l : List α} {c : α} (h : l.head? = some c)
    (r : List α) : (l ++ r).head? = some c := by
  cases l with
  | nil => simp at h
  | cons a t => simpa using h

/-- Members of the trimmed list are members of the original. -/
theorem mem_trimChars {c : Char} {l : List Char} (h : c ∈ trimChars l) : c ∈ l := by
  unfold trimChars at h
  rw [List.mem_reverse] at h
  have h2 := (List.dropWhile_sublist Char.isWhitespace).mem h
  rw [List.mem_reverse] at h2
  exact (List.dropWhile_sublist Char.isWhitespace).mem h2

/-- The head of the trimmed list is not whitespace. -/
theorem head?_trimChars_not_ws {l : List Char} {c : Char}
    (h : (trimChars l).head? = some c) : c.isWhitespace = false := by
  unfold trimChars at h
  obtain ⟨r, hr⟩ : (((l.dropWhile Char.isWhitespace).reverse.dropWhile
      Char.isWhitespace).reverse) <+: l.dropWhile Char.isWhitespace := by
    have h0 := (List.dropWhile_suffix
      (l := (l.dropWhile Char.isWhitespace).reverse) Char.isWhitespace).reverse
    rwa [List.reverse_reverse] at h0
  have hh : (l.dropWhile Char.isWhitespace).head? = some c := by
    rw [← hr]
    exact head?_append_some h r
  exact head?_dropWhile_false Char.isWhitespace l c hh

/-- The last element of the trimmed list is not whitespace. -/
theorem getLast?_trimChars_not_ws {l : List Char} {c : Char}
    (h : (trimChars l).getLast? = some c) : c.isWhitespace = false := by
  unfold trimChars at h
  rw [List.getLast?_reverse] at h
  exact head?_dropWhile_false Char.isWhitespace _ c h

/-- C6 amended: the sanitized name contains none of the stripped characters,
never starts with whitespace, and has at most maxLen characters; it also
never ends with whitespace provided the stripped and trimmed text fits in
maxLen, but truncation at maxLen can leave trailing whitespace. -/
theorem C6_amended_sanitize_props :
    ∀ (n : Nat) (s : String),
      (∀ c ∈ (sanitizeName n s).data, isBadChar c = false) ∧
      (∀ c, (sanitizeName n s).data.head? = some c → c.isWhitespace = false) ∧
      (sanitizeName n s).length ≤ n ∧
      ((trimChars (s.data.filter (fun c => !isBadChar c))).length ≤ n →
        ∀ c, (sanitizeName n s).data.getLast? = some c → c.isWhitespace = false) := by
  intro n s
  refine ⟨?_, ?_, ?_, ?_⟩
  · intro c hc
    unfold sanitizeName at hc
    have h1 : c ∈ (trimChars (s.data.filter (fun c => !isBadChar c))).take n := hc
    have h2 := mem_trimChars (List.mem_of_mem_take h1)
    have h3 := (List.mem_filter.mp h2).2
    simpa using h3
  · intro c hc
    unfold sanitizeName at hc
    have h1 : ((trimChars (s.data.filter (fun c => !isBadChar c))).take n).head? = some c := hc
    have h2 : (trimChars (s.data.filter (fun c => !isBadChar c))).head? = some c := by
      cases hl : trimChars (s.data.filter (fun c => !isBadChar c)) with
      | nil => rw [hl] at h1; simp at h1
      | cons a t =>
        rw [hl] at h1
        cases n with
        | zero => simp at h1
        | succ k =>
          simp only [List.take_succ_cons, List.head?_cons, Option.some.injEq] at h1
          simp [h1]
    exact head?_trimChars_not_ws h2
  · show ((trimChars (s.data.filter (fun c => !isBadChar c))).take n).length ≤ n
    rw [List.length_take]
    exact Nat.min_le_left _ _
  · intro hfit c hc
    unfold sanitizeName at hc
    rw [List.take_of_length_le hfit] at hc
    exact getLast?_trimChars_not_ws hc

/-- Witness for C6 at a concrete input. -/
theorem C6_witness :
    (trimChars (" a<b ".data.filter (fun c => !isBadChar c))).length ≤ 100 ∧
    Char.isWhitespace 'b' = false :=
  ⟨by decide, (C6_amended_sanitize_props 100 " a<b ").2.2.2 (by decide) 'b' (by decide)⟩

/-- A folder record with a different id survives a folder write. -/
theorem mem_putFolder_of_ne (st : St) (u : Folder) (g : Folder) (hg : g ∈ st.folders)
    (hne : g.id ≠ u.id) : g ∈ (putFolder st u).folders := by
  unfold putFolder
  by_cases hex : (findFolder st u.id).isSome = true
  · rw [if_pos hex]
    show g ∈ st.folders.map _
    have himg : (fun x => if x.id == u.id then u else x) g = g := by
      simp only [beq_iff_eq]
      rw [if_neg hne]
    rw [← himg]
    exact List.mem_map_of_mem _ hg
  · rw [if_neg hex]
    exact List.mem_append_left _ hg

/-- The folder detail route reaches its body on a validated existing id. -/
theorem folderGet_found_eq (now folderId : String) (st : St) (f : Folder)
    (hpre : strStartsWith folderId "folder_" = true)
    (hf : findFolder st folderId = some f) :
    folderGet now folderId st = folderGetFound now folderId f st := by
  unfold folderGet
  have h1 : (!strStartsWith folderId "folder_") = false := by rw [hpre]; rfl
  rw [h1, if_neg Bool.false_ne_true, hf]

/-- C9: the folder detail route writes the folder record back to disk if and
only if the live member count differs from the cached documentCount; in that
case the count is set to the live count and modifiedAt refreshed while every
other file is untouched, and otherwise the whole store is left unchanged. -/
theorem C9_folderGet_writes_iff_count_drift :
    ∀ (now folderId : String) (st : St) (f : Folder),
      strStartsWith folderId "folder_" = true →
      findFolder st folderId = some f →
      ((st.metas.filter (fun m => m.folderId == some folderId)).length = f.documentCount →
        (folderGet now folderId st).2 = st) ∧
      ((st.metas.filter (fun m => m.folderId == some folderId)).length ≠ f.documentCount →
        findFolder (folderGet now folderId st).2 folderId =
          some { f with
                 documentCount := (st.metas.filter (fun m => m.folderId == some folderId)).length
                 modifiedAt := now } ∧
        (folderGet now folderId st).2.docs = st.docs ∧
        (folderGet now folderId st).2.metas = st.metas ∧
        (folderGet now folderId st).2.previews = st.previews ∧
        (∀ g ∈ st.folders, g.id ≠ folderId → g ∈ (folderGet now folderId st).2.folders)) := by
  intro now folderId st f hpre hf
  have hid : f.id = folderId := findFolder_id hf
  rw [folderGet_found_eq now folderId st f hpre hf]
  simp only [folderGetFound]
  constructor
  · intro heq
    rw [if_neg (fun hne => hne heq)]
  · intro hne
    rw [if_pos hne]
    refine ⟨?_, putFolder_docs st _, putFolder_metas st _, putFolder_previews st _, ?_⟩
    · rw [show folderId = f.id from hid.symm]
      exact findFolder_putFolder_self st _
    · intro g hg hgne
      refine mem_putFolder_of_ne st _ g hg ?_
      show g.id ≠ f.id
      rw [hid]
      exact hgne

/-- Folder record of the C9 witness store, whose cached count 3 drifted from
the single live document. -/
def fW9 : Folder :=
  { id := "folder_1", name := "N", parentFolderId := none
    createdAt := "T0", modifiedAt := "T0", documentCount := 3 }

/-- Metadata record of the C9 witness store. -/
def mW9 : DocMeta :=
  { id := "doc_a", title := "A", createdAt := "T0", modifiedAt := "T0"
    size := 0, type := "document", folderId := some "folder_1" }

/-- Witness store for C9. -/
def stW9 : St := ⟨[], [mW9], [fW9], []⟩

/-- Witness for C9 at a concrete store with a drifted count. -/
theorem C9_witness :
    findFolder (folderGet "T1" "folder_1" stW9).2 "folder_1" =
      some { fW9 with
             documentCount := (stW9.metas.filter (fun m => m.folderId == some "folder_1")).length
             modifiedAt := "T1" } ∧
    (folderGet "T1" "folder_1" stW9).2.metas = stW9.metas :=
  ⟨((C9_folderGet_writes_iff_count_drift "T1" "folder_1" stW9 fW9 (by decide) rfl).2
      (by decide)).1,
   ((C9_folderGet_writes_iff_count_drift "T1" "folder_1" stW9 fW9 (by decide) rfl).2
      (by decide)).2.2.1⟩

/-- The target folder id carried by a move request body. -/
def MoveTarget.newFolderId : MoveTarget → Option String
  | .folder fid => some fid
  | _ => none

/-- Metadata record of the C1 store: one document at root. -/
def mC1 : DocMeta :=
  { id := "doc_a", title := "A", createdAt := "T0", modifiedAt := "T0"
    size := 0, type := "document", folderId := none }

/-- First folder of the C1 store, with a correct cached count. -/
def f1C1 : Folder :=
  { id := "folder_1", name := "F1", parentFolderId := none
    createdAt := "T0", modifiedAt := "T0", documentCount := 0 }

/-- Third folder of the C1 store, with a stale cached count of 5. -/
def f3C1 : Folder :=
  { id := "folder_3", name := "F3", parentFolderId := none
    createdAt := "T0", modifiedAt := "T0", documentCount := 5 }

/-- Store for C1. -/
def stC1 : St := ⟨[], [mC1], [f1C1, f3C1], []⟩

/-- C1 counterexample: after a successful move of doc_a into folder_1, the
record of folder_3 still stores documentCount 5 although no document
references it, so the stored count does not match the live count on every
existing folder record. -/
theorem C1_counterexample :
    (moveDocument "T1" "doc_a" (MoveTarget.folder "folder_1") stC1).1 =
      MoveRes.ok { mC1 with folderId := some "folder_1", modifiedAt := "T1" } ∧
    findFolder (moveDocument "T1" "doc_a" (MoveTarget.folder "folder_1") stC1).2 "folder_3" =
      some f3C1 ∧
    documentCountsFrom (moveDocument "T1" "doc_a" (MoveTarget.folder "folder_1") stC1).2.metas
      "folder_3" = 0 ∧
    f3C1.documentCount = 5 ∧ (5 : Nat) ≠ 0 := by
  decide

/-- Membership in the affected folder id list of updateFolderCounts. -/
theorem mem_affectedFolders (o n : Option String) (x : String) :
    x ∈ ([o, n].filterMap id).filter (fun fid => strStartsWith fid "folder_") ↔
      ((o = some x ∨ n = some x) ∧ strStartsWith x "folder_" = true) := by
  simp only [List.mem_filter, List.mem_filterMap, List.mem_cons, List.not_mem_nil,
    or_false, id_eq]
  constructor
  · rintro ⟨⟨a, ha, hax⟩, hpre⟩
    rcases ha with ha | ha
    · exact ⟨Or.inl (by rw [← ha, hax]), hpre⟩
    · exact ⟨Or.inr (by rw [← ha, hax]), hpre⟩
  · rintro ⟨ho | hn, hpre⟩
    · exact ⟨⟨some x, Or.inl ho.symm, rfl⟩, hpre⟩
    · exact ⟨⟨some x, Or.inr hn.symm, rfl⟩, hpre⟩

/-- C1 amended: after every successful move, the folder records whose id is
the prior folderId (when folder_ prefixed) or the move target carry the
recomputed live document count and the fresh modifiedAt; every other folder
record is left exactly as it was, so a stale count on an unrelated folder
survives the move. -/
theorem C1_amended_move_recounts_only_affected_folders :
    ∀ (now docId : String) (target : MoveTarget) (st : St) (m : DocMeta),
      strStartsWith docId "doc_" = true →
      findMeta st docId = some m →
      (∀ fid, target = MoveTarget.folder fid →
        strStartsWith fid "folder_" = true ∧ (findFolder st fid).isNone = false) →
      (moveDocument now docId target st).1 =
        MoveRes.ok { m with folderId := target.newFolderId, modifiedAt := now } ∧
      ∀ g ∈ (moveDocument now docId target st).2.folders,
        (((m.folderId = some g.id ∧ strStartsWith g.id "folder_" = true) ∨
            target = MoveTarget.folder g.id) →
          g.documentCount =
            documentCountsFrom (moveDocument now docId target st).2.metas g.id ∧
          g.modifiedAt = now) ∧
        (¬ ((m.folderId = some g.id ∧ strStartsWith g.id "folder_" = true) ∨
            target = MoveTarget.folder g.id) →
          g ∈ st.folders) := by
  intro now docId target st m hdoc hm htgt
  have key : moveDocument now docId target st =
      moveApply now docId target.newFolderId st := by
    cases target with
    | undef => exact moveDocument_undef_ok now docId st hdoc
    | null => exact moveDocument_null_ok now docId st hdoc
    | folder fid =>
      exact moveDocument_folder_ok now docId fid st hdoc (htgt fid rfl).1 (htgt fid rfl).2
  rw [key, moveApply_ok now docId target.newFolderId st m hm]
  refine ⟨rfl, ?_⟩
  intro g hg
  rw [updateFolderCounts_eq_countsFold] at hg ⊢
  have hmetas := countsFold_metas now
    (putMeta st { m with folderId := target.newFolderId, modifiedAt := now }).metas
    (([m.folderId, target.newFolderId].filterMap id).filter
      (fun fid => strStartsWith fid "folder_"))
    (putMeta st { m with folderId := target.newFolderId, modifiedAt := now })
  have spec := countsFold_spec now
    (putMeta st { m with folderId := target.newFolderId, modifiedAt := now }).metas
    (([m.folderId, target.newFolderId].filterMap id).filter
      (fun fid => strStartsWith fid "folder_"))
    (putMeta st { m with folderId := target.newFolderId, modifiedAt := now }) g hg
  constructor
  · intro haff
    have hmem : g.id ∈ ([m.folderId, target.newFolderId].filterMap id).filter
        (fun fid => strStartsWith fid "folder_") := by
      rw [mem_affectedFolders]
      rcases haff with ⟨hold, hpre⟩ | hfold
      · exact ⟨Or.inl hold, hpre⟩
      · refine ⟨Or.inr ?_, (htgt g.id hfold).1⟩
        rw [hfold]
        rfl
    have hc := spec.1 hmem
    rw [hmetas]
    exact hc
  · intro haff
    have hmem : g.id ∉ ([m.folderId, target.newFolderId].filterMap id).filter
        (fun fid => strStartsWith fid "folder_") := by
      rw [mem_affectedFolders]
      rintro ⟨ho | hn, hpre⟩
      · exact haff (Or.inl ⟨ho, hpre⟩)
      · refine haff (Or.inr ?_)
        cases target with
        | undef => simp [MoveTarget.newFolderId] at hn
        | null => simp [MoveTarget.newFolderId] at hn
        | folder fid =>
          have : fid = g.id := by
            simpa [MoveTarget.newFolderId] using hn
          rw [this]
    have hga := spec.2 hmem
    rw [putMeta_folders] at hga
    exact hga

/-- The folder_1 record as the C1 witness expects it after the move. -/
def g1C1 : Folder :=
  { id := "folder_1", name := "F1", parentFolderId := none
    createdAt := "T0", modifiedAt := "T1", documentCount := 1 }

/-- Witness for C1 at the concrete store: the target folder record carries
the recomputed count. -/
theorem C1_witness :
    g1C1.documentCount =
      documentCountsFrom
        (moveDocument "T1" "doc_a" (MoveTarget.folder "folder_1") stC1).2.metas g1C1.id ∧
    g1C1.modifiedAt = "T1" :=
  ((C1_amended_move_recounts_only_affected_folders "T1" "doc_a"
      (MoveTarget.folder "folder_1") stC1 mC1 (by decide) rfl
      (fun fid h => by
        injection h with h2
        rw [← h2]
        exact ⟨by decide, by decide⟩)).2 g1C1 (by decide)).1
    (Or.inr rfl)

/-- Preview content of the C7 counterexample: one short word, then a word of
40 characters. -/
def docC7 : PreviewDoc := ⟨some ("ab " ++ String.mk (List.replicate 40 'c'))⟩

/-- C7 counterexample: the 40 character word follows a nonempty accumulated
line, so the wrap loop flushes it as its own display line, untruncated and
without an ellipsis, and the rendered line exceeds the 36 character budget. -/
theorem C7_counterexample :
    previewLines docC7 = ["ab".data, List.replicate 40 'c'] ∧
    maxCharsPerLine < (List.replicate 40 'c').length := by
  decide

/-- Elements after the overflow marker come from the original lines, the
last one with the ellipsis appended. -/
theorem mem_appendEllipsis {l : List Char} {acc : List (List Char)}
    (h : l ∈ appendEllipsis acc) :
    l ∈ acc ∨ ∃ l0 ∈ acc, l = l0 ++ ['.', '.', '.'] := by
  unfold appendEllipsis at h
  cases hr : acc.reverse with
  | nil => rw [hr] at h; simp at h
  | cons last rest =>
    rw [hr] at h
    rw [List.mem_reverse, List.mem_cons] at h
    have hlast : last ∈ acc := by
      rw [← List.mem_reverse, hr]
      exact List.mem_cons_self _ _
    rcases h with h | h
    · exact Or.inr ⟨last, hlast, h⟩
    · refine Or.inl ?_
      rw [← List.mem_reverse, hr]
      exact List.mem_cons_of_mem _ h

/-- Every line produced by the wrap loop is within the budget, one of the
remaining words, or the accumulated line handed in. -/
theorem wrapLoop_mem (maxC : Nat) (h3 : 3 ≤ maxC) :
    ∀ (ws : List (List Char)) (cur : List Char), ∀ l ∈ wrapLoop maxC ws cur,
      l.length ≤ maxC ∨ l ∈ ws ∨ l = cur := by
  intro ws
  induction ws with
  | nil =>
    intro cur l hl
    unfold wrapLoop at hl
    by_cases hc : cur ≠ []
    · rw [if_pos hc] at hl
      rcases List.mem_singleton.mp hl with h
      exact Or.inr (Or.inr h)
    · rw [if_neg hc] at hl
      simp at hl
  | cons w ws ih =>
    intro cur l hl
    unfold wrapLoop at hl
    by_cases hover : (if cur = [] then w else cur ++ ' ' :: w).length > maxC
    · rw [if_pos hover] at hl
      by_cases hcur : cur ≠ []
      · rw [if_pos hcur] at hl
        rcases List.mem_cons.mp hl with h | h
        · exact Or.inr (Or.inr h)
        · rcases ih w l h with h2 | h2 | h2
          · exact Or.inl h2
          · exact Or.inr (Or.inl (List.mem_cons_of_mem _ h2))
          · exact Or.inr (Or.inl (by rw [h2]; exact List.mem_cons_self _ _))
      · rw [if_neg hcur] at hl
        rcases List.mem_cons.mp hl with h | h
        · refine Or.inl ?_
          rw [h, List.length_append, List.length_take]
          have : min (maxC - 3) w.length ≤ maxC - 3 := Nat.min_le_left _ _
          simp only [List.length_cons, List.length_nil]
          omega
        · rcases ih [] l h with h2 | h2 | h2
          · exact Or.inl h2
          · exact Or.inr (Or.inl (List.mem_cons_of_mem _ h2))
          · exact Or.inl (by rw [h2]; exact Nat.zero_le _)
    · rw [if_neg hover] at hl
      rcases ih _ l hl with h2 | h2 | h2
      · exact Or.inl h2
      · exact Or.inr (Or.inl (List.mem_cons_of_mem _ h2))
      · refine Or.inl ?_
        rw [h2]
        omega
-- in the last case the test line fit within the budget, so its length bound
-- comes from the negated comparison

/-- When the emitter finishes within the height budget, every element of its
output was already present or is one of the display lines. -/
theorem emitLines_mem_of_le :
    ∀ (dls : List (List Char)) (y : Nat) (acc : List (List Char)),
      (emitLines dls y acc).2 ≤ previewHeight - previewPadding →
      ∀ l ∈ (emitLines dls y acc).1, l ∈ acc ∨ l ∈ dls := by
  intro dls
  induction dls with
  | nil => intro y acc _ l hl; exact Or.inl hl
  | cons dl rest ih =>
    intro y acc hle l hl
    unfold emitLines at hle hl
    by_cases hy : y + baseLineHeight > previewHeight - previewPadding
    · rw [if_pos hy] at hle
      omega
    · rw [if_neg hy] at hle hl
      rcases ih _ _ hle l hl with h | h
      · rcases List.mem_append.mp h with h2 | h2
        · exact Or.inl h2
        · exact Or.inr (by rw [List.mem_singleton.mp h2]; exact List.mem_cons_self _ _)
      · exact Or.inr (List.mem_cons_of_mem _ h)

/-- Every element of the emitter output was present, is a display line, or is
one of those with the overflow ellipsis appended. -/
theorem emitLines_mem :
    ∀ (dls : List (List Char)) (y : Nat) (acc : List (List Char)),
      ∀ l ∈ (emitLines dls y acc).1,
        (l ∈ acc ∨ l ∈ dls) ∨
        ∃ l0, (l0 ∈ acc ∨ l0 ∈ dls) ∧ l = l0 ++ ['.', '.', '.'] := by
  intro dls
  induction dls with
  | nil => intro y acc l hl; exact Or.inl (Or.inl hl)
  | cons dl rest ih =>
    intro y acc l hl
    unfold emitLines at hl
    by_cases hy : y + baseLineHeight > previewHeight - previewPadding
    · rw [if_pos hy] at hl
      rcases mem_appendEllipsis hl with h | ⟨l0, hl0, heq⟩
      · exact Or.inl (Or.inl h)
      · exact Or.inr ⟨l0, Or.inl hl0, heq⟩
    · rw [if_neg hy] at hl
      rcases ih _ _ l hl with h | ⟨l0, hl0, heq⟩
      · rcases h with h | h
        · rcases List.mem_append.mp h with h2 | h2
          · exact Or.inl (Or.inl h2)
          · exact Or.inl (Or.inr (by
              rw [List.mem_singleton.mp h2]; exact List.mem_cons_self _ _))
        · exact Or.inl (Or.inr (List.mem_cons_of_mem _ h))
      · rcases hl0 with h | h
        · rcases List.mem_append.mp h with h2 | h2
          · exact Or.inr ⟨l0, Or.inl h2, heq⟩
          · exact Or.inr ⟨l0, Or.inr (by
              rw [List.mem_singleton.mp h2]; exact List.mem_cons_self _ _), heq⟩
        · exact Or.inr ⟨l0, Or.inr (List.mem_cons_of_mem _ h), heq⟩

/-- Every laid-out line comes from the handed-in accumulator or from wrapping
one of the logical lines, possibly with the overflow ellipsis appended. -/
theorem layoutAux_mem :
    ∀ (slines : List (List Char × Nat)) (y : Nat) (acc : List (List Char)),
      ∀ l ∈ layoutAux slines y acc,
        (l ∈ acc ∨ ∃ p ∈ slines, l ∈ wrapWords maxCharsPerLine p.1) ∨
        ∃ l0, (l0 ∈ acc ∨ ∃ p ∈ slines, l0 ∈ wrapWords maxCharsPerLine p.1) ∧
          l = l0 ++ ['.', '.', '.'] := by
  intro slines
  induction slines with
  | nil => intro y acc l hl; exact Or.inl (Or.inl hl)
  | cons p rest ih =>
    intro y acc l hl
    unfold layoutAux at hl
    by_cases hy : (emitLines (wrapWords maxCharsPerLine p.1) (y + p.2 * 3) acc).2 >
        previewHeight - previewPadding
    · rw [if_pos hy] at hl
      rcases emitLines_mem _ _ _ l hl with h | ⟨l0, hl0, heq⟩
      · rcases h with h | h
        · exact Or.inl (Or.inl h)
        · exact Or.inl (Or.inr ⟨p, List.mem_cons_self _ _, h⟩)
      · rcases hl0 with h | h
        · exact Or.inr ⟨l0, Or.inl h, heq⟩
        · exact Or.inr ⟨l0, Or.inr ⟨p, List.mem_cons_self _ _, h⟩, heq⟩
    · rw [if_neg hy] at hl
      have hle : (emitLines (wrapWords maxCharsPerLine p.1) (y + p.2 * 3) acc).2 ≤
          previewHeight - previewPadding := Nat.le_of_not_lt hy
      rcases ih _ _ l hl with h | ⟨l0, hl0, heq⟩
      · rcases h with h | ⟨q, hq, hwq⟩
        · rcases emitLines_mem_of_le _ _ _ hle l h with h2 | h2
          · exact Or.inl (Or.inl h2)
          · exact Or.inl (Or.inr ⟨p, List.mem_cons_self _ _, h2⟩)
        · exact Or.inl (Or.inr ⟨q, List.mem_cons_of_mem _ hq, hwq⟩)
      · rcases hl0 with h | ⟨q, hq, hwq⟩
        · rcases emitLines_mem_of_le _ _ _ hle l0 h with h2 | h2
          · exact Or.inr ⟨l0, Or.inl h2, heq⟩
          · exact Or.inr ⟨l0, Or.inr ⟨p, List.mem_cons_self _ _, h2⟩, heq⟩
        · exact Or.inr ⟨l0, Or.inr ⟨q, List.mem_cons_of_mem _ hq, hwq⟩, heq⟩

/-- C7 amended: an emitted preview line either fits within the 36 character
budget plus the 3 character overflow marker, or it is a word of some logical
line that itself exceeds the budget, rendered verbatim or with the overflow
ellipsis; and a word longer than the budget is truncated to 33 characters
with an ellipsis exactly when it arrives on an empty accumulated line, as
the first word of a logical line does. -/
theorem C7_amended_wrap_truncation :
    ∀ (doc : PreviewDoc),
      (∀ l ∈ previewLines doc,
        l.length ≤ maxCharsPerLine + 3 ∨
        ∃ p ∈ extractStructuredText doc, ∃ w ∈ wordsOf p.1,
          maxCharsPerLine < w.length ∧ (l = w ∨ l = w ++ ['.', '.', '.'])) ∧
      (∀ (w : List Char) (ws : List (List Char)), maxCharsPerLine < w.length →
        wrapLoop maxCharsPerLine (w :: ws) [] =
          (w.take (maxCharsPerLine - 3) ++ ['.', '.', '.']) ::
            wrapLoop maxCharsPerLine ws []) := by
  intro doc
  constructor
  · intro l hl
    have h := layoutAux_mem (extractStructuredText doc) previewPadding [] l hl
    have key : ∀ l0 : List Char,
        (l0 ∈ ([] : List (List Char)) ∨
          ∃ p ∈ extractStructuredText doc, l0 ∈ wrapWords maxCharsPerLine p.1) →
        l0.length ≤ maxCharsPerLine ∨
        ∃ p ∈ extractStructuredText doc, ∃ w ∈ wordsOf p.1,
          maxCharsPerLine < w.length ∧ l0 = w := by
      intro l0 h0
      rcases h0 with h0 | ⟨p, hp, hw⟩
      · simp at h0
      · rcases wrapLoop_mem maxCharsPerLine (by decide) _ [] l0 hw with h2 | h2 | h2
        · exact Or.inl h2
        · rcases le_or_lt l0.length maxCharsPerLine with h3 | h3
          · exact Or.inl h3
          · exact Or.inr ⟨p, hp, l0, h2, h3, rfl⟩
        · exact Or.inl (by rw [h2]; exact Nat.zero_le _)
    rcases h with h | ⟨l0, hl0, heq⟩
    · rcases key l h with h2 | ⟨p, hp, w, hw, hlen, hlw⟩
      · exact Or.inl (by omega)
      · exact Or.inr ⟨p, hp, w, hw, hlen, Or.inl hlw⟩
    · rcases key l0 hl0 with h2 | ⟨p, hp, w, hw, hlen, hlw⟩
      · refine Or.inl ?_
        rw [heq, List.length_append]
        simp only [List.length_cons, List.length_nil]
        omega
      · exact Or.inr ⟨p, hp, w, hw, hlen, Or.inr (by rw [heq, hlw])⟩
  · intro w ws hlen
    conv_lhs => unfold wrapLoop
    rw [if_pos rfl, if_pos hlen, if_neg (fun hne => hne rfl)]

/-- Witness for C7 at the concrete preview content. -/
theorem C7_witness :
    ((List.replicate 40 'c').length ≤ maxCharsPerLine + 3 ∨
      ∃ p ∈ extractStructuredText docC7, ∃ w ∈ wordsOf p.1,
        maxCharsPerLine < w.length ∧
        (List.replicate 40 'c' = w ∨ List.replicate 40 'c' = w ++ ['.', '.', '.'])) ∧
    wrapLoop maxCharsPerLine [List.replicate 40 'c'] [] =
      ((List.replicate 40 'c').take (maxCharsPerLine - 3) ++ ['.', '.', '.']) ::
        wrapLoop maxCharsPerLine [] [] :=
  ⟨(C7_amended_wrap_truncation docC7).1 (List.replicate 40 'c') (by decide),
   (C7_amended_wrap_truncation docC7).2 (List.replicate 40 'c') [] (by decide)⟩

/-
  Ancestor chains over the folder store, used to define the subtree of a
  folder for the cascading delete.  A chain follows parentFolderId pointers
  upward; the fuel bounds its length and is chosen large enough that on an
  acyclic store every chain stabilizes well below it.
-/

/-- Folder record lookup inside a bare folder list. -/
def findF (fs : List Folder) (x : String) : Option Folder :=
  fs.find? (fun f => f.id == x)

/-- The parent pointer of the record named x, when both exist. -/
def parentOfF (fs : List Folder) (x : String) : Option String :=
  (findF fs x).bind (fun f => f.parentFolderId)

/-- The fueled ancestor chain of x: x itself, then its parents upward. -/
def ancChain (fs : List Folder) : Nat → String → List String
  | 0, _ => []
  | n + 1, x =>
    x :: (match parentOfF fs x with
          | none => []
          | some p => ancChain fs n p)

/-- Fuel at which every chain of an acyclic store has stabilized: chains on
an acyclic store have at most length + 1 entries, and the slack of the
remaining fuel makes every suffix of a chain stable as well. -/
def subFuel (fs : List Folder) : Nat := 2 * fs.length + 4

/-- x lies in the subtree of root: root is an ancestor of x (or x itself). -/
def inSubtree (fs : List Folder) (root x : String) : Bool :=
  decide (root ∈ ancChain fs (subFuel fs) x)

/-- The parent relation has no cycles: every ancestor chain is duplicate
free. -/
def Acyclic (fs : List Folder) : Prop :=
  ∀ x : String, (ancChain fs (subFuel fs) x).Nodup

/-- Acyclicity follows from the duplicate freedom of the finitely many
chains that start at a record, which is decidable. -/
theorem acyclic_of_records (fs : List Folder)
    (h : ∀ f ∈ fs, (ancChain fs (subFuel fs) f.id).Nodup) : Acyclic fs := by
  intro x
  cases hf : findF fs x with
  | none =>
    have : ancChain fs (subFuel fs) x = [x] := by
      unfold subFuel
      show ancChain fs (2 * fs.length + 3 + 1) x = [x]
      unfold ancChain parentOfF
      rw [hf]
      rfl
    rw [this]
    exact List.nodup_singleton x
  | some f =>
    have hid : f.id = x := by
      have := List.find?_some hf
      simpa [beq_iff_eq] using this
    have hmem : f ∈ fs := List.mem_of_find?_eq_some hf
    rw [← hid]
    exact h f hmem

/-- A chain is a prefix of the chain with one more unit of fuel. -/
theorem ancChain_prefix_succ (fs : List Folder) :
    ∀ (n : Nat) (x : String), ancChain fs n x <+: ancChain fs (n + 1) x := by
  intro n
  induction n with
  | zero => intro x; exact List.nil_prefix
  | succ k ih =>
    intro x
    show (x :: _) <+: (x :: _)
    cases hp : parentOfF fs x with
    | none => simp [hp]
    | some p =>
      simp only [hp]
      exact (List.prefix_cons_inj x).mpr (ih p)

/-- Chains are monotone in the fuel. -/
theorem ancChain_prefix_le (fs : List Folder) {n m : Nat} (h : n ≤ m) (x : String) :
    ancChain fs n x <+: ancChain fs m x := by
  induction m with
  | zero =>
    have : n = 0 := Nat.le_zero.mp h
    rw [this]
  | succ k ih =>
    rcases Nat.lt_or_ge n (k + 1) with h2 | h2
    · exact (ih (Nat.lt_succ_iff.mp h2)).trans (ancChain_prefix_succ fs k x)
    · have : n = k + 1 := Nat.le_antisymm h h2
      rw [this]

/-- Chain membership is monotone in the fuel. -/
theorem mem_ancChain_mono (fs : List Folder) {n m : Nat} (h : n ≤ m) {x y : String}
    (hy : y ∈ ancChain fs n x) : y ∈ ancChain fs m x :=
  (ancChain_prefix_le fs h x).sublist.mem hy

/-- The fuel bounds the chain length. -/
theorem ancChain_length_le (fs : List Folder) :
    ∀ (n : Nat) (x : String), (ancChain fs n x).length ≤ n := by
  intro n
  induction n with
  | zero => intro x; simp [ancChain]
  | succ k ih =>
    intro x
    show (x :: _).length ≤ k + 1
    cases hp : parentOfF fs x with
    | none => simp
    | some p => simpa using ih p

/-- A chain shorter than its fuel has already stopped at a record with no
parent, so one more unit of fuel changes nothing. -/
theorem ancChain_stable_succ (fs : List Folder) :
    ∀ (n : Nat) (x : String), (ancChain fs n x).length < n →
      ancChain fs (n + 1) x = ancChain fs n x := by
  intro n
  induction n with
  | zero => intro x h; simp [ancChain] at h
  | succ k ih =>
    intro x h
    show (x :: _) = (x :: _)
    cases hp : parentOfF fs x with
    | none => simp
    | some p =>
      simp only [hp]
      have hlen : (ancChain fs k p).length < k := by
        have : (ancChain fs (k + 1) x).length = (ancChain fs k p).length + 1 := by
          show (x :: _).length = _
          simp [hp]
        omega
      rw [ih p hlen]

/-- Stability propagates to every larger fuel. -/
theorem ancChain_stable (fs : List Folder) {n : Nat} {x : String}
    (h : (ancChain fs n x).length < n) :
    ∀ m, n ≤ m → ancChain fs m x = ancChain fs n x := by
  intro m hm
  induction m with
  | zero =>
    have : n = 0 := Nat.le_zero.mp hm
    rw [this]
  | succ k ih =>
    rcases Nat.lt_or_ge n (k + 1) with h2 | h2
    · have hk : n ≤ k := Nat.lt_succ_iff.mp h2
      have hstable := ih hk
      have hlen : (ancChain fs k x).length < k := by
        rw [hstable]
        exact Nat.lt_of_lt_of_le h hk
      rw [ancChain_stable_succ fs k x hlen, hstable]
    · have : n = k + 1 := Nat.le_antisymm hm h2
      rw [this]

/-- One step of chain unfolding at positive fuel. -/
theorem ancChain_succ (fs : List Folder) (n : Nat) (x : String) :
    ancChain fs (n + 1) x =
      x :: (match parentOfF fs x with
            | none => []
            | some p => ancChain fs n p) := rfl

/-- Every chain member is the final entry or names an existing record. -/
theorem ancChain_mem_record (fs : List Folder) :
    ∀ (n : Nat) (x y : String), y ∈ ancChain fs n x →
      y ∈ (ancChain fs n x).getLast? ∨ (findF fs y).isSome = true := by
  intro n
  induction n with
  | zero => intro x y h; simp [ancChain] at h
  | succ k ih =>
    intro x y h
    rw [ancChain_succ] at h ⊢
    cases hp : parentOfF fs x with
    | none =>
      simp only [hp] at h ⊢
      left
      have hyx : y = x := by simpa using h
      simp [hyx]
    | some p =>
      simp only [hp] at h ⊢
      rcases List.mem_cons.mp h with h2 | h2
      · right
        subst h2
        unfold parentOfF at hp
        cases hf : findF fs y with
        | none => rw [hf] at hp; simp at hp
        | some f => rfl
      · rcases ih p y h2 with h3 | h3
        · left
          cases hc : ancChain fs k p with
          | nil => rw [hc] at h2; simp at h2
          | cons a t =>
            rw [hc] at h3
            rw [List.getLast?_cons_cons]
            exact h3
        · right; exact h3

/-- A duplicate-free list whose entries all equal one value has at most one
entry. -/
theorem nodup_all_eq_length_le_one {α : Type} {l : List α} {v : α}
    (hnd : l.Nodup) (hall : ∀ a ∈ l, a = v) : l.length ≤ 1 := by
  cases l with
  | nil => simp
  | cons a t =>
    cases t with
    | nil => simp
    | cons b t2 =>
      have ha : a = v := hall a (by simp)
      have hb : b = v := hall b (by simp)
      rw [List.nodup_cons] at hnd
      exact absurd (by simp [ha, hb]) hnd.1

/-- Head of a chain at positive fuel. -/
theorem ancChain_head (fs : List Folder) {n : Nat} (h : 0 < n) (x : String) :
    (ancChain fs n x).head? = some x := by
  cases n with
  | zero => omega
  | succ k => rw [ancChain_succ]; rfl

/-- A chain at positive fuel starts with its argument. -/
theorem self_mem_ancChain (fs : List Folder) {n : Nat} (h : 0 < n) (x : String) :
    x ∈ ancChain fs n x := by
  cases n with
  | zero => omega
  | succ k => rw [ancChain_succ]; exact List.mem_cons_self x _

/-- Counting: a duplicate-free chain has at most one entry per folder record
plus one final dangling entry. -/
theorem ancChain_length_of_nodup (fs : List Folder) (n : Nat) (x : String)
    (hnd : (ancChain fs n x).Nodup) :
    (ancChain fs n x).length ≤ fs.length + 1 := by
  set c := ancChain fs n x with hc
  set p : String → Bool := fun y => (findF fs y).isSome with hpdef
  have hsplit : c.length = (c.filter p).length + (c.filter (fun y => !(p y))).length := by
    have h0 := List.length_eq_countP_add_countP p c
    have hfun : (fun y => !(p y)) = (fun a => decide ¬p a = true) := by
      funext a
      simp
    simp only [← List.countP_eq_length_filter]
    rw [hfun]
    exact h0
  have h1 : (c.filter (fun y => !(p y))).length ≤ 1 := by
    cases hne : c.filter (fun y => !(p y)) with
    | nil => simp
    | cons y0 rest =>
      have hy0 : y0 ∈ c.filter (fun y => !(p y)) := by rw [hne]; simp
      have hlast : ∀ a ∈ c.filter (fun y => !(p y)), a ∈ c.getLast? := by
        intro a ha
        have hmem := List.mem_of_mem_filter ha
        have hnp : p a = false := by
          have := List.of_mem_filter ha
          simpa using this
        rcases ancChain_mem_record fs n x a hmem with h2 | h2
        · exact h2
        · rw [hpdef] at hnp; simp [hnp] at h2
      have hv : c.getLast? = some y0 := by
        have := hlast y0 hy0
        simpa using this
      have hall : ∀ a ∈ c.filter (fun y => !(p y)), a = y0 := by
        intro a ha
        have h3 := hlast a ha
        rw [hv] at h3
        have h4 : y0 = a := by simpa using h3
        exact h4.symm
      rw [← hne]
      exact nodup_all_eq_length_le_one (hnd.filter _) hall
  have h2 : (c.filter p).length ≤ fs.length := by
    have hndf : (c.filter p).Nodup := hnd.filter _
    have hsub : ∀ y ∈ c.filter p, y ∈ fs.map (fun f => f.id) := by
      intro y hy
      have hp2 : p y = true := List.of_mem_filter hy
      have hfs : (findF fs y).isSome = true := hp2
      unfold findF at hfs
      rcases List.find?_isSome.mp hfs with ⟨f, hf, hfy⟩
      exact List.mem_map.mpr ⟨f, hf, by simpa [beq_iff_eq] using hfy⟩
    have hcard1 : (c.filter p).toFinset.card = (c.filter p).length :=
      List.toFinset_card_of_nodup hndf
    have hcard2 : (c.filter p).toFinset ⊆ (fs.map (fun f => f.id)).toFinset := by
      intro y hy
      exact List.mem_toFinset.mpr (hsub y (List.mem_toFinset.mp hy))
    calc (c.filter p).length = (c.filter p).toFinset.card := hcard1.symm
      _ ≤ (fs.map (fun f => f.id)).toFinset.card := Finset.card_le_card hcard2
      _ ≤ (fs.map (fun f => f.id)).length := (fs.map (fun f => f.id)).toFinset_card_le
      _ = fs.length := List.length_map fs _
  omega

/-- On an acyclic store, a chain at canonical fuel has at most one entry per
record plus one. -/
theorem ancChain_canon_length (fs : List Folder) (hA : Acyclic fs) (x : String) :
    (ancChain fs (fs.length + 2) x).length ≤ fs.length + 1 := by
  have hpref : ancChain fs (fs.length + 2) x <+: ancChain fs (subFuel fs) x :=
    ancChain_prefix_le fs (by unfold subFuel; omega) x
  exact ancChain_length_of_nodup fs _ x (hpref.sublist.nodup (hA x))

/-- On an acyclic store, every chain with at least canonical fuel equals the
canonical chain. -/
theorem ancChain_canon (fs : List Folder) (hA : Acyclic fs) (x : String) :
    ∀ m, fs.length + 2 ≤ m →
      ancChain fs m x = ancChain fs (fs.length + 2) x := by
  intro m hm
  have hlen : (ancChain fs (fs.length + 2) x).length < fs.length + 2 :=
    Nat.lt_of_le_of_lt (ancChain_canon_length fs hA x) (by omega)
  exact ancChain_stable fs hlen m hm

/-- Chain membership at any fuel implies membership in the subFuel chain. -/
theorem mem_ancChain_subFuel (fs : List Folder) (hA : Acyclic fs)
    {n : Nat} {x y : String} (h : y ∈ ancChain fs n x) :
    y ∈ ancChain fs (subFuel fs) x := by
  rcases Nat.le_total n (subFuel fs) with h2 | h2
  · exact mem_ancChain_mono fs h2 h
  · have hcap : fs.length + 2 ≤ n := le_trans (by unfold subFuel; omega) h2
    rw [ancChain_canon fs hA x n hcap] at h
    rw [ancChain_canon fs hA x (subFuel fs) (by unfold subFuel; omega)]
    exact h

/-- A chain member splits the chain: the rest of the chain past it is its
own chain at the leftover fuel. -/
theorem ancChain_decomp (fs : List Folder) :
    ∀ (n : Nat) (x y : String), y ∈ ancChain fs n x →
      ∃ pre f2, ancChain fs n x = pre ++ ancChain fs f2 y ∧
        pre.length + f2 = n := by
  intro n
  induction n with
  | zero => intro x y h; simp [ancChain] at h
  | succ k ih =>
    intro x y h
    rw [ancChain_succ] at h
    cases hp : parentOfF fs x with
    | none =>
      simp only [hp] at h
      have hyx : y = x := by simpa using h
      exact ⟨[], k + 1, by simp [hyx], by simp⟩
    | some p =>
      simp only [hp] at h
      rcases List.mem_cons.mp h with h2 | h2
      · exact ⟨[], k + 1, by simp [h2], by simp⟩
      · rcases ih p y h2 with ⟨pre, f2, heq, hlen⟩
        refine ⟨x :: pre, f2, ?_, by simp; omega⟩
        rw [ancChain_succ]
        simp only [hp, List.cons_append]
        rw [heq]

/-- Unfolding a subFuel chain one step through a known parent pointer. -/
theorem ancChain_subFuel_unfold (fs : List Folder) {x p : String}
    (hp : parentOfF fs x = some p) :
    ancChain fs (subFuel fs) x = x :: ancChain fs (2 * fs.length + 3) p := by
  show ancChain fs (2 * fs.length + 3 + 1) x = _
  rw [ancChain_succ, hp]

/-- Mutual chain membership forces equality on an acyclic store. -/
theorem ancChain_antisym (fs : List Folder) (hA : Acyclic fs) {x y : String}
    (hyx : y ∈ ancChain fs (subFuel fs) x)
    (hxy : x ∈ ancChain fs (subFuel fs) y) : x = y := by
  rcases ancChain_decomp fs (subFuel fs) x y hyx with ⟨pre, f2, heq, hlen⟩
  cases pre with
  | nil =>
    simp only [List.nil_append] at heq
    have hx := ancChain_head fs (n := subFuel fs) (by unfold subFuel; omega) x
    rw [heq] at hx
    cases f2 with
    | zero => simp [ancChain] at hx
    | succ k =>
      rw [ancChain_succ] at hx
      have h4 : y = x := by simpa using hx
      exact h4.symm
  | cons a pre2 =>
    exfalso
    have hx := ancChain_head fs (n := subFuel fs) (by unfold subFuel; omega) x
    rw [heq] at hx
    have hax : a = x := by
      simpa using hx
    have hxpre : x ∈ a :: pre2 := by rw [hax]; simp
    have hprelen : (a :: pre2).length ≤ fs.length + 1 := by
      have h3 : (ancChain fs (subFuel fs) x).length ≤ fs.length + 1 := by
        rw [ancChain_canon fs hA x (subFuel fs) (by unfold subFuel; omega)]
        exact ancChain_canon_length fs hA x
      rw [heq, List.length_append] at h3
      omega
    have hf2 : fs.length + 2 ≤ f2 := by
      unfold subFuel at hlen
      simp at hprelen hlen
      omega
    have hxf2 : x ∈ ancChain fs f2 y := by
      rw [ancChain_canon fs hA y f2 hf2]
      rw [ancChain_canon fs hA y (subFuel fs) (by unfold subFuel; omega)] at hxy
      exact hxy
    have hnd := hA x
    rw [heq] at hnd
    exact (List.disjoint_of_nodup_append hnd) hxpre hxf2

/-- Two members of one chain are chain-related to each other. -/
theorem ancChain_linear (fs : List Folder) (hA : Acyclic fs) :
    ∀ (n : Nat) (x y z : String), y ∈ ancChain fs n x → z ∈ ancChain fs n x →
      y ∈ ancChain fs (subFuel fs) z ∨ z ∈ ancChain fs (subFuel fs) y := by
  intro n
  induction n with
  | zero => intro x y z hy hz; simp [ancChain] at hy
  | succ k ih =>
    intro x y z hy hz
    rw [ancChain_succ] at hy hz
    cases hp : parentOfF fs x with
    | none =>
      simp only [hp] at hy hz
      have hyx : y = x := by simpa using hy
      have hzx : z = x := by simpa using hz
      left
      rw [hyx, hzx]
      exact self_mem_ancChain fs (n := subFuel fs) (by unfold subFuel; omega) x
    | some p =>
      simp only [hp] at hy hz
      rcases List.mem_cons.mp hy with h2 | h2
      · right
        rw [h2]
        exact mem_ancChain_subFuel fs hA (n := k + 1)
          (by rw [ancChain_succ, hp]; exact hz)
      · rcases List.mem_cons.mp hz with h3 | h3
        · left
          rw [h3]
          exact mem_ancChain_subFuel fs hA (n := k + 1)
            (by rw [ancChain_succ, hp]; exact hy)
        · exact ih p y z h2 h3

/-- Chain membership is transitive through the subFuel chains. -/
theorem ancChain_trans (fs : List Folder) (hA : Acyclic fs) :
    ∀ (n : Nat) (x y z : String), y ∈ ancChain fs n x →
      z ∈ ancChain fs (subFuel fs) y → z ∈ ancChain fs (subFuel fs) x := by
  intro n
  induction n with
  | zero => intro x y z hy hz; simp [ancChain] at hy
  | succ k ih =>
    intro x y z hy hz
    rw [ancChain_succ] at hy
    cases hp : parentOfF fs x with
    | none =>
      simp only [hp] at hy
      have hyx : y = x := by simpa using hy
      rw [← hyx]
      exact hz
    | some p =>
      simp only [hp] at hy
      rcases List.mem_cons.mp hy with h2 | h2
      · rw [← h2]; exact hz
      · have hzp : z ∈ ancChain fs (subFuel fs) p := ih p y z h2 hz
        rw [ancChain_subFuel_unfold fs hp]
        right
        rw [ancChain_canon fs hA p (2 * fs.length + 3) (by omega)]
        rw [ancChain_canon fs hA p (subFuel fs) (by unfold subFuel; omega)] at hzp
        exact hzp

/-- Subtree membership unfolded to chain membership. -/
theorem inSubtree_iff (fs : List Folder) (root x : String) :
    inSubtree fs root x = true ↔ root ∈ ancChain fs (subFuel fs) x := by
  simp [inSubtree]

/-- Every folder lies in its own subtree. -/
theorem sub_refl (fs : List Folder) (x : String) : inSubtree fs x x = true :=
  (inSubtree_iff fs x x).mpr
    (self_mem_ancChain fs (n := subFuel fs) (by unfold subFuel; omega) x)

/-- With duplicate-free ids, looking up a stored record by its id finds it. -/
theorem findF_self_of_nodup {fs : List Folder}
    (hN : (fs.map (fun f => f.id)).Nodup) {f : Folder} (hf : f ∈ fs) :
    findF fs f.id = some f := by
  induction fs with
  | nil => simp at hf
  | cons g t ih =>
    rw [List.map_cons, List.nodup_cons] at hN
    rcases List.mem_cons.mp hf with h2 | h2
    · subst h2
      unfold findF
      rw [List.find?_cons_of_pos _ (by simp)]
    · by_cases hgx : g.id = f.id
      · exfalso
        exact hN.1 (hgx ▸ List.mem_map.mpr ⟨f, h2, rfl⟩)
      · unfold findF
        rw [List.find?_cons_of_neg _ (by simpa using hgx)]
        exact ih hN.2 h2

/-- An id absent from the store has no record. -/
theorem findF_eq_none_of_not_mem {fs : List Folder} {x : String}
    (h : x ∉ fs.map (fun f => f.id)) : findF fs x = none := by
  unfold findF
  rw [List.find?_eq_none]
  intro f hf
  simp only [beq_iff_eq]
  intro hfx
  exact h (List.mem_map.mpr ⟨f, hf, hfx⟩)

/-- A successful record lookup returns a stored record with that id. -/
theorem findF_mem_id {fs : List Folder} {x : String} {f : Folder}
    (h : findF fs x = some f) : f ∈ fs ∧ f.id = x := by
  refine ⟨List.mem_of_find?_eq_some h, ?_⟩
  have := List.find?_some h
  simpa [beq_iff_eq] using this

/-- The parent of a folder lies in every subtree chain of the folder. -/
theorem parent_in_sub (fs : List Folder) {x p : String}
    (hp : parentOfF fs x = some p) : inSubtree fs p x = true := by
  rw [inSubtree_iff, ancChain_subFuel_unfold fs hp]
  exact List.mem_cons_of_mem x (self_mem_ancChain fs (by omega) p)

/-- Following a parent pointer shortens the canonical chain by one. -/
theorem chain_parent_length (fs : List Folder) (hA : Acyclic fs) {x p : String}
    (hp : parentOfF fs x = some p) :
    (ancChain fs (subFuel fs) x).length = (ancChain fs (subFuel fs) p).length + 1 := by
  rw [ancChain_subFuel_unfold fs hp]
  rw [List.length_cons]
  congr 1
  rw [ancChain_canon fs hA p (2 * fs.length + 3) (by omega),
    ancChain_canon fs hA p (subFuel fs) (by unfold subFuel; omega)]

/-- Stepping into a stored child keeps it inside the subtree. -/
theorem sub_step_down (fs : List Folder) (hA : Acyclic fs)
    (hN : (fs.map (fun f => f.id)).Nodup) {f : Folder} {p root : String}
    (hf : f ∈ fs) (hfp : f.parentFolderId = some p)
    (hroot : inSubtree fs root p = true) : inSubtree fs root f.id = true := by
  have hpp : parentOfF fs f.id = some p := by
    unfold parentOfF
    rw [findF_self_of_nodup hN hf]
    exact hfp
  rw [inSubtree_iff, ancChain_subFuel_unfold fs hpp]
  right
  rw [ancChain_canon fs hA p (2 * fs.length + 3) (by omega)]
  rw [inSubtree_iff, ancChain_canon fs hA p (subFuel fs) (by unfold subFuel; omega)]
    at hroot
  exact hroot

/-- A strict subtree member has a parent that is still inside the subtree. -/
theorem sub_step_up (fs : List Folder) {root x : String}
    (hx : inSubtree fs root x = true) (hne : x ≠ root) :
    ∃ p, parentOfF fs x = some p ∧ inSubtree fs root p = true := by
  rw [inSubtree_iff] at hx
  have hx2 : root ∈ ancChain fs (2 * fs.length + 3 + 1) x := hx
  rw [ancChain_succ] at hx2
  rcases List.mem_cons.mp hx2 with h2 | h2
  · exact absurd h2.symm hne
  · cases hp : parentOfF fs x with
    | none => rw [hp] at h2; simp at h2
    | some p =>
      rw [hp] at h2
      refine ⟨p, rfl, ?_⟩
      rw [inSubtree_iff]
      exact mem_ancChain_mono fs (by unfold subFuel; omega) h2

/-- A strict subtree member names an existing record. -/
theorem sub_has_record (fs : List Folder) {root x : String}
    (hx : inSubtree fs root x = true) (hne : x ≠ root) :
    (findF fs x).isSome = true := by
  rcases sub_step_up fs hx hne with ⟨p, hp, _⟩
  unfold parentOfF at hp
  cases hf : findF fs x with
  | none => rw [hf] at hp; simp at hp
  | some f => rfl

/-- An id with no record only heads its own singleton subtree. -/
theorem sub_no_record (fs : List Folder) {root x : String}
    (hf : findF fs x = none) (hx : inSubtree fs root x = true) : root = x := by
  rw [inSubtree_iff] at hx
  have hx2 : root ∈ ancChain fs (2 * fs.length + 3 + 1) x := hx
  rw [ancChain_succ] at hx2
  have hp : parentOfF fs x = none := by
    unfold parentOfF
    rw [hf]
    rfl
  rw [hp] at hx2
  simpa using hx2

/-- Subtree membership is transitive. -/
theorem sub_trans (fs : List Folder) (hA : Acyclic fs) {a b x : String}
    (hbx : inSubtree fs b x = true) (hab : inSubtree fs a b = true) :
    inSubtree fs a x = true := by
  rw [inSubtree_iff] at hbx hab ⊢
  exact ancChain_trans fs hA (subFuel fs) x b a hbx hab

/-- Subtree membership is antisymmetric on an acyclic store. -/
theorem sub_antisym (fs : List Folder) (hA : Acyclic fs) {a b : String}
    (hab : inSubtree fs a b = true) (hba : inSubtree fs b a = true) : a = b := by
  rw [inSubtree_iff] at hab hba
  exact ancChain_antisym fs hA hba hab

/-- Two subtrees both containing a node are nested one way or the other. -/
theorem sub_linear (fs : List Folder) (hA : Acyclic fs) {a b x : String}
    (hax : inSubtree fs a x = true) (hbx : inSubtree fs b x = true) :
    inSubtree fs a b = true ∨ inSubtree fs b a = true := by
  rw [inSubtree_iff] at hax hbx
  rcases ancChain_linear fs hA (subFuel fs) x a b hax hbx with h | h
  · left; rw [inSubtree_iff]; exact h
  · right; rw [inSubtree_iff]; exact h

/-- No stored record is its own parent on an acyclic duplicate-free store. -/
theorem no_self_parent (fs : List Folder) (hA : Acyclic fs)
    (hN : (fs.map (fun f => f.id)).Nodup) {f : Folder} (hf : f ∈ fs) :
    f.parentFolderId ≠ some f.id := by
  intro hself
  have hpp : parentOfF fs f.id = some f.id := by
    unfold parentOfF
    rw [findF_self_of_nodup hN hf]
    exact hself
  have hnd := hA f.id
  rw [ancChain_subFuel_unfold fs hpp, List.nodup_cons] at hnd
  exact hnd.1 (self_mem_ancChain fs (by omega) f.id)

/-- A stored child of fid lies strictly inside the subtree of fid. -/
theorem child_in_proper (fs : List Folder) (hA : Acyclic fs)
    (hN : (fs.map (fun f => f.id)).Nodup) {g : Folder} {fid : String}
    (hg : g ∈ fs) (hp : g.parentFolderId = some fid) :
    inSubtree fs fid g.id = true ∧ g.id ≠ fid := by
  refine ⟨sub_step_down fs hA hN hg hp (sub_refl fs fid), ?_⟩
  intro hid
  exact no_self_parent fs hA hN hg (by rw [hp, hid])

/-- A nonempty strict subtree yields a stored direct child of its root. -/
theorem proper_sub_child (fs : List Folder) (hA : Acyclic fs) {fid x : String}
    (hx : inSubtree fs fid x = true) (hne : x ≠ fid) :
    ∃ c ∈ fs, c.parentFolderId = some fid := by
  have haux : ∀ (L : Nat) (y : String), (ancChain fs (subFuel fs) y).length ≤ L →
      inSubtree fs fid y = true → y ≠ fid →
      ∃ c ∈ fs, c.parentFolderId = some fid := by
    intro L
    induction L with
    | zero =>
      intro y hlen hy hne2
      have h0 : 0 < (ancChain fs (subFuel fs) y).length := by
        have := self_mem_ancChain fs (n := subFuel fs) (by unfold subFuel; omega) y
        exact List.length_pos.mpr (by intro hnil; rw [hnil] at this; simp at this)
      omega
    | succ k ih =>
      intro y hlen hy hne2
      rcases sub_step_up fs hy hne2 with ⟨p, hp, hfp⟩
      have hrec : (findF fs y).isSome = true := by
        unfold parentOfF at hp
        cases hf : findF fs y with
        | none => rw [hf] at hp; simp at hp
        | some f => rfl
      rcases Option.isSome_iff_exists.mp hrec with ⟨f, hf⟩
      rcases findF_mem_id hf with ⟨hfmem, hfid⟩
      have hfpar : f.parentFolderId = some p := by
        unfold parentOfF at hp
        rw [hf] at hp
        exact hp
      by_cases hpfid : p = fid
      · exact ⟨f, hfmem, by rw [hfpar, hpfid]⟩
      · have hlen2 : (ancChain fs (subFuel fs) p).length ≤ k := by
          have := chain_parent_length fs hA hp
          omega
        exact ih p hlen2 hfp hpfid
  exact haux (ancChain fs (subFuel fs) x).length x le_rfl hx hne

/-- Strict subtree members of a strict subtree root are strict members of
the outer subtree. -/
theorem proper_sub_trans (fs : List Folder) (hA : Acyclic fs)
    {fid gid h : String} (hg : inSubtree fs fid gid = true) (hgne : gid ≠ fid)
    (hh : inSubtree fs gid h = true) :
    inSubtree fs fid h = true ∧ h ≠ fid := by
  refine ⟨sub_trans fs hA hh hg, ?_⟩
  intro hfid
  rw [hfid] at hh
  exact hgne ((sub_antisym fs hA hg hh).symm)

/-- Filtering the store keeps the ids duplicate free. -/
theorem nodup_filter_ids {fs : List Folder}
    (hN : (fs.map (fun f => f.id)).Nodup) (Q : Folder → Bool) :
    ((fs.filter Q).map (fun f => f.id)).Nodup := by
  exact ((List.filter_sublist fs).map (fun f => f.id)).nodup hN

/-- Record lookup in a filtered store: the unique record either survives the
filter or the lookup fails. -/
theorem findF_filter {fs : List Folder}
    (hN : (fs.map (fun f => f.id)).Nodup) (Q : Folder → Bool) (x : String) :
    findF (fs.filter Q) x =
      (match findF fs x with
       | some f => if Q f then some f else none
       | none => none) := by
  induction fs with
  | nil => rfl
  | cons g t ih =>
    rw [List.map_cons, List.nodup_cons] at hN
    by_cases hQ : Q g = true
    · rw [List.filter_cons, if_pos hQ]
      by_cases hgx : g.id = x
      · have h1 : findF (g :: t.filter Q) x = some g := by
          unfold findF
          rw [List.find?_cons_of_pos _ (by simpa using hgx)]
        have h2 : findF (g :: t) x = some g := by
          unfold findF
          rw [List.find?_cons_of_pos _ (by simpa using hgx)]
        rw [h1, h2]
        simp [hQ]
      · have h1 : findF (g :: t.filter Q) x = findF (t.filter Q) x := by
          unfold findF
          rw [List.find?_cons_of_neg _ (by simpa using hgx)]
        have h2 : findF (g :: t) x = findF t x := by
          unfold findF
          rw [List.find?_cons_of_neg _ (by simpa using hgx)]
        rw [h1, h2]
        exact ih hN.2
    · rw [List.filter_cons, if_neg hQ]
      by_cases hgx : g.id = x
      · have h2 : findF (g :: t) x = some g := by
          unfold findF
          rw [List.find?_cons_of_pos _ (by simpa using hgx)]
        rw [h2]
        have h3 : findF (t.filter Q) x = none := by
          apply findF_eq_none_of_not_mem
          intro hmem
          rcases List.mem_map.mp hmem with ⟨f, hf, hfx⟩
          have hft : f ∈ t := List.mem_of_mem_filter hf
          exact hN.1 (by rw [hgx]; exact List.mem_map.mpr ⟨f, hft, hfx⟩)
        rw [h3]
        simp [hQ]
      · have h2 : findF (g :: t) x = findF t x := by
          unfold findF
          rw [List.find?_cons_of_neg _ (by simpa using hgx)]
        rw [h2]
        exact ih hN.2

/-- A chain over the filtered store is a prefix of the chain over the full
store. -/
theorem chain_filter_prefix_all {fs : List Folder}
    (hN : (fs.map (fun f => f.id)).Nodup) (Q : Folder → Bool) :
    ∀ (n : Nat) (x : String), ancChain (fs.filter Q) n x <+: ancChain fs n x := by
  intro n
  induction n with
  | zero => intro x; simp [ancChain]
  | succ k ih =>
    intro x
    rw [ancChain_succ, ancChain_succ]
    cases hffs : findF fs x with
    | none =>
      have hp1 : parentOfF (fs.filter Q) x = none := by
        unfold parentOfF
        rw [findF_filter hN Q x, hffs]
        rfl
      have hp2 : parentOfF fs x = none := by
        unfold parentOfF
        rw [hffs]
        rfl
      rw [hp1, hp2]
    | some f =>
      have hp2 : parentOfF fs x = f.parentFolderId := by
        unfold parentOfF
        rw [hffs]
        rfl
      by_cases hQ : Q f = true
      · have hp1 : parentOfF (fs.filter Q) x = f.parentFolderId := by
          unfold parentOfF
          rw [findF_filter hN Q x, hffs]
          simp [hQ]
        rw [hp1, hp2]
        cases f.parentFolderId with
        | none => simp
        | some p => exact (List.prefix_cons_inj x).mpr (ih p)
      · have hp1 : parentOfF (fs.filter Q) x = none := by
          unfold parentOfF
          rw [findF_filter hN Q x, hffs]
          simp [hQ]
        rw [hp1, hp2]
        cases f.parentFolderId with
        | none => simp
        | some p => simp

/-- Filtering an acyclic store keeps it acyclic. -/
theorem acyclic_filter {fs : List Folder}
    (hN : (fs.map (fun f => f.id)).Nodup) (hA : Acyclic fs) (Q : Folder → Bool) :
    Acyclic (fs.filter Q) := by
  intro x
  have hle : subFuel (fs.filter Q) ≤ subFuel fs := by
    unfold subFuel
    have := List.length_filter_le Q fs
    omega
  have h1 : ancChain (fs.filter Q) (subFuel (fs.filter Q)) x <+:
      ancChain (fs.filter Q) (subFuel fs) x :=
    ancChain_prefix_le _ hle x
  have h2 := chain_filter_prefix_all hN Q (subFuel fs) x
  exact ((h1.trans h2).sublist).nodup (hA x)

/-- Subtree membership in a filtered store implies it in the full store. -/
theorem sub_filter_imp {fs : List Folder}
    (hN : (fs.map (fun f => f.id)).Nodup) (Q : Folder → Bool) {root x : String}
    (h : inSubtree (fs.filter Q) root x = true) : inSubtree fs root x = true := by
  rw [inSubtree_iff] at h ⊢
  have hle : subFuel (fs.filter Q) ≤ subFuel fs := by
    unfold subFuel
    have := List.length_filter_le Q fs
    omega
  have h1 : root ∈ ancChain (fs.filter Q) (subFuel fs) x :=
    mem_ancChain_mono _ hle h
  exact (chain_filter_prefix_all hN Q (subFuel fs) x).sublist.mem h1

/-- Subtree membership survives a filter that keeps every record on the
path between the member and the subtree root. -/
theorem sub_imp_filter {fs : List Folder}
    (hN : (fs.map (fun f => f.id)).Nodup) (hA : Acyclic fs) (Q : Folder → Bool)
    {root x : String}
    (hQ : ∀ z ∈ fs, inSubtree fs root z.id = true → inSubtree fs z.id x = true →
      z.id ≠ root → Q z = true)
    (hx : inSubtree fs root x = true) :
    inSubtree (fs.filter Q) root x = true := by
  have haux : ∀ (L : Nat) (y : String), (ancChain fs (subFuel fs) y).length ≤ L →
      inSubtree fs root y = true →
      (∀ z ∈ fs, inSubtree fs root z.id = true → inSubtree fs z.id y = true →
        z.id ≠ root → Q z = true) →
      inSubtree (fs.filter Q) root y = true := by
    intro L
    induction L with
    | zero =>
      intro y hlen _ _
      have h0 : 0 < (ancChain fs (subFuel fs) y).length := by
        have := self_mem_ancChain fs (n := subFuel fs) (by unfold subFuel; omega) y
        exact List.length_pos.mpr (by intro hnil; rw [hnil] at this; simp at this)
      omega
    | succ k ih =>
      intro y hlen hy hQy
      by_cases hyr : y = root
      · rw [hyr]
        exact sub_refl _ root
      · rcases sub_step_up fs hy hyr with ⟨p, hp, hrp⟩
        have hrec : ∃ f, findF fs y = some f := by
          unfold parentOfF at hp
          cases hf : findF fs y with
          | none => rw [hf] at hp; simp at hp
          | some f => exact ⟨f, rfl⟩
        rcases hrec with ⟨f, hf⟩
        rcases findF_mem_id hf with ⟨hfmem, hfid⟩
        have hfQ : Q f = true :=
          hQy f hfmem (by rw [hfid]; exact hy) (by rw [hfid]; exact sub_refl fs y)
            (by rw [hfid]; exact hyr)
        have hfpar : f.parentFolderId = some p := by
          unfold parentOfF at hp
          rw [hf] at hp
          exact hp
        have hlenp : (ancChain fs (subFuel fs) p).length ≤ k := by
          have := chain_parent_length fs hA hp
          omega
        have hQp : ∀ z ∈ fs, inSubtree fs root z.id = true →
            inSubtree fs z.id p = true → z.id ≠ root → Q z = true := by
          intro z hz h1 h2 h3
          exact hQy z hz h1 (sub_trans fs hA (parent_in_sub fs hp) h2) h3
        have hpfilt := ih p hlenp hrp hQp
        have hffilt : f ∈ fs.filter Q := List.mem_filter.mpr ⟨hfmem, hfQ⟩
        have hstep := sub_step_down (fs.filter Q) (acyclic_filter hN hA Q)
          (nodup_filter_ids hN Q) hffilt hfpar hpfilt
        rw [hfid] at hstep
        exact hstep
  exact haux (ancChain fs (subFuel fs) x).length x le_rfl hx hQ

/-- Members of a list with duplicate-free keys are determined by their key. -/
theorem nodup_key_inj {α : Type} (key : α → String) {l : List α}
    (h : (l.map key).Nodup) {a b : α} (ha : a ∈ l) (hb : b ∈ l)
    (hk : key a = key b) : a = b := by
  induction l with
  | nil => simp at ha
  | cons c t ih =>
    rw [List.map_cons, List.nodup_cons] at h
    rcases List.mem_cons.mp ha with h1 | h1
    · rcases List.mem_cons.mp hb with h2 | h2
      · rw [h1, h2]
      · exfalso
        apply h.1
        rw [h1] at hk
        rw [hk]
        exact List.mem_map.mpr ⟨b, h2, rfl⟩
    · rcases List.mem_cons.mp hb with h2 | h2
      · exfalso
        apply h.1
        rw [h2] at hk
        rw [← hk]
        exact List.mem_map.mpr ⟨a, h1, rfl⟩
      · exact ih h.2 h1 h2

/-- A key absent from the key list defeats the lookup. -/
theorem find?_key_none {α : Type} (key : α → String) {l : List α} {x : String}
    (h : x ∉ l.map key) : l.find? (fun a => key a == x) = none := by
  rw [List.find?_eq_none]
  intro a ha
  simp only [beq_iff_eq]
  intro hax
  exact h (List.mem_map.mpr ⟨a, ha, hax⟩)

/-- Keyed lookup in a filtered list: the unique record either survives the
filter or the lookup fails. -/
theorem find?_key_filter {α : Type} (key : α → String) {l : List α}
    (hN : (l.map key).Nodup) (Q : α → Bool) (x : String) :
    (l.filter Q).find? (fun a => key a == x) =
      (match l.find? (fun a => key a == x) with
       | some a => if Q a then some a else none
       | none => none) := by
  induction l with
  | nil => rfl
  | cons g t ih =>
    rw [List.map_cons, List.nodup_cons] at hN
    by_cases hQ : Q g = true
    · rw [List.filter_cons, if_pos hQ]
      by_cases hgx : key g = x
      · rw [List.find?_cons_of_pos _ (by simpa using hgx),
          List.find?_cons_of_pos _ (by simpa using hgx)]
        simp [hQ]
      · rw [List.find?_cons_of_neg _ (by simpa using hgx),
          List.find?_cons_of_neg _ (by simpa using hgx)]
        exact ih hN.2
    · rw [List.filter_cons, if_neg hQ]
      by_cases hgx : key g = x
      · rw [List.find?_cons_of_pos _ (by simpa using hgx)]
        have h3 : (t.filter Q).find? (fun a => key a == x) = none := by
          apply find?_key_none key
          intro hmem
          rcases List.mem_map.mp hmem with ⟨f, hf, hfx⟩
          have hft : f ∈ t := List.mem_of_mem_filter hf
          exact hN.1 (by rw [← hgx] at hfx; rw [← hfx]; exact List.mem_map.mpr ⟨f, hft, rfl⟩)
        rw [h3]
        simp [hQ]
      · rw [List.find?_cons_of_neg _ (by simpa using hgx)]
        exact ih hN.2

/-- Does the metadata record of the named document place it in folder fid? -/
def metaInFolder (st : St) (fid did : String) : Bool :=
  match findMeta st did with
  | some m => m.folderId == some fid
  | none => false

/-- One-step unfolding of delDocsLoop on a nonempty snapshot. -/
theorem delDocsLoop_cons (fid mid : String) (rest : List String) (st : St) :
    delDocsLoop fid (mid :: rest) st =
      (match findMeta st mid with
       | none => delDocsLoop fid rest st
       | some metadata =>
         if metadata.folderId == some fid then
           let documentId := metadata.id
           let p :=
             if (findDoc st documentId).isSome then
               (eraseDoc st documentId, [FsEv.delDoc documentId])
             else (st, ([] : List FsEv))
           let st2 := eraseMeta p.1 mid
           let q := delDocsLoop fid rest st2
           (q.1, p.2 ++ [FsEv.delMeta mid] ++ q.2)
         else delDocsLoop fid rest st) := rfl

/-- Snapshot entry with no record: the loop skips it. -/
theorem delDocsLoop_cons_none {fid mid : String} {rest : List String} {st : St}
    (h : findMeta st mid = none) :
    delDocsLoop fid (mid :: rest) st = delDocsLoop fid rest st := by
  rw [delDocsLoop_cons, h]

/-- Snapshot entry in another folder: the loop skips it. -/
theorem delDocsLoop_cons_skip {fid mid : String} {rest : List String} {st : St}
    {metadata : DocMeta} (h : findMeta st mid = some metadata)
    (hm : (metadata.folderId == some fid) = false) :
    delDocsLoop fid (mid :: rest) st = delDocsLoop fid rest st := by
  rw [delDocsLoop_cons, h]
  simp [hm]

/-- Matching snapshot entry whose content file exists: delete the content
file and the metadata file, then continue. -/
theorem delDocsLoop_cons_hit_doc {fid mid : String} {rest : List String} {st : St}
    {metadata : DocMeta} (h : findMeta st mid = some metadata)
    (hm : (metadata.folderId == some fid) = true)
    (hd : (findDoc st metadata.id).isSome = true) :
    delDocsLoop fid (mid :: rest) st =
      ((delDocsLoop fid rest (eraseMeta (eraseDoc st metadata.id) mid)).1,
       [FsEv.delDoc metadata.id] ++ [FsEv.delMeta mid] ++
         (delDocsLoop fid rest (eraseMeta (eraseDoc st metadata.id) mid)).2) := by
  rw [delDocsLoop_cons, h]
  simp [hm, hd]

/-- Matching snapshot entry with no content file: delete only the metadata
file, then continue. -/
theorem delDocsLoop_cons_hit_nodoc {fid mid : String} {rest : List String} {st : St}
    {metadata : DocMeta} (h : findMeta st mid = some metadata)
    (hm : (metadata.folderId == some fid) = true)
    (hd : (findDoc st metadata.id).isSome = false) :
    delDocsLoop fid (mid :: rest) st =
      ((delDocsLoop fid rest (eraseMeta st mid)).1,
       [FsEv.delMeta mid] ++ (delDocsLoop fid rest (eraseMeta st mid)).2) := by
  rw [delDocsLoop_cons, h]
  simp [hm, hd]

/-- Full characterization of the document-deletion loop: provided the
snapshot lists every member document and metadata ids are duplicate free, it
removes exactly the metadata records of folder fid together with their
content files, touches nothing else, and every emitted event belongs to a
member document of fid. -/
theorem delDocsLoop_spec (fid : String) :
    ∀ (ids : List String) (st : St),
      (st.metas.map (fun m => m.id)).Nodup →
      (∀ m ∈ st.metas, m.folderId = some fid → m.id ∈ ids) →
      (delDocsLoop fid ids st).1.metas
          = st.metas.filter (fun m => !(m.folderId == some fid)) ∧
      (delDocsLoop fid ids st).1.docs
          = st.docs.filter (fun d => !(metaInFolder st fid d.id)) ∧
      (delDocsLoop fid ids st).1.folders = st.folders ∧
      (delDocsLoop fid ids st).1.previews = st.previews ∧
      (∀ e ∈ (delDocsLoop fid ids st).2, ∃ m, m ∈ st.metas ∧
        m.folderId = some fid ∧ (e = FsEv.delDoc m.id ∨ e = FsEv.delMeta m.id)) := by
  intro ids
  induction ids with
  | nil =>
    intro st hN hsnap
    refine ⟨?_, ?_, rfl, rfl, ?_⟩
    · show st.metas = _
      symm
      apply List.filter_eq_self.mpr
      intro m hm
      have hne : m.folderId ≠ some fid := by
        intro heq
        have := hsnap m hm heq
        simp at this
      simp [hne]
    · show st.docs = _
      symm
      apply List.filter_eq_self.mpr
      intro d hd
      unfold metaInFolder
      cases hm : findMeta st d.id with
      | none => simp
      | some m =>
        have hmm : m ∈ st.metas := List.mem_of_find?_eq_some hm
        have hne : m.folderId ≠ some fid := by
          intro heq
          have := hsnap m hmm heq
          simp at this
        simp [hne]
    · intro e he
      have h0 : (delDocsLoop fid [] st).2 = [] := rfl
      rw [h0] at he
      simp at he
  | cons mid rest ih =>
    intro st hN hsnap
    cases hm : findMeta st mid with
    | none =>
      rw [delDocsLoop_cons_none hm]
      apply ih st hN
      intro m hmem hfid
      rcases List.mem_cons.mp (hsnap m hmem hfid) with h1 | h1
      · exfalso
        have hsome : (findMeta st mid).isSome = true := by
          unfold findMeta
          exact List.find?_isSome.mpr ⟨m, hmem, by simp [h1]⟩
        rw [hm] at hsome
        simp at hsome
      · exact h1
    | some metadata =>
      have hmdid : metadata.id = mid := by
        have := List.find?_some hm
        simpa [beq_iff_eq] using this
      have hmdmem : metadata ∈ st.metas := List.mem_of_find?_eq_some hm
      by_cases hmatch : (metadata.folderId == some fid) = true
      · have hfidEq : metadata.folderId = some fid := by simpa using hmatch
        -- facts shared by both content-file cases, stated on the meta list
        have hN2 : ((st.metas.filter (fun m => m.id != mid)).map
            (fun m => m.id)).Nodup :=
          ((List.filter_sublist st.metas).map (fun m => m.id)).nodup hN
        have hsnap2 : ∀ m ∈ st.metas.filter (fun m => m.id != mid),
            m.folderId = some fid → m.id ∈ rest := by
          intro m hmem hfid
          have hmem0 : m ∈ st.metas := List.mem_of_mem_filter hmem
          have hbne : (m.id != mid) = true := (List.mem_filter.mp hmem).2
          have hne : m.id ≠ mid := by simpa using hbne
          rcases List.mem_cons.mp (hsnap m hmem0 hfid) with h1 | h1
          · exact absurd h1 hne
          · exact h1
        have hcompA : (st.metas.filter (fun m => m.id != mid)).filter
            (fun m => !(m.folderId == some fid))
              = st.metas.filter (fun m => !(m.folderId == some fid)) := by
          rw [List.filter_filter]
          apply List.filter_congr
          intro m hmem
          by_cases hf2 : (m.folderId == some fid) = true
          · simp [hf2]
          · have hne : m.id ≠ mid := by
              intro hid
              have hm2 : m = metadata :=
                nodup_key_inj (fun m : DocMeta => m.id) hN hmem hmdmem
                  (by show m.id = metadata.id; rw [hid, hmdid])
              rw [hm2] at hf2
              exact hf2 hmatch
            simp [hf2, hne]
        have hfm : ∀ did, did ≠ mid →
            (st.metas.filter (fun m => m.id != mid)).find? (fun m => m.id == did)
              = st.metas.find? (fun m => m.id == did) := by
          intro did hne
          rw [find?_key_filter (fun m : DocMeta => m.id) hN
            (fun m : DocMeta => m.id != mid) did]
          cases hfd : st.metas.find? (fun m => m.id == did) with
          | none => rfl
          | some a =>
            have haid : a.id = did := by
              have := List.find?_some hfd
              simpa [beq_iff_eq] using this
            simp [haid, hne]
        by_cases hdoc : (findDoc st metadata.id).isSome = true
        · rw [delDocsLoop_cons_hit_doc hm hmatch hdoc]
          have hmetas2 : (eraseMeta (eraseDoc st metadata.id) mid).metas
              = st.metas.filter (fun m => m.id != mid) := rfl
          obtain ⟨ihm, ihd, ihf, ihp, ihe⟩ :=
            ih (eraseMeta (eraseDoc st metadata.id) mid)
              (by rw [hmetas2]; exact hN2) (by rw [hmetas2]; exact hsnap2)
          have hfm2 : ∀ did, did ≠ mid →
              findMeta (eraseMeta (eraseDoc st metadata.id) mid) did
                = findMeta st did := by
            intro did hne
            unfold findMeta
            rw [hmetas2]
            exact hfm did hne
          refine ⟨?_, ?_, ?_, ?_, ?_⟩
          · show (delDocsLoop fid rest (eraseMeta (eraseDoc st metadata.id) mid)).1.metas = _
            rw [ihm, hmetas2, hcompA]
          · show (delDocsLoop fid rest (eraseMeta (eraseDoc st metadata.id) mid)).1.docs = _
            rw [ihd]
            have hdocs2 : (eraseMeta (eraseDoc st metadata.id) mid).docs
                = st.docs.filter (fun d => d.id != metadata.id) := rfl
            rw [hdocs2, List.filter_filter]
            apply List.filter_congr
            intro d hd
            by_cases hd2 : d.id = metadata.id
            · have ht : metaInFolder st fid metadata.id = true := by
                unfold metaInFolder
                rw [hmdid, hm]
                exact hmatch
              simp [hd2, ht]
            · have hne : d.id ≠ mid := by rw [← hmdid]; exact hd2
              have heqm : metaInFolder (eraseMeta (eraseDoc st metadata.id) mid) fid d.id
                  = metaInFolder st fid d.id := by
                unfold metaInFolder
                rw [hfm2 d.id hne]
              simp [heqm, hd2]
          · show (delDocsLoop fid rest (eraseMeta (eraseDoc st metadata.id) mid)).1.folders = _
            rw [ihf]
            rfl
          · show (delDocsLoop fid rest (eraseMeta (eraseDoc st metadata.id) mid)).1.previews = _
            rw [ihp]
            rfl
          · intro e he
            rcases List.mem_append.mp he with h1 | h1
            · rcases List.mem_append.mp h1 with h2 | h2
              · exact ⟨metadata, hmdmem, hfidEq, Or.inl (by simpa using h2)⟩
              · refine ⟨metadata, hmdmem, hfidEq, Or.inr ?_⟩
                have : e = FsEv.delMeta mid := by simpa using h2
                rw [this, hmdid]
            · rcases ihe e h1 with ⟨m, hmem, hfid, hev⟩
              rw [hmetas2] at hmem
              exact ⟨m, List.mem_of_mem_filter hmem, hfid, hev⟩
        · have hdoc2 : (findDoc st metadata.id).isSome = false := by simpa using hdoc
          rw [delDocsLoop_cons_hit_nodoc hm hmatch hdoc2]
          have hmetas2 : (eraseMeta st mid).metas
              = st.metas.filter (fun m => m.id != mid) := rfl
          obtain ⟨ihm, ihd, ihf, ihp, ihe⟩ :=
            ih (eraseMeta st mid)
              (by rw [hmetas2]; exact hN2) (by rw [hmetas2]; exact hsnap2)
          have hfm2 : ∀ did, did ≠ mid →
              findMeta (eraseMeta st mid) did = findMeta st did := by
            intro did hne
            unfold findMeta
            rw [hmetas2]
            exact hfm did hne
          refine ⟨?_, ?_, ?_, ?_, ?_⟩
          · show (delDocsLoop fid rest (eraseMeta st mid)).1.metas = _
            rw [ihm, hmetas2, hcompA]
          · show (delDocsLoop fid rest (eraseMeta st mid)).1.docs = _
            rw [ihd]
            have hdocs2 : (eraseMeta st mid).docs = st.docs := rfl
            rw [hdocs2]
            apply List.filter_congr
            intro d hd
            have hd2 : d.id ≠ metadata.id := by
              intro heq
              have hsome : (findDoc st metadata.id).isSome = true := by
                unfold findDoc
                exact List.find?_isSome.mpr ⟨d, hd, by simp [heq]⟩
              rw [hsome] at hdoc2
              simp at hdoc2
            have hne : d.id ≠ mid := by rw [← hmdid]; exact hd2
            have heqm : metaInFolder (eraseMeta st mid) fid d.id
                = metaInFolder st fid d.id := by
              unfold metaInFolder
              rw [hfm2 d.id hne]
            rw [heqm]
          · show (delDocsLoop fid rest (eraseMeta st mid)).1.folders = _
            rw [ihf]
            rfl
          · show (delDocsLoop fid rest (eraseMeta st mid)).1.previews = _
            rw [ihp]
            rfl
          · intro e he
            rcases List.mem_append.mp he with h1 | h1
            · refine ⟨metadata, hmdmem, hfidEq, Or.inr ?_⟩
              have : e = FsEv.delMeta mid := by simpa using h1
              rw [this, hmdid]
            · rcases ihe e h1 with ⟨m, hmem, hfid, hev⟩
              rw [hmetas2] at hmem
              exact ⟨m, List.mem_of_mem_filter hmem, hfid, hev⟩
      · have hmatch2 : (metadata.folderId == some fid) = false := by simpa using hmatch
        rw [delDocsLoop_cons_skip hm hmatch2]
        apply ih st hN
        intro m hmem hfid
        rcases List.mem_cons.mp (hsnap m hmem hfid) with h1 | h1
        · exfalso
          have heqm : m = metadata :=
            nodup_key_inj (fun m : DocMeta => m.id) hN hmem hmdmem
              (by show m.id = metadata.id; rw [h1, hmdid])
          rw [heqm] at hfid
          rw [hfid] at hmatch2
          simp at hmatch2
        · exact h1

/-- deleteDocumentsInFolder: the snapshot is the full metadata listing, so
the loop characterization applies unconditionally. -/
theorem deleteDocumentsInFolder_spec (fid : String) (st : St)
    (hN : (st.metas.map (fun m => m.id)).Nodup) :
    (deleteDocumentsInFolder fid st).1.metas
        = st.metas.filter (fun m => !(m.folderId == some fid)) ∧
    (deleteDocumentsInFolder fid st).1.docs
        = st.docs.filter (fun d => !(metaInFolder st fid d.id)) ∧
    (deleteDocumentsInFolder fid st).1.folders = st.folders ∧
    (deleteDocumentsInFolder fid st).1.previews = st.previews ∧
    (∀ e ∈ (deleteDocumentsInFolder fid st).2, ∃ m, m ∈ st.metas ∧
      m.folderId = some fid ∧ (e = FsEv.delDoc m.id ∨ e = FsEv.delMeta m.id)) := by
  unfold deleteDocumentsInFolder
  exact delDocsLoop_spec fid _ st hN (fun m hm _ => List.mem_map.mpr ⟨m, hm, rfl⟩)

/-- x lies strictly inside the subtree of fid. -/
def inProper (fs : List Folder) (fid x : String) : Bool :=
  inSubtree fs fid x && !(x == fid)

/-- A metadata folderId pointing strictly inside the subtree of fid. -/
def optInProper (fs : List Folder) (fid : String) : Option String → Bool
  | some g => inProper fs fid g
  | none => false

/-- A metadata folderId pointing anywhere inside the subtree of root. -/
def optInSub (fs : List Folder) (root : String) : Option String → Bool
  | some g => inSubtree fs root g
  | none => false

/-- The named document's metadata places it strictly inside the subtree. -/
def docInProper (st : St) (fid did : String) : Bool :=
  match findMeta st did with
  | some m => optInProper st.folders fid m.folderId
  | none => false

/-- The event touches the subtree of root, judged against the given folder
store and metadata listing. -/
def TouchesSub (fs : List Folder) (ms : List DocMeta) (root : String) :
    FsEv → Prop
  | .delFolder h => inSubtree fs root h = true
  | .delMeta mid => ∃ m ∈ ms, m.id = mid ∧ optInSub fs root m.folderId = true
  | .delDoc did => ∃ m ∈ ms, m.id = did ∧ optInSub fs root m.folderId = true

/-- The event names a file present in the state and strictly inside the
subtree of fid. -/
def TouchesProperX (st : St) (fid : String) : FsEv → Prop
  | .delFolder h => (∃ f ∈ st.folders, f.id = h) ∧
      inProper st.folders fid h = true
  | .delMeta mid => ∃ m ∈ st.metas, m.id = mid ∧
      optInProper st.folders fid m.folderId = true
  | .delDoc did => ∃ m ∈ st.metas, m.id = did ∧
      optInProper st.folders fid m.folderId = true

theorem inProper_iff (fs : List Folder) (fid x : String) :
    inProper fs fid x = true ↔ inSubtree fs fid x = true ∧ x ≠ fid := by
  unfold inProper
  simp

/-- Strict subtree of a strict subfolder is contained in the outer strict
subtree. -/
theorem inProper_trans (fs : List Folder) (hA : Acyclic fs) {fid gid h : String}
    (hg : inProper fs fid gid = true) (hh : inProper fs gid h = true) :
    inProper fs fid h = true := by
  rw [inProper_iff] at hg hh ⊢
  exact proper_sub_trans fs hA hg.1 hg.2 hh.1

/-- Filter-length comparison with a pointwise implication. -/
theorem length_filter_le_of_imp {α : Type} {l : List α} {Q P : α → Bool}
    (h : ∀ a ∈ l, Q a = true → P a = true) :
    (l.filter Q).length ≤ (l.filter P).length := by
  rw [← List.countP_eq_length_filter, ← List.countP_eq_length_filter]
  exact List.countP_mono_left h

/-- Strict filter-length comparison when a member separates the filters. -/
theorem length_filter_lt_of_imp {α : Type} {l : List α} {Q P : α → Bool}
    (h : ∀ a ∈ l, Q a = true → P a = true) {a0 : α} (ha0 : a0 ∈ l)
    (hP : P a0 = true) (hQ : Q a0 = false) :
    (l.filter Q).length < (l.filter P).length := by
  induction l with
  | nil => simp at ha0
  | cons a t ih =>
    rcases List.mem_cons.mp ha0 with h1 | h1
    · subst h1
      rw [List.filter_cons, List.filter_cons, if_neg (by simp [hQ]), if_pos (by simp [hP])]
      have hle : (t.filter Q).length ≤ (t.filter P).length :=
        length_filter_le_of_imp (fun a ha => h a (List.mem_cons_of_mem _ ha))
      simpa using Nat.lt_succ_of_le hle
    · have hlt : (t.filter Q).length < (t.filter P).length :=
        ih (fun b hb => h b (List.mem_cons_of_mem _ hb)) h1
      rw [List.filter_cons, List.filter_cons]
      by_cases hQa : Q a = true
      · rw [if_pos (by simp [hQa]), if_pos (by simp [h a (List.mem_cons_self a t) hQa])]
        simpa using hlt
      · rw [if_neg (by simpa using hQa)]
        by_cases hPa : P a = true
        · rw [if_pos (by simp [hPa])]
          exact hlt.trans (Nat.lt_succ_self _)
        · rw [if_neg (by simpa using hPa)]
          exact hlt

/-- Where a marked element sits relative to an append: inside the first part
with the remainder overlapping the second, or inside the second part. -/
theorem append_split_cases {α : Type} {L1 L2 T1 T2 : List α} {x : α}
    (h : L1 ++ L2 = T1 ++ x :: T2) :
    (∃ S1 S2, L1 = S1 ++ x :: S2 ∧ T2 = S2 ++ L2) ∨
    (∃ S1 S2, L2 = S1 ++ x :: S2 ∧ T2 = S2) := by
  rcases List.append_eq_append_iff.mp h with ⟨a2, ha1, ha2⟩ | ⟨c2, hc1, hc2⟩
  · right
    exact ⟨a2, T2, ha2, rfl⟩
  · cases c2 with
    | nil =>
      right
      refine ⟨[], T2, ?_, rfl⟩
      simpa using hc2.symm
    | cons y c3 =>
      left
      have hy : y = x ∧ c3 ++ L2 = T2 := by
        have := hc2.symm
        rw [List.cons_append] at this
        exact ⟨(List.cons.injEq _ _ _ _ ▸ this).1, (List.cons.injEq _ _ _ _ ▸ this).2⟩
      refine ⟨T1, c3, ?_, hy.2.symm⟩
      rw [hc1, hy.1]

/-- One-step unfolding of delSubLoop on a nonempty snapshot. -/
theorem delSubLoop_cons (recurse : String → St → St × List FsEv)
    (fid gid : String) (rest : List String) (st : St) :
    delSubLoop recurse fid (gid :: rest) st =
      (match findFolder st gid with
       | none => delSubLoop recurse fid rest st
       | some subfolder =>
         if subfolder.parentFolderId == some fid then
           let p1 := deleteDocumentsInFolder subfolder.id st
           let p2 := recurse subfolder.id p1.1
           let st3 := eraseFolder p2.1 gid
           let p4 := delSubLoop recurse fid rest st3
           (p4.1, p1.2 ++ p2.2 ++ [FsEv.delFolder gid] ++ p4.2)
         else delSubLoop recurse fid rest st) := rfl

/-- Snapshot entry with no record: the loop skips it. -/
theorem delSubLoop_cons_none {recurse : String → St → St × List FsEv}
    {fid gid : String} {rest : List String} {st : St}
    (h : findFolder st gid = none) :
    delSubLoop recurse fid (gid :: rest) st = delSubLoop recurse fid rest st := by
  rw [delSubLoop_cons, h]

/-- Snapshot entry that is not a direct child: the loop skips it. -/
theorem delSubLoop_cons_skip {recurse : String → St → St × List FsEv}
    {fid gid : String} {rest : List String} {st : St} {subfolder : Folder}
    (h : findFolder st gid = some subfolder)
    (hp : (subfolder.parentFolderId == some fid) = false) :
    delSubLoop recurse fid (gid :: rest) st = delSubLoop recurse fid rest st := by
  rw [delSubLoop_cons, h]
  simp [hp]

/-- Direct child entry: delete its documents, recursively destroy its
subfolders, unlink its record, then continue with the rest. -/
theorem delSubLoop_cons_hit {recurse : String → St → St × List FsEv}
    {fid gid : String} {rest : List String} {st : St} {subfolder : Folder}
    (h : findFolder st gid = some subfolder)
    (hp : (subfolder.parentFolderId == some fid) = true) :
    delSubLoop recurse fid (gid :: rest) st =
      ((delSubLoop recurse fid rest
          (eraseFolder (recurse subfolder.id
            (deleteDocumentsInFolder subfolder.id st).1).1 gid)).1,
       (deleteDocumentsInFolder subfolder.id st).2 ++
         (recurse subfolder.id (deleteDocumentsInFolder subfolder.id st).1).2 ++
         [FsEv.delFolder gid] ++
         (delSubLoop recurse fid rest
           (eraseFolder (recurse subfolder.id
             (deleteDocumentsInFolder subfolder.id st).1).1 gid)).2) := by
  rw [delSubLoop_cons, h]
  simp [hp]

/-- Joint specification of one cascading subfolder-destruction call rooted
at fid on state st: the final stores are the strict-subtree filters, the
previews survive, every event names a live file strictly inside the subtree,
and no event after a folder unlink touches that folder's subtree. -/
def SubSpec (fid : String) (st : St) (res : St × List FsEv) : Prop :=
  res.1.folders = st.folders.filter (fun g => !(inProper st.folders fid g.id)) ∧
  res.1.metas = st.metas.filter (fun m => !(optInProper st.folders fid m.folderId)) ∧
  res.1.docs = st.docs.filter (fun d => !(docInProper st fid d.id)) ∧
  res.1.previews = st.previews ∧
  (∀ e ∈ res.2, TouchesProperX st fid e) ∧
  (∀ g T1 T2, res.2 = T1 ++ FsEv.delFolder g :: T2 →
    ∀ e ∈ T2, ¬ TouchesSub st.folders st.metas g e)

/-- The subfolder-destruction loop satisfies the joint specification,
provided the recursion depth budget exceeds the strict-subtree record count
and the snapshot lists every stored direct child. -/
theorem delSubLoop_spec (k : Nat)
    (Hrec : ∀ (c : String) (st : St),
      (st.folders.map (fun f => f.id)).Nodup →
      (st.metas.map (fun m => m.id)).Nodup →
      Acyclic st.folders →
      (st.folders.filter (fun g => inProper st.folders c g.id)).length < k →
      SubSpec c st (deleteSubfoldersInFolder k c st))
    (fid : String) :
    ∀ (ids : List String) (st : St),
      (st.folders.map (fun f => f.id)).Nodup →
      (st.metas.map (fun m => m.id)).Nodup →
      Acyclic st.folders →
      (st.folders.filter (fun g => inProper st.folders fid g.id)).length < k + 1 →
      (∀ g ∈ st.folders, g.parentFolderId = some fid → g.id ∈ ids) →
      SubSpec fid st (delSubLoop (deleteSubfoldersInFolder k) fid ids st) := by
  intro ids
  induction ids with
  | nil =>
    intro st hNF hNM hA hcnt hsnap
    have hnoproper : ∀ g ∈ st.folders, inProper st.folders fid g.id = false := by
      intro g hgmem
      cases h2 : inProper st.folders fid g.id with
      | false => rfl
      | true =>
        exfalso
        rcases (inProper_iff _ _ _).mp h2 with ⟨hsub, hne⟩
        rcases proper_sub_child st.folders hA hsub hne with ⟨c, hc, hcp⟩
        have := hsnap c hc hcp
        simp at this
    have hoptfalse : ∀ o : Option String, optInProper st.folders fid o = false := by
      intro o
      cases o with
      | none => rfl
      | some h =>
        cases hP : inProper st.folders fid h with
        | false => exact hP
        | true =>
          exfalso
          rcases (inProper_iff _ _ _).mp hP with ⟨hsub, hne⟩
          have hrec := sub_has_record st.folders hsub hne
          rcases Option.isSome_iff_exists.mp hrec with ⟨f, hf⟩
          rcases findF_mem_id hf with ⟨hfmem, hfid⟩
          have h2 := hnoproper f hfmem
          rw [hfid, hP] at h2
          exact Bool.noConfusion h2
    refine ⟨?_, ?_, ?_, rfl, ?_, ?_⟩
    · show st.folders = _
      symm
      apply List.filter_eq_self.mpr
      intro g hgmem
      simp [hnoproper g hgmem]
    · show st.metas = _
      symm
      apply List.filter_eq_self.mpr
      intro m hm
      simp [hoptfalse m.folderId]
    · show st.docs = _
      symm
      apply List.filter_eq_self.mpr
      intro d hd
      unfold docInProper
      cases hm : findMeta st d.id with
      | none => simp
      | some m => simp [hoptfalse m.folderId]
    · intro e he
      have h0 : (delSubLoop (deleteSubfoldersInFolder k) fid [] st).2 = [] := rfl
      rw [h0] at he
      simp at he
    · intro g T1 T2 heqtr
      have h0 : (delSubLoop (deleteSubfoldersInFolder k) fid [] st).2 = [] := rfl
      rw [h0] at heqtr
      exact absurd heqtr (by simp)
  | cons gid rest ih =>
    intro st hNF hNM hA hcnt hsnap
    cases hg : findFolder st gid with
    | none =>
      rw [delSubLoop_cons_none hg]
      apply ih st hNF hNM hA hcnt
      intro g hgmem hgp
      rcases List.mem_cons.mp (hsnap g hgmem hgp) with h1 | h1
      · exfalso
        have hsome : (findFolder st gid).isSome = true := by
          unfold findFolder
          exact List.find?_isSome.mpr ⟨g, hgmem, by simp [h1]⟩
        rw [hg] at hsome
        simp at hsome
      · exact h1
    | some subfolder =>
      have hsid : subfolder.id = gid := by
        have := List.find?_some hg
        simpa [beq_iff_eq] using this
      have hsmem : subfolder ∈ st.folders := List.mem_of_find?_eq_some hg
      by_cases hpar : (subfolder.parentFolderId == some fid) = true
      · -- direct child of fid: the main case
        have hparent : subfolder.parentFolderId = some fid := by simpa using hpar
        have hginP : inSubtree st.folders fid gid = true ∧ gid ≠ fid := by
          have := child_in_proper st.folders hA hNF hsmem hparent
          rwa [hsid] at this
        have hgidP : inProper st.folders fid gid = true :=
          (inProper_iff _ _ _).mpr hginP
        rw [delSubLoop_cons_hit hg hpar, hsid]
        obtain ⟨hd1m, hd1d, hd1f, hd1p, hd1e⟩ := deleteDocumentsInFolder_spec gid st hNM
        set st1 := (deleteDocumentsInFolder gid st).1 with hst1
        set trA := (deleteDocumentsInFolder gid st).2 with htrA
        have hNF1 : (st1.folders.map (fun f => f.id)).Nodup := by
          rw [hd1f]; exact hNF
        have hNM1 : (st1.metas.map (fun m => m.id)).Nodup := by
          rw [hd1m]
          exact ((List.filter_sublist st.metas).map (fun m => m.id)).nodup hNM
        have hA1 : Acyclic st1.folders := by rw [hd1f]; exact hA
        have hcnt1 : (st1.folders.filter
            (fun g => inProper st1.folders gid g.id)).length < k := by
          rw [hd1f]
          have hlt : (st.folders.filter (fun g => inProper st.folders gid g.id)).length
              < (st.folders.filter (fun g => inProper st.folders fid g.id)).length := by
            apply length_filter_lt_of_imp
              (fun g _ hgq => inProper_trans st.folders hA hgidP hgq) hsmem
            · rw [hsid]; exact hgidP
            · rw [hsid]
              unfold inProper
              simp
          omega
        obtain ⟨hf2, hm2, hd2, hp2, he2, ho2⟩ := Hrec gid st1 hNF1 hNM1 hA1 hcnt1
        set st2 := (deleteSubfoldersInFolder k gid st1).1 with hst2
        set trB := (deleteSubfoldersInFolder k gid st1).2 with htrB
        rw [hd1f] at hf2 hm2 ho2
        set st3 := eraseFolder st2 gid with hst3
        have hm3eq : st3.metas = st2.metas := rfl
        have hd3eq : st3.docs = st2.docs := rfl
        have hp3eq : st3.previews = st2.previews := rfl
        have hf3 : st3.folders
            = st.folders.filter (fun g => !(inSubtree st.folders gid g.id)) := by
          show st2.folders.filter (fun f => f.id != gid) = _
          rw [hf2, List.filter_filter]
          apply List.filter_congr
          intro g hgmem
          cases hsubB : inSubtree st.folders gid g.id with
          | true =>
            by_cases hgg : g.id = gid
            · simp [hsubB, hgg]
            · simp [hsubB, hgg, inProper]
          | false =>
            have hgg : g.id ≠ gid := by
              intro h
              rw [h, sub_refl _ _] at hsubB
              exact Bool.noConfusion hsubB
            simp [hsubB, hgg, inProper]
        -- core subtree conversion helpers
        have hsub_to_proper : ∀ x, inSubtree st.folders gid x = true →
            inProper st.folders fid x = true := by
          intro x hx
          by_cases hxg : x = gid
          · rw [hxg]; exact hgidP
          · exact inProper_trans st.folders hA hgidP ((inProper_iff _ _ _).mpr ⟨hx, hxg⟩)
        have hfullfilt : ∀ x, inSubtree st.folders fid x = true → x ≠ fid →
            inSubtree st.folders gid x = false →
            inSubtree st3.folders fid x = true := by
          intro x hx hxne hgx
          rw [hf3]
          apply sub_imp_filter hNF hA _ _ hx
          intro z hz h1 h2 h3
          cases hzx : inSubtree st.folders gid z.id with
          | false => simp [hzx]
          | true =>
            exfalso
            have h4 : inSubtree st.folders gid x = true := sub_trans st.folders hA h2 hzx
            rw [hgx] at h4
            exact Bool.noConfusion h4
        have hfiltfull : ∀ x, inSubtree st3.folders fid x = true →
            inSubtree st.folders fid x = true := by
          intro x hx
          rw [hf3] at hx
          exact sub_filter_imp hNF _ hx
        have hproper_eq : ∀ x, inSubtree st.folders gid x = false →
            inProper st3.folders fid x = inProper st.folders fid x := by
          intro x hgx
          cases hP : inProper st.folders fid x with
          | true =>
            rcases (inProper_iff _ _ _).mp hP with ⟨hsub, hne⟩
            exact (inProper_iff _ _ _).mpr ⟨hfullfilt x hsub hne hgx, hne⟩
          | false =>
            cases hP3 : inProper st3.folders fid x with
            | false => rfl
            | true =>
              exfalso
              rcases (inProper_iff _ _ _).mp hP3 with ⟨hsub3, hne⟩
              have h4 : inProper st.folders fid x = true :=
                (inProper_iff _ _ _).mpr ⟨hfiltfull x hsub3, hne⟩
              rw [hP] at h4
              exact Bool.noConfusion h4
        -- hypotheses for the loop on the rest
        have hNF3 : (st3.folders.map (fun f => f.id)).Nodup := by
          rw [hf3]; exact nodup_filter_ids hNF _
        have hNM3 : (st3.metas.map (fun m => m.id)).Nodup := by
          rw [hm3eq, hm2]
          exact ((List.filter_sublist st1.metas).map (fun m => m.id)).nodup hNM1
        have hA3 : Acyclic st3.folders := by
          rw [hf3]; exact acyclic_filter hNF hA _
        have hcnt3 : (st3.folders.filter
            (fun g => inProper st3.folders fid g.id)).length < k + 1 := by
          have step1 : (st3.folders.filter
              (fun g => inProper st3.folders fid g.id)).length
              ≤ (st3.folders.filter (fun g => inProper st.folders fid g.id)).length := by
            apply length_filter_le_of_imp
            intro g _ hq
            rcases (inProper_iff _ _ _).mp hq with ⟨hsub, hne⟩
            exact (inProper_iff _ _ _).mpr ⟨hfiltfull g.id hsub, hne⟩
          have step2 : (st3.folders.filter
              (fun g => inProper st.folders fid g.id)).length
              ≤ (st.folders.filter (fun g => inProper st.folders fid g.id)).length := by
            rw [← List.countP_eq_length_filter, ← List.countP_eq_length_filter]
            apply List.Sublist.countP_le
            rw [hf3]
            exact List.filter_sublist st.folders
          omega
        have hsnap3 : ∀ g ∈ st3.folders, g.parentFolderId = some fid → g.id ∈ rest := by
          intro g hgmem hgp
          have hgmem0 : g ∈ st.folders := by
            rw [hf3] at hgmem
            exact List.mem_of_mem_filter hgmem
          rcases List.mem_cons.mp (hsnap g hgmem0 hgp) with h1 | h1
          · exfalso
            rw [hf3] at hgmem
            have hpred := (List.mem_filter.mp hgmem).2
            rw [h1, sub_refl _ _] at hpred
            exact Bool.noConfusion hpred
          · exact h1
        obtain ⟨hf4, hm4, hd4, hp4, he4, ho4⟩ := ih st3 hNF3 hNM3 hA3 hcnt3 hsnap3
        set st4 := (delSubLoop (deleteSubfoldersInFolder k) fid rest st3).1 with hst4
        set trC := (delSubLoop (deleteSubfoldersInFolder k) fid rest st3).2 with htrC
        -- metadata membership transfer out of st3
        have hmem3 : ∀ m ∈ st3.metas, m ∈ st.metas := by
          intro m hm
          have hm2' : m ∈ st2.metas := by rw [← hm3eq]; exact hm
          rw [hm2] at hm2'
          have hm1' : m ∈ st1.metas := List.mem_of_mem_filter hm2'
          rw [hd1m] at hm1'
          exact List.mem_of_mem_filter hm1'
        -- no metadata surviving in st3 points into the subtree of gid
        have hmetaQ : ∀ m ∈ st3.metas, optInSub st.folders gid m.folderId = false := by
          intro m hm
          have hm2' : m ∈ st2.metas := by rw [← hm3eq]; exact hm
          rw [hm2] at hm2'
          have hq2 : (!(optInProper st.folders gid m.folderId)) = true :=
            (List.mem_filter.mp hm2').2
          have hm1' : m ∈ st1.metas := List.mem_of_mem_filter hm2'
          rw [hd1m] at hm1'
          have hq1 : (!(m.folderId == some gid)) = true := (List.mem_filter.mp hm1').2
          cases ho : m.folderId with
          | none => rfl
          | some h =>
            show inSubtree st.folders gid h = false
            cases hs : inSubtree st.folders gid h with
            | false => rfl
            | true =>
              exfalso
              by_cases hhg : h = gid
              · rw [ho, hhg] at hq1
                simp at hq1
              · have hprop : inProper st.folders gid h = true :=
                  (inProper_iff _ _ _).mpr ⟨hs, hhg⟩
                rw [ho] at hq2
                have hopteq : optInProper st.folders gid (some h) = true := hprop
                rw [hopteq] at hq2
                simp at hq2
        -- no folder record surviving in st3 lies in the subtree of gid
        have hfolQ : ∀ f ∈ st3.folders, inSubtree st.folders gid f.id = false := by
          intro f hf
          rw [hf3] at hf
          have := (List.mem_filter.mp hf).2
          cases hs : inSubtree st.folders gid f.id with
          | false => rfl
          | true =>
            rw [hs] at this
            exact Bool.noConfusion this
        -- meta lookup transfer
        have hfmeta1n : ∀ did, findMeta st did = none → findMeta st1 did = none := by
          intro did h
          unfold findMeta at h ⊢
          rw [hd1m, find?_key_filter (fun m : DocMeta => m.id) hNM
            (fun m : DocMeta => !(m.folderId == some gid)) did, h]
        have hfmeta1s : ∀ did m, findMeta st did = some m →
            (!(m.folderId == some gid)) = true → findMeta st1 did = some m := by
          intro did m h hq
          unfold findMeta at h ⊢
          rw [hd1m, find?_key_filter (fun m : DocMeta => m.id) hNM
            (fun m : DocMeta => !(m.folderId == some gid)) did, h]
          simp [hq]
        have hfmeta3n : ∀ did, findMeta st1 did = none → findMeta st3 did = none := by
          intro did h
          unfold findMeta at h ⊢
          rw [hm3eq, hm2, find?_key_filter (fun m : DocMeta => m.id) hNM1
            (fun m : DocMeta => !(optInProper st.folders gid m.folderId)) did, h]
        have hfmeta3s : ∀ did m, findMeta st1 did = some m →
            (!(optInProper st.folders gid m.folderId)) = true →
            findMeta st3 did = some m := by
          intro did m h hq
          unfold findMeta at h ⊢
          rw [hm3eq, hm2, find?_key_filter (fun m : DocMeta => m.id) hNM1
            (fun m : DocMeta => !(optInProper st.folders gid m.folderId)) did, h]
          simp [hq]
        unfold SubSpec
        refine ⟨?_, ?_, ?_, ?_, ?_, ?_⟩
        · -- folders
          show st4.folders = _
          rw [hf4]
          nth_rewrite 2 [hf3]
          rw [List.filter_filter]
          apply List.filter_congr
          intro g hgmem
          cases hgsub : inSubtree st.folders gid g.id with
          | true =>
            have h5 := hsub_to_proper g.id hgsub
            simp [hgsub, h5]
          | false =>
            have h5 := hproper_eq g.id hgsub
            simp [hgsub, h5]
        · -- metas
          show st4.metas = _
          rw [hm4, hm3eq, hm2, hd1m, List.filter_filter, List.filter_filter]
          apply List.filter_congr
          intro m hmmem
          cases ho : m.folderId with
          | none => simp [ho, optInProper]
          | some h =>
            cases hgsub : inSubtree st.folders gid h with
            | true =>
              have htp := hsub_to_proper h hgsub
              by_cases hhg : h = gid
              · simp [ho, hhg, optInProper, hgidP]
              · have hQ2 : inProper st.folders gid h = true :=
                  (inProper_iff _ _ _).mpr ⟨hgsub, hhg⟩
                simp [ho, optInProper, hQ2, htp]
            | false =>
              have hhg : h ≠ gid := by
                intro he
                rw [he, sub_refl _ _] at hgsub
                exact Bool.noConfusion hgsub
              have hP2 : inProper st.folders gid h = false := by
                unfold inProper
                rw [hgsub]
                rfl
              have hpe := hproper_eq h hgsub
              simp [ho, optInProper, hhg, hP2, hpe]
        · -- docs
          show st4.docs = _
          rw [hd4, hd3eq, hd2, hd1d, List.filter_filter, List.filter_filter]
          apply List.filter_congr
          intro d hdmem
          cases hmd : findMeta st d.id with
          | none =>
            have h1 : findMeta st1 d.id = none := hfmeta1n d.id hmd
            have h3 : findMeta st3 d.id = none := hfmeta3n d.id h1
            have hv1 : metaInFolder st gid d.id = false := by
              unfold metaInFolder
              rw [hmd]
            have hv2 : docInProper st1 gid d.id = false := by
              unfold docInProper
              rw [h1]
            have hv3 : docInProper st3 fid d.id = false := by
              unfold docInProper
              rw [h3]
            have hvt : docInProper st fid d.id = false := by
              unfold docInProper
              rw [hmd]
            simp [hv1, hv2, hv3, hvt]
          | some m =>
            cases ho : m.folderId with
            | none =>
              have h1 : findMeta st1 d.id = some m :=
                hfmeta1s d.id m hmd (by simp [ho])
              have h3 : findMeta st3 d.id = some m :=
                hfmeta3s d.id m h1 (by rw [ho]; rfl)
              have hv1 : metaInFolder st gid d.id = false := by
                unfold metaInFolder
                rw [hmd]
                show (m.folderId == some gid) = false
                rw [ho]
                rfl
              have hv2 : docInProper st1 gid d.id = false := by
                unfold docInProper
                rw [h1]
                show optInProper st1.folders gid m.folderId = false
                rw [ho]
                rfl
              have hv3 : docInProper st3 fid d.id = false := by
                unfold docInProper
                rw [h3]
                show optInProper st3.folders fid m.folderId = false
                rw [ho]
                rfl
              have hvt : docInProper st fid d.id = false := by
                unfold docInProper
                rw [hmd]
                show optInProper st.folders fid m.folderId = false
                rw [ho]
                rfl
              simp [hv1, hv2, hv3, hvt]
            | some h =>
              by_cases hhg : h = gid
              · have hv1 : metaInFolder st gid d.id = true := by
                  unfold metaInFolder
                  rw [hmd]
                  show (m.folderId == some gid) = true
                  rw [ho, hhg]
                  simp
                have hvt : docInProper st fid d.id = true := by
                  unfold docInProper
                  rw [hmd]
                  show optInProper st.folders fid m.folderId = true
                  rw [ho, hhg]
                  exact hgidP
                simp [hv1, hvt]
              · have h1 : findMeta st1 d.id = some m :=
                  hfmeta1s d.id m hmd (by simp [ho, hhg])
                have hv1 : metaInFolder st gid d.id = false := by
                  unfold metaInFolder
                  rw [hmd]
                  show (m.folderId == some gid) = false
                  rw [ho]
                  simp [hhg]
                cases hgsub : inSubtree st.folders gid h with
                | true =>
                  have hQ2 : inProper st.folders gid h = true :=
                    (inProper_iff _ _ _).mpr ⟨hgsub, hhg⟩
                  have hv2 : docInProper st1 gid d.id = true := by
                    unfold docInProper
                    rw [h1]
                    show optInProper st1.folders gid m.folderId = true
                    rw [ho, hd1f]
                    exact hQ2
                  have hvt : docInProper st fid d.id = true := by
                    unfold docInProper
                    rw [hmd]
                    show optInProper st.folders fid m.folderId = true
                    rw [ho]
                    exact hsub_to_proper h hgsub
                  simp [hv1, hv2, hvt]
                | false =>
                  have hQ2 : inProper st.folders gid h = false := by
                    unfold inProper
                    rw [hgsub]
                    rfl
                  have hv2 : docInProper st1 gid d.id = false := by
                    unfold docInProper
                    rw [h1]
                    show optInProper st1.folders gid m.folderId = false
                    rw [ho, hd1f]
                    exact hQ2
                  have h3 : findMeta st3 d.id = some m := by
                    apply hfmeta3s d.id m h1
                    rw [ho]
                    show (!(inProper st.folders gid h)) = true
                    rw [hQ2]
                    rfl
                  have hv3 : docInProper st3 fid d.id = inProper st3.folders fid h := by
                    unfold docInProper
                    rw [h3]
                    show optInProper st3.folders fid m.folderId = inProper st3.folders fid h
                    rw [ho]
                    rfl
                  have hvt : docInProper st fid d.id = inProper st.folders fid h := by
                    unfold docInProper
                    rw [hmd]
                    show optInProper st.folders fid m.folderId = inProper st.folders fid h
                    rw [ho]
                    rfl
                  have hpe := hproper_eq h hgsub
                  simp [hv1, hv2, hv3, hvt, hpe]
        · -- previews
          show st4.previews = _
          rw [hp4, hp3eq, hp2, hd1p]
        · -- every event strictly inside the subtree of fid
          intro e he
          have hoptconv : ∀ o : Option String, optInProper st.folders gid o = true →
              optInProper st.folders fid o = true := by
            intro o ho
            cases o with
            | none => exact absurd ho (by simp [optInProper])
            | some h =>
              have h2 : inProper st.folders gid h = true := ho
              rcases (inProper_iff _ _ _).mp h2 with ⟨hs, _⟩
              exact hsub_to_proper h hs
          have hoptconv3 : ∀ o : Option String, optInProper st3.folders fid o = true →
              optInProper st.folders fid o = true := by
            intro o ho
            cases o with
            | none => exact absurd ho (by simp [optInProper])
            | some h =>
              have h2 : inProper st3.folders fid h = true := ho
              rcases (inProper_iff _ _ _).mp h2 with ⟨hs, hne⟩
              exact (inProper_iff _ _ _).mpr ⟨hfiltfull h hs, hne⟩
          rcases List.mem_append.mp he with h1 | h1
          · rcases List.mem_append.mp h1 with h2 | h2
            · rcases List.mem_append.mp h2 with h3 | h3
              · -- event from the document deletion pass
                rcases hd1e e h3 with ⟨m, hmmem, hmf, hev⟩
                have hopt : optInProper st.folders fid m.folderId = true := by
                  rw [hmf]
                  exact hgidP
                rcases hev with hev | hev
                · rw [hev]
                  exact ⟨m, hmmem, rfl, hopt⟩
                · rw [hev]
                  exact ⟨m, hmmem, rfl, hopt⟩
              · -- event from the recursive destruction of gid
                have hx := he2 e h3
                cases e with
                | delFolder h =>
                  rcases hx with ⟨⟨f, hf1, hf2⟩, hp⟩
                  rw [hd1f] at hf1
                  rw [hd1f] at hp
                  rcases (inProper_iff _ _ _).mp hp with ⟨hs, _⟩
                  exact ⟨⟨f, hf1, hf2⟩, hsub_to_proper h hs⟩
                | delMeta mid =>
                  rcases hx with ⟨m, hm1, hmid, hopt⟩
                  rw [hd1m] at hm1
                  rw [hd1f] at hopt
                  exact ⟨m, List.mem_of_mem_filter hm1, hmid, hoptconv _ hopt⟩
                | delDoc did =>
                  rcases hx with ⟨m, hm1, hmid, hopt⟩
                  rw [hd1m] at hm1
                  rw [hd1f] at hopt
                  exact ⟨m, List.mem_of_mem_filter hm1, hmid, hoptconv _ hopt⟩
            · -- the unlink of gid itself
              have hev : e = FsEv.delFolder gid := by simpa using h2
              rw [hev]
              exact ⟨⟨subfolder, hsmem, hsid⟩, hgidP⟩
          · -- event from the loop over the remaining snapshot
            have hx := he4 e h1
            cases e with
            | delFolder h =>
              rcases hx with ⟨⟨f, hf1, hf2⟩, hp⟩
              have hf1' : f ∈ st.folders := by
                rw [hf3] at hf1
                exact List.mem_of_mem_filter hf1
              rcases (inProper_iff _ _ _).mp hp with ⟨hs, hne⟩
              exact ⟨⟨f, hf1', hf2⟩, (inProper_iff _ _ _).mpr ⟨hfiltfull h hs, hne⟩⟩
            | delMeta mid =>
              rcases hx with ⟨m, hm1, hmid, hopt⟩
              exact ⟨m, hmem3 m hm1, hmid, hoptconv3 _ hopt⟩
            | delDoc did =>
              rcases hx with ⟨m, hm1, hmid, hopt⟩
              exact ⟨m, hmem3 m hm1, hmid, hoptconv3 _ hopt⟩
        · -- ordering: nothing after a folder unlink touches its subtree
          intro g T1 T2 heqtr e heT2 htouch
          -- nothing in the tail loop touches anything inside the subtree of gid
          have hC : ∀ e2 ∈ trC, ∀ g2, inSubtree st.folders gid g2 = true →
              ¬ TouchesSub st.folders st.metas g2 e2 := by
            intro e2 he2' g2 hg2 ht
            have hex := he4 e2 he2'
            cases e2 with
            | delFolder h =>
              have hgh : inSubtree st.folders gid h = true :=
                sub_trans st.folders hA ht hg2
              rcases hex with ⟨⟨f, hf1, hf2⟩, _⟩
              have := hfolQ f hf1
              rw [hf2, hgh] at this
              exact Bool.noConfusion this
            | delMeta mid =>
              rcases ht with ⟨m, hm1, hmid, hopt⟩
              rcases hex with ⟨m2, hm1', hmid', _⟩
              have heqm : m2 = m := nodup_key_inj (fun m : DocMeta => m.id) hNM
                (hmem3 m2 hm1') hm1 (by show m2.id = m.id; rw [hmid', hmid])
              have hq := hmetaQ m2 hm1'
              rw [heqm] at hq
              cases hofld : m.folderId with
              | none =>
                rw [hofld] at hopt
                exact absurd hopt (by simp [optInSub])
              | some h =>
                rw [hofld] at hopt hq
                have hgh : inSubtree st.folders gid h = true :=
                  sub_trans st.folders hA hopt hg2
                have hq2 : inSubtree st.folders gid h = false := hq
                rw [hgh] at hq2
                exact Bool.noConfusion hq2
            | delDoc did =>
              rcases ht with ⟨m, hm1, hmid, hopt⟩
              rcases hex with ⟨m2, hm1', hmid', _⟩
              have heqm : m2 = m := nodup_key_inj (fun m : DocMeta => m.id) hNM
                (hmem3 m2 hm1') hm1 (by show m2.id = m.id; rw [hmid', hmid])
              have hq := hmetaQ m2 hm1'
              rw [heqm] at hq
              cases hofld : m.folderId with
              | none =>
                rw [hofld] at hopt
                exact absurd hopt (by simp [optInSub])
              | some h =>
                rw [hofld] at hopt hq
                have hgh : inSubtree st.folders gid h = true :=
                  sub_trans st.folders hA hopt hg2
                have hq2 : inSubtree st.folders gid h = false := hq
                rw [hgh] at hq2
                exact Bool.noConfusion hq2
          rcases append_split_cases heqtr with ⟨S1, S2, hX, hT2⟩ | ⟨S1, S2, hC1, hT2⟩
          · -- the unlink of g happens before the tail loop
            rcases append_split_cases hX with ⟨U1, U2, hAB, hS2⟩ | ⟨U1, U2, hunit, hS2⟩
            · -- the unlink of g happens inside trA ++ trB
              rcases append_split_cases hAB with ⟨V1, V2, hA2, hU2⟩ | ⟨V1, V2, hB2, hU2⟩
              · -- impossible: the document pass unlinks no folders
                have hgmemA : FsEv.delFolder g ∈ trA := by
                  rw [hA2]
                  exact List.mem_append.mpr (Or.inr (List.mem_cons_self _ _))
                rcases hd1e _ hgmemA with ⟨m, _, _, hev⟩
                rcases hev with hev | hev
                · exact FsEv.noConfusion hev
                · exact FsEv.noConfusion hev
              · -- the unlink of g is part of the recursive destruction of gid
                have hgmemB : FsEv.delFolder g ∈ trB := by
                  rw [hB2]
                  exact List.mem_append.mpr (Or.inr (List.mem_cons_self _ _))
                have hgtx := he2 _ hgmemB
                rcases hgtx with ⟨⟨f, hf1, hf2⟩, hpg⟩
                rw [hd1f] at hpg
                rcases (inProper_iff _ _ _).mp hpg with ⟨hginsub, hgne⟩
                -- T2 = (V2 ++ [delFolder gid]) ++ trC
                rw [hT2, hS2, hU2] at heT2
                rcases List.mem_append.mp heT2 with hin | hin
                · rcases List.mem_append.mp hin with hin2 | hin2
                  · -- e still inside the recursive destruction, after delFolder g
                    have hconv : TouchesSub st.folders st1.metas g e := by
                      cases e with
                      | delFolder h => exact htouch
                      | delMeta mid =>
                        rcases htouch with ⟨m, hm1, hmid, hopt⟩
                        have hxev := he2 (FsEv.delMeta mid) (by
                          rw [hB2]
                          exact List.mem_append.mpr (Or.inr
                            (List.mem_cons_of_mem _ hin2)))
                        rcases hxev with ⟨m2, hm2', hmid', _⟩
                        have hm2st : m2 ∈ st.metas := by
                          rw [hd1m] at hm2'
                          exact List.mem_of_mem_filter hm2'
                        have heqm : m2 = m := nodup_key_inj (fun m : DocMeta => m.id)
                          hNM hm2st hm1 (by show m2.id = m.id; rw [hmid', hmid])
                        exact ⟨m2, hm2', hmid', by rw [heqm]; exact hopt⟩
                      | delDoc did =>
                        rcases htouch with ⟨m, hm1, hmid, hopt⟩
                        have hxev := he2 (FsEv.delDoc did) (by
                          rw [hB2]
                          exact List.mem_append.mpr (Or.inr
                            (List.mem_cons_of_mem _ hin2)))
                        rcases hxev with ⟨m2, hm2', hmid', _⟩
                        have hm2st : m2 ∈ st.metas := by
                          rw [hd1m] at hm2'
                          exact List.mem_of_mem_filter hm2'
                        have heqm : m2 = m := nodup_key_inj (fun m : DocMeta => m.id)
                          hNM hm2st hm1 (by show m2.id = m.id; rw [hmid', hmid])
                        exact ⟨m2, hm2', hmid', by rw [heqm]; exact hopt⟩
                    exact ho2 g V1 V2 hB2 e hin2 hconv
                  · -- e is the unlink of gid itself
                    have hev : e = FsEv.delFolder gid := by simpa using hin2
                    rw [hev] at htouch
                    have hggid : inSubtree st.folders g gid = true := htouch
                    exact hgne ((sub_antisym st.folders hA hginsub hggid).symm)
                · exact hC e hin g hginsub htouch
            · -- the unlink of g is the unlink of gid
              cases U1 with
              | nil =>
                have h5 := hunit.symm
                rw [List.nil_append] at h5
                simp only [List.cons.injEq, FsEv.delFolder.injEq] at h5
                rw [hT2, hS2, h5.2, List.nil_append] at heT2
                exact hC e heT2 g (by rw [h5.1]; exact sub_refl _ _) htouch
              | cons y U3 =>
                exfalso
                have h6 := hunit
                rw [List.cons_append] at h6
                simp at h6
          · -- the unlink of g happens inside the tail loop
            have hgdel : FsEv.delFolder g ∈ trC := by
              rw [hC1]
              exact List.mem_append.mpr (Or.inr (List.mem_cons_self _ _))
            rcases he4 _ hgdel with ⟨⟨f, hfmem3, hfidg⟩, hprop3⟩
            have hgnotin : inSubtree st.folders gid g = false := by
              have := hfolQ f hfmem3
              rw [hfidg] at this
              exact this
            have hsubg_clear : ∀ x, inSubtree st.folders g x = true →
                inSubtree st.folders gid x = false := by
              intro x hx
              cases hres : inSubtree st.folders gid x with
              | false => rfl
              | true =>
                exfalso
                rcases sub_linear st.folders hA hx hres with hlin | hlin
                · have hppg : parentOfF st.folders gid = some fid := by
                    unfold parentOfF
                    rw [show findF st.folders gid = some subfolder from hg]
                    exact hparent
                  rw [inSubtree_iff, ancChain_subFuel_unfold st.folders hppg] at hlin
                  rcases List.mem_cons.mp hlin with hgg | hgg
                  · rw [hgg, sub_refl _ _] at hgnotin
                    exact Bool.noConfusion hgnotin
                  · have hgf : inSubtree st.folders g fid = true := by
                      rw [inSubtree_iff]
                      exact mem_ancChain_mono st.folders (by unfold subFuel; omega) hgg
                    rcases (inProper_iff _ _ _).mp hprop3 with ⟨hs, hne⟩
                    have hfg : inSubtree st.folders fid g = true := hfiltfull g hs
                    exact hne (sub_antisym st.folders hA hgf hfg)
                · rw [hlin] at hgnotin
                  exact Bool.noConfusion hgnotin
            have hconvsub : ∀ x, inSubtree st.folders g x = true →
                inSubtree st3.folders g x = true := by
              intro x hx
              rw [hf3]
              apply sub_imp_filter hNF hA _ _ hx
              intro z hz h1 h2 h3
              have := hsubg_clear z.id h1
              rw [this]
              rfl
            rw [hT2] at heT2
            have he_inC : e ∈ trC := by
              rw [hC1]
              exact List.mem_append.mpr (Or.inr (List.mem_cons_of_mem _ heT2))
            have htouch3 : TouchesSub st3.folders st3.metas g e := by
              cases e with
              | delFolder h =>
                exact hconvsub h htouch
              | delMeta mid =>
                rcases htouch with ⟨m, hm1, hmid, hopt⟩
                rcases he4 _ he_inC with ⟨m2, hm1', hmid', _⟩
                have heqm : m2 = m := nodup_key_inj (fun m : DocMeta => m.id) hNM
                  (hmem3 m2 hm1') hm1 (by show m2.id = m.id; rw [hmid', hmid])
                refine ⟨m2, hm1', hmid', ?_⟩
                rw [heqm]
                cases hofld : m.folderId with
                | none =>
                  rw [hofld] at hopt
                  exact absurd hopt (by simp [optInSub])
                | some h =>
                  rw [hofld] at hopt
                  show inSubtree st3.folders g h = true
                  exact hconvsub h hopt
              | delDoc did =>
                rcases htouch with ⟨m, hm1, hmid, hopt⟩
                rcases he4 _ he_inC with ⟨m2, hm1', hmid', _⟩
                have heqm : m2 = m := nodup_key_inj (fun m : DocMeta => m.id) hNM
                  (hmem3 m2 hm1') hm1 (by show m2.id = m.id; rw [hmid', hmid])
                refine ⟨m2, hm1', hmid', ?_⟩
                rw [heqm]
                cases hofld : m.folderId with
                | none =>
                  rw [hofld] at hopt
                  exact absurd hopt (by simp [optInSub])
                | some h =>
                  rw [hofld] at hopt
                  show inSubtree st3.folders g h = true
                  exact hconvsub h hopt
            exact ho4 g S1 S2 hC1 e heT2 htouch3
      · -- snapshot entry that is not a direct child
        rw [delSubLoop_cons_skip hg (by simpa using hpar)]
        apply ih st hNF hNM hA hcnt
        intro g hgmem hgp
        rcases List.mem_cons.mp (hsnap g hgmem hgp) with h1 | h1
        · exfalso
          have hgsame : g = subfolder := nodup_key_inj (fun f : Folder => f.id)
            hNF hgmem hsmem (by show g.id = subfolder.id; rw [h1, hsid])
          rw [hgsame] at hgp
          rw [hgp] at hpar
          simp at hpar
        · exact h1

/-- The recursive subfolder destruction satisfies the joint specification
whenever the depth budget exceeds the strict-subtree record count. -/
theorem deleteSubfoldersInFolder_spec :
    ∀ (k : Nat) (fid : String) (st : St),
      (st.folders.map (fun f => f.id)).Nodup →
      (st.metas.map (fun m => m.id)).Nodup →
      Acyclic st.folders →
      (st.folders.filter (fun g => inProper st.folders fid g.id)).length < k →
      SubSpec fid st (deleteSubfoldersInFolder k fid st) := by
  intro k
  induction k with
  | zero =>
    intro fid st _ _ _ hcnt
    exact absurd hcnt (Nat.not_lt_zero _)
  | succ k ihk =>
    intro fid st hNF hNM hA hcnt
    show SubSpec fid st
      (delSubLoop (deleteSubfoldersInFolder k) fid
        (st.folders.map (fun f => f.id)) st)
    apply delSubLoop_spec k ihk fid (st.folders.map (fun f => f.id)) st
      hNF hNM hA hcnt
    intro g hgmem _
    exact List.mem_map.mpr ⟨g, hgmem, rfl⟩

/-- The named document's metadata places it anywhere inside the subtree. -/
def docInSub (st : St) (root did : String) : Bool :=
  match findMeta st did with
  | some m => optInSub st.folders root m.folderId
  | none => false

/-- Unfolding the folder delete route once both validations pass. -/
theorem folderDelete_hit {folderId : String} {st : St} {f : Folder}
    (hpre : strStartsWith folderId "folder_" = true)
    (hfind : findFolder st folderId = some f) :
    folderDelete folderId st =
      (FolderDeleteRes.ok,
       eraseFolder
         (deleteSubfoldersInFolder
           ((deleteDocumentsInFolder folderId st).1.folders.length + 1) folderId
           (deleteDocumentsInFolder folderId st).1).1 folderId,
       (deleteDocumentsInFolder folderId st).2 ++
         (deleteSubfoldersInFolder
           ((deleteDocumentsInFolder folderId st).1.folders.length + 1) folderId
           (deleteDocumentsInFolder folderId st).1).2 ++
         [FsEv.delFolder folderId]) := by
  unfold folderDelete
  rw [hpre, hfind]
  rfl

/-- C3: on a well-formed store (duplicate-free folder and metadata ids,
acyclic parent chains), deleting an existing folder F returns success,
removes the content file and the metadata file of exactly the documents
whose folderId lies in the subtree of F (F itself or any descendant),
removes exactly the folder records in the subtree of F including F's own
record, leaves previews untouched, unlinks F's own record last, and is
depth-first: after any folder record's unlink event, no later event touches
that folder's subtree. -/
theorem C3_folder_delete_cascade (folderId : String) (st : St) (f : Folder)
    (hNF : (st.folders.map (fun f => f.id)).Nodup)
    (hNM : (st.metas.map (fun m => m.id)).Nodup)
    (hA : Acyclic st.folders)
    (hpre : strStartsWith folderId "folder_" = true)
    (hfind : findFolder st folderId = some f) :
    (folderDelete folderId st).1 = FolderDeleteRes.ok ∧
    (folderDelete folderId st).2.1.folders
        = st.folders.filter (fun g => !(inSubtree st.folders folderId g.id)) ∧
    (folderDelete folderId st).2.1.metas
        = st.metas.filter (fun m => !(optInSub st.folders folderId m.folderId)) ∧
    (folderDelete folderId st).2.1.docs
        = st.docs.filter (fun d => !(docInSub st folderId d.id)) ∧
    (folderDelete folderId st).2.1.previews = st.previews ∧
    (folderDelete folderId st).2.2.getLast? = some (FsEv.delFolder folderId) ∧
    (∀ g T1 T2, (folderDelete folderId st).2.2 = T1 ++ FsEv.delFolder g :: T2 →
      ∀ e ∈ T2, ¬ TouchesSub st.folders st.metas g e) := by
  rw [folderDelete_hit hpre hfind]
  obtain ⟨hd1m, hd1d, hd1f, hd1p, hd1e⟩ :=
    deleteDocumentsInFolder_spec folderId st hNM
  set st1 := (deleteDocumentsInFolder folderId st).1 with hst1
  set trA := (deleteDocumentsInFolder folderId st).2 with htrA
  have hNF1 : (st1.folders.map (fun f => f.id)).Nodup := by rw [hd1f]; exact hNF
  have hNM1 : (st1.metas.map (fun m => m.id)).Nodup := by
    rw [hd1m]
    exact ((List.filter_sublist st.metas).map (fun m => m.id)).nodup hNM
  have hA1 : Acyclic st1.folders := by rw [hd1f]; exact hA
  have hcnt1 : (st1.folders.filter
      (fun g => inProper st1.folders folderId g.id)).length
      < st1.folders.length + 1 := by
    have := (List.filter_sublist st1.folders
        (p := fun g => inProper st1.folders folderId g.id)).length_le
    omega
  obtain ⟨hf2, hm2, hd2, hp2, he2, ho2⟩ :=
    deleteSubfoldersInFolder_spec (st1.folders.length + 1) folderId st1
      hNF1 hNM1 hA1 hcnt1
  set st2 := (deleteSubfoldersInFolder (st1.folders.length + 1) folderId st1).1
    with hst2
  set trB := (deleteSubfoldersInFolder (st1.folders.length + 1) folderId st1).2
    with htrB
  rw [hd1f] at hf2 hm2 ho2
  refine ⟨rfl, ?_, ?_, ?_, ?_, ?_, ?_⟩
  · -- folders
    show st2.folders.filter (fun g => g.id != folderId) = _
    rw [hf2, List.filter_filter]
    apply List.filter_congr
    intro g hgmem
    cases hsubB : inSubtree st.folders folderId g.id with
    | true =>
      by_cases hgg : g.id = folderId
      · simp [hsubB, hgg]
      · simp [hsubB, hgg, inProper]
    | false =>
      have hgg : g.id ≠ folderId := by
        intro h
        rw [h, sub_refl _ _] at hsubB
        exact Bool.noConfusion hsubB
      simp [hsubB, hgg, inProper]
  · -- metas
    show st2.metas = _
    rw [hm2, hd1m, List.filter_filter]
    apply List.filter_congr
    intro m hmem
    cases ho : m.folderId with
    | none => simp [ho, optInProper, optInSub]
    | some h =>
      by_cases hhF : h = folderId
      · simp [ho, hhF, optInProper, optInSub, sub_refl]
      · have heq2 : inProper st.folders folderId h
            = inSubtree st.folders folderId h := by
          unfold inProper
          simp [hhF]
        simp [ho, hhF, optInProper, optInSub, heq2]
  · -- docs
    show st2.docs = _
    rw [hd2, hd1d, List.filter_filter]
    apply List.filter_congr
    intro d hdmem
    cases hmd : findMeta st d.id with
    | none =>
      have h1 : findMeta st1 d.id = none := by
        unfold findMeta at hmd ⊢
        rw [hd1m, find?_key_filter (fun m : DocMeta => m.id) hNM
          (fun m : DocMeta => !(m.folderId == some folderId)) d.id, hmd]
      have hv1 : metaInFolder st folderId d.id = false := by
        unfold metaInFolder
        rw [hmd]
      have hv2 : docInProper st1 folderId d.id = false := by
        unfold docInProper
        rw [h1]
      have hvt : docInSub st folderId d.id = false := by
        unfold docInSub
        rw [hmd]
      simp [hv1, hv2, hvt]
    | some m =>
      cases ho : m.folderId with
      | none =>
        have h1 : findMeta st1 d.id = some m := by
          unfold findMeta at hmd ⊢
          rw [hd1m, find?_key_filter (fun m : DocMeta => m.id) hNM
            (fun m : DocMeta => !(m.folderId == some folderId)) d.id, hmd]
          simp [ho]
        have hv1 : metaInFolder st folderId d.id = false := by
          unfold metaInFolder
          rw [hmd]
          show (m.folderId == some folderId) = false
          rw [ho]
          rfl
        have hv2 : docInProper st1 folderId d.id = false := by
          unfold docInProper
          rw [h1]
          show optInProper st1.folders folderId m.folderId = false
          rw [ho]
          rfl
        have hvt : docInSub st folderId d.id = false := by
          unfold docInSub
          rw [hmd]
          show optInSub st.folders folderId m.folderId = false
          rw [ho]
          rfl
        simp [hv1, hv2, hvt]
      | some h =>
        by_cases hhF : h = folderId
        · have hv1 : metaInFolder st folderId d.id = true := by
            unfold metaInFolder
            rw [hmd]
            show (m.folderId == some folderId) = true
            rw [ho, hhF]
            simp
          have hvt : docInSub st folderId d.id = true := by
            unfold docInSub
            rw [hmd]
            show optInSub st.folders folderId m.folderId = true
            rw [ho, hhF]
            show inSubtree st.folders folderId folderId = true
            exact sub_refl _ _
          simp [hv1, hvt]
        · have h1 : findMeta st1 d.id = some m := by
            unfold findMeta at hmd ⊢
            rw [hd1m, find?_key_filter (fun m : DocMeta => m.id) hNM
              (fun m : DocMeta => !(m.folderId == some folderId)) d.id, hmd]
            simp [ho, hhF]
          have hv1 : metaInFolder st folderId d.id = false := by
            unfold metaInFolder
            rw [hmd]
            show (m.folderId == some folderId) = false
            rw [ho]
            simp [hhF]
          have hv2 : docInProper st1 folderId d.id
              = inSubtree st.folders folderId h := by
            unfold docInProper
            rw [h1]
            show optInProper st1.folders folderId m.folderId = _
            rw [ho, hd1f]
            show inProper st.folders folderId h = _
            unfold inProper
            simp [hhF]
          have hvt : docInSub st folderId d.id
              = inSubtree st.folders folderId h := by
            unfold docInSub
            rw [hmd]
            show optInSub st.folders folderId m.folderId = _
            rw [ho]
            rfl
          simp [hv1, hv2, hvt]
  · -- previews
    show st2.previews = _
    rw [hp2, hd1p]
  · -- the unlink of F's own record comes last
    show (trA ++ trB ++ [FsEv.delFolder folderId]).getLast? = _
    rw [List.getLast?_concat]
  · -- depth-first ordering
    intro g T1 T2 heqtr e heT2 htouch
    rcases append_split_cases heqtr with ⟨S1, S2, hX, hT2⟩ | ⟨S1, S2, hunit, hT2⟩
    · rcases append_split_cases hX with ⟨V1, V2, hA2, hS2⟩ | ⟨V1, V2, hB2, hS2⟩
      · -- the document pass unlinks no folders
        have hgmemA : FsEv.delFolder g ∈ trA := by
          rw [hA2]
          exact List.mem_append.mpr (Or.inr (List.mem_cons_self _ _))
        rcases hd1e _ hgmemA with ⟨m, _, _, hev⟩
        rcases hev with hev | hev
        · exact FsEv.noConfusion hev
        · exact FsEv.noConfusion hev
      · -- the unlink of g happens inside the recursive destruction
        have hgmemB : FsEv.delFolder g ∈ trB := by
          rw [hB2]
          exact List.mem_append.mpr (Or.inr (List.mem_cons_self _ _))
        rcases he2 _ hgmemB with ⟨⟨f2, hf1, hf2id⟩, hpg⟩
        rw [hd1f] at hpg
        rcases (inProper_iff _ _ _).mp hpg with ⟨hginsub, hgne⟩
        rw [hT2, hS2] at heT2
        rcases List.mem_append.mp heT2 with hin | hin
        · have hconv : TouchesSub st.folders st1.metas g e := by
            cases e with
            | delFolder h => exact htouch
            | delMeta mid =>
              rcases htouch with ⟨m, hm1, hmid, hopt⟩
              have hxev := he2 (FsEv.delMeta mid) (by
                rw [hB2]
                exact List.mem_append.mpr (Or.inr (List.mem_cons_of_mem _ hin)))
              rcases hxev with ⟨m2, hm2', hmid', _⟩
              have hm2st : m2 ∈ st.metas := by
                rw [hd1m] at hm2'
                exact List.mem_of_mem_filter hm2'
              have heqm : m2 = m := nodup_key_inj (fun m : DocMeta => m.id) hNM
                hm2st hm1 (by show m2.id = m.id; rw [hmid', hmid])
              exact ⟨m2, hm2', hmid', by rw [heqm]; exact hopt⟩
            | delDoc did =>
              rcases htouch with ⟨m, hm1, hmid, hopt⟩
              have hxev := he2 (FsEv.delDoc did) (by
                rw [hB2]
                exact List.mem_append.mpr (Or.inr (List.mem_cons_of_mem _ hin)))
              rcases hxev with ⟨m2, hm2', hmid', _⟩
              have hm2st : m2 ∈ st.metas := by
                rw [hd1m] at hm2'
                exact List.mem_of_mem_filter hm2'
              have heqm : m2 = m := nodup_key_inj (fun m : DocMeta => m.id) hNM
                hm2st hm1 (by show m2.id = m.id; rw [hmid', hmid])
              exact ⟨m2, hm2', hmid', by rw [heqm]; exact hopt⟩
          exact ho2 g V1 V2 hB2 e hin hconv
        · -- e is the final unlink of F itself
          have hev : e = FsEv.delFolder folderId := by simpa using hin
          rw [hev] at htouch
          have hFg : inSubtree st.folders g folderId = true := htouch
          exact hgne ((sub_antisym st.folders hA hginsub hFg).symm)
    · -- the split sits at the final unlink of F: nothing follows it
      cases S1 with
      | nil =>
        have h5 := hunit.symm
        rw [List.nil_append] at h5
        simp only [List.cons.injEq, FsEv.delFolder.injEq] at h5
        rw [hT2, h5.2] at heT2
        simp at heT2
      | cons y S3 =>
        have h6 := hunit
        rw [List.cons_append] at h6
        simp at h6

/-- Witness store for C3: a folder with two documents and one subfolder
that itself contains one document, as in the end-to-end scenario. -/
def fW3 : Folder :=
  { id := "folder_1"
    name := "Projects"
    parentFolderId := none
    createdAt := "2024-01-01"
    modifiedAt := "2024-01-01"
    documentCount := 2 }

def fW3b : Folder :=
  { id := "folder_2"
    name := "Sub"
    parentFolderId := some "folder_1"
    createdAt := "2024-01-01"
    modifiedAt := "2024-01-01"
    documentCount := 1 }

def mW3a : DocMeta :=
  { id := "doc_1"
    title := "One"
    createdAt := "2024-01-01"
    modifiedAt := "2024-01-01"
    size := 10
    type := "document"
    folderId := some "folder_1" }

def mW3b : DocMeta :=
  { id := "doc_2"
    title := "Two"
    createdAt := "2024-01-01"
    modifiedAt := "2024-01-01"
    size := 11
    type := "document"
    folderId := some "folder_1" }

def mW3c : DocMeta :=
  { id := "doc_3"
    title := "Three"
    createdAt := "2024-01-01"
    modifiedAt := "2024-01-01"
    size := 12
    type := "document"
    folderId := some "folder_2" }

def dW3a : DocRecord :=
  { id := "doc_1"
    title := "One"
    content := Json.null
    createdAt := "2024-01-01"
    modifiedAt := "2024-01-01" }

def dW3b : DocRecord :=
  { id := "doc_2"
    title := "Two"
    content := Json.null
    createdAt := "2024-01-01"
    modifiedAt := "2024-01-01" }

def dW3c : DocRecord :=
  { id := "doc_3"
    title := "Three"
    content := Json.null
    createdAt := "2024-01-01"
    modifiedAt := "2024-01-01" }

def stW3 : St :=
  { docs := [dW3a, dW3b, dW3c]
    metas := [mW3a, mW3b, mW3c]
    folders := [fW3, fW3b]
    previews := [("doc_1.svg", 5)] }

/-- Witness: the cascade theorem applies to the end-to-end witness store. -/
theorem C3_witness :
    (folderDelete "folder_1" stW3).1 = FolderDeleteRes.ok ∧
    (folderDelete "folder_1" stW3).2.1.folders
        = stW3.folders.filter (fun g => !(inSubtree stW3.folders "folder_1" g.id)) ∧
    (folderDelete "folder_1" stW3).2.1.metas
        = stW3.metas.filter (fun m => !(optInSub stW3.folders "folder_1" m.folderId)) ∧
    (folderDelete "folder_1" stW3).2.1.docs
        = stW3.docs.filter (fun d => !(docInSub stW3 "folder_1" d.id)) ∧
    (folderDelete "folder_1" stW3).2.1.previews = stW3.previews ∧
    (folderDelete "folder_1" stW3).2.2.getLast?
        = some (FsEv.delFolder "folder_1") ∧
    (∀ g T1 T2, (folderDelete "folder_1" stW3).2.2
        = T1 ++ FsEv.delFolder g :: T2 →
      ∀ e ∈ T2, ¬ TouchesSub stW3.folders stW3.metas g e) :=
  C3_folder_delete_cascade "folder_1" stW3 fW3 (by decide) (by decide)
    (acyclic_of_records _ (by decide)) (by decide) (by decide)

end UniDrive
